import Mathlib

/-!
# Verification of the csvise tabular profiling and cleaning engine

A shallow embedding, in Lean 4, of the profiling/cleaning core of the
`csvise` CSV command-line tool (modules `csvtools/types.py`,
`csvtools/delimiter.py`, `csvtools/statistics.py`,
`csvtools/cleaning_ops.py`), together with theorems settling the claims of
the natural-language specification against the code.

Modelling conventions:
* cells are Lean `String`s; tables are `List (List String)` plus a header
  `List String`;
* Python `float` arithmetic is modelled with exact rationals `ℚ`
  (`math.sqrt` in the correlation coefficient is modelled with `Real.sqrt`);
  float parsing (`float(v)`) is modelled for decimal literals
  (sign, digits, decimal point, exponent) — the special forms
  `inf`/`nan`/underscore separators are outside the model;
* Python string case/whitespace predicates are modelled at their ASCII
  meaning (Lean's `Char.toUpper`/`Char.toLower` are exactly Python's
  behaviour on the basic latin range);
* in-place mutation of shared row objects (the aliasing behaviour of
  `DataCleaner.__init__` / `reset_to_original`) is modelled by an explicit
  store of row objects indexed by identifiers, below in the
  `CleanerRef` section;
* module-level `CONFIG` entries read by a function are threaded in as an
  explicit argument;
* a Python function that can raise on some input is modelled with an
  `Option` result, `none` standing for the raised exception.
-/

namespace Csvise

/-! ## Python string primitives -/

/-- The characters matched by Python's `str.strip()` and `re`'s `\s` at
their ASCII meaning: space, tab, newline, carriage return, vertical tab,
form feed. -/
def pySpace (c : Char) : Bool :=
  c = ' ' || c = '\t' || c = '\n' || c = '\r' || c = '\x0b' || c = '\x0c'

/-- `str.strip()` on a character list: drop leading and trailing
whitespace. -/
def pyStripList (l : List Char) : List Char :=
  ((l.dropWhile pySpace).reverse.dropWhile pySpace).reverse

/-- `str.strip()`. -/
def pyStrip (s : String) : String :=
  ⟨pyStripList s.data⟩

/-- Python truthiness-plus-strip emptiness test used throughout the code:
`not cell or cell.strip() == ''`. -/
def isBlank (s : String) : Bool :=
  s = "" || pyStrip s = ""

/-- Value of a list of decimal digit characters. -/
def digitsVal (l : List Char) : Nat :=
  l.foldl (fun acc c => acc * 10 + (c.toNat - 48)) 0

/-- Parse an optional exponent suffix (`e`/`E`, optional sign, digits) at
the end of a float literal, scaling `base` accordingly. -/
def parseExpSuffix (base : ℚ) : List Char → Option ℚ
  | [] => some base
  | c :: rest =>
    if c = 'e' ∨ c = 'E' then
      let (sign, rest') : (Bool × List Char) :=
        match rest with
        | '+' :: r => (true, r)
        | '-' :: r => (false, r)
        | r => (true, r)
      let ds := rest'.takeWhile Char.isDigit
      if ds = [] ∨ rest'.dropWhile Char.isDigit ≠ [] then none
      else if sign then some (base * 10 ^ digitsVal ds)
      else some (base / 10 ^ digitsVal ds)
    else none

/-- Parse an unsigned decimal float literal: digits, optional fractional
part, optional exponent. -/
def parseUnsigned (l : List Char) : Option ℚ :=
  let intPart := l.takeWhile Char.isDigit
  let rest := l.dropWhile Char.isDigit
  match rest with
  | [] => if intPart = [] then none else some (digitsVal intPart)
  | '.' :: rest2 =>
    let frac := rest2.takeWhile Char.isDigit
    let rest3 := rest2.dropWhile Char.isDigit
    if intPart = [] ∧ frac = [] then none
    else
      parseExpSuffix
        ((digitsVal intPart : ℚ) + (digitsVal frac : ℚ) / 10 ^ frac.length)
        rest3
  | _ =>
    if intPart = [] then none else parseExpSuffix (digitsVal intPart) rest

/-- Model of Python's `float(value)` on decimal literals: surrounding
whitespace stripped, optional sign, decimal digits with optional point and
exponent.  Returns `none` where `float()` raises `ValueError`. -/
def pyFloat? (s : String) : Option ℚ :=
  match pyStripList s.data with
  | '+' :: r => parseUnsigned r
  | '-' :: r => (parseUnsigned r).map Neg.neg
  | r => parseUnsigned r

/-- `DataCleaner._is_numeric` / the `float(v)`-try tests: does `float`
accept the string. -/
def isNumericStr (s : String) : Bool :=
  (pyFloat? s).isSome

/-- Python's `str.isdigit()` at its ASCII meaning: nonempty and all
decimal digits. -/
def pyIsDigit (s : String) : Bool :=
  s.data ≠ [] && s.data.all Char.isDigit

/-- Python's `str.lower()` (ASCII range, like Lean's `Char.toLower`). -/
def pyLower (s : String) : String :=
  ⟨s.data.map Char.toLower⟩

/-- Python's `str.upper()` (ASCII range). -/
def pyUpper (s : String) : String :=
  ⟨s.data.map Char.toUpper⟩

/-- Does the string contain the given character (`'.' in value`,
`',' in sample_row`). -/
def strHasChar (c : Char) (s : String) : Bool :=
  s.data.contains c

/-- Is `pat` a contiguous substring of `l` (Python's `sub in s`)? -/
def listSub (pat l : List Char) : Bool :=
  if pat.isPrefixOf l then true
  else
    match l with
    | [] => pat = []
    | _ :: rest => listSub pat rest

/-- `sub in s` for strings.  Note Python's `'' in s` is `True`. -/
def strSub (pat s : String) : Bool :=
  listSub pat.data s.data

/-! ## `types.py` -/

/-- `detect_type(value, expected_type=None)` from `types.py`: bool when
the lowercase text is `true`/`false`; int when all digits; else try
`float`, where only this branch consults the `expected_type` hint; else
str. -/
def detect_type (value : String) (expected_type : Option String := none) :
    String :=
  if pyLower value = "true" ∨ pyLower value = "false" then "bool"
  else if pyIsDigit value then "int"
  else
    match pyFloat? value with
    | some _ =>
      if expected_type = some "int" ∧ ¬ strHasChar '.' value then "int"
      else "float"
    | none => "str"

/-- A `collections.Counter` over `l` listed as (key, count) pairs in
first-occurrence order (Python dict insertion order). -/
def counterList {α : Type} [DecidableEq α] (l : List α) : List (α × Nat) :=
  (l.dedup).map (fun a => (a, l.count a))

/-- `Counter(l).most_common(1)[0]`: the first key (in insertion order)
realising the maximal count; `none` when `l` is empty (where Python
raises `IndexError`). -/
def mostCommon1 {α : Type} [DecidableEq α] (l : List α) : Option (α × Nat) :=
  (counterList l).foldl
    (fun best p =>
      match best with
      | none => some p
      | some q => if p.2 > q.2 then some p else some q)
    none

/-- `determine_majority_type(types, threshold=0.7)` from `types.py`.
The outer `Option` is `none` exactly where the Python raises `IndexError`
(`most_common(1)[0]` on an empty `Counter`); the inner `Option` is the
function's own `None`-for-no-majority result. -/
def determine_majority_type (types : List String)
    (threshold : ℚ := 7/10) : Option (Option String) :=
  match mostCommon1 types with
  | none => none
  | some (t, c) =>
    some (if (c : ℚ) / (types.length : ℚ) ≥ threshold then some t else none)

/-! ## `delimiter.py` -/

/-- Two or more consecutive occurrences of `c` somewhere in the list
(`re.search(r'\t{2,}', s)` / `re.search(r' {2,}', s)`). -/
def hasDoubleChar (c : Char) : List Char → Bool
  | [] => false
  | [_] => false
  | a :: b :: rest => (a = c && b = c) || hasDoubleChar c (b :: rest)

/-- `detect_delimiter(sample_row, custom_delimiter=None)` from
`delimiter.py`, with `CONFIG["additional_delimiters"]` threaded in as
`cfg`.  `Except.error` carries the `ValueError` message. -/
def detect_delimiter (sample_row : String) (custom_delimiter : Option String)
    (cfg : List String) : Except String String :=
  if custom_delimiter.getD "" ≠ "" then .ok (custom_delimiter.getD "")
  else
    match cfg.find? (fun d => strSub d sample_row) with
    | some d => .ok d
    | none =>
      if hasDoubleChar '\t' sample_row.data then .ok "\\t+"
      else if hasDoubleChar ' ' sample_row.data then .ok " +"
      else if strHasChar ',' sample_row then .ok ","
      else .error "Supported delimiters are multiple tabs, multiple spaces, or comma. Use -dl flag for custom delimiter."

/-! ## `cleaning_ops.py` — value-level model

The `DataCleaner` methods read `self.rows`, compute a new row list (or
rewrite cells of the existing rows), and return a count.  This section
gives each operation as a pure function
`old rows (+ arguments) → (new rows, count)`; Python's in-place mutation
of shared row objects is modelled separately in the `CleanerRef` section
below. -/

/-- `DataCleaner._get_column_indices(columns)`: `None` means all columns;
otherwise `headers.index(col)` for each name found, unresolved names
skipped. -/
def get_column_indices (headers : List String)
    (columns : Option (List String)) : List Nat :=
  match columns with
  | none => List.range headers.length
  | some cols => cols.filterMap (fun c => headers.findIdx? (· = c))

/-- Column-index resolution at the top of `remove_duplicates`:
`if subset_columns:` (so an explicitly empty list is falsy, meaning all
columns), and falling back to all columns when no name resolves. -/
def dedupIndices (headers : List String)
    (subset_columns : Option (List String)) : List Nat :=
  match subset_columns with
  | none => List.range headers.length
  | some cols =>
    if cols = [] then List.range headers.length
    else
      let idxs := cols.filterMap (fun c => headers.findIdx? (· = c))
      if idxs = [] then List.range headers.length else idxs

/-- `tuple(row[j] if j < len(row) else '' for j in column_indices)`. -/
def rowKey (idxs : List Nat) (row : List String) : List String :=
  idxs.map (fun j => row.getD j "")

/-- Loop state of `remove_duplicates`: the `seen` key set, the
`cleaned_rows` accumulator, the removed count and the 1-based duplicate
row numbers. -/
structure DedupState where
  seen : List (List String)
  cleaned : List (List String)
  removed : Nat
  dupRows : List Nat
  deriving Repr, DecidableEq

/-- One iteration of the `remove_duplicates` loop body over `(i, row)`. -/
def dedupStep (idxs : List Nat) (keep : String) (st : DedupState)
    (iRow : Nat × List String) : DedupState :=
  let key := rowKey idxs iRow.2
  if key ∈ st.seen then
    let removed := st.removed + 1
    let dupRows := st.dupRows ++ [iRow.1 + 1]
    if keep = "last" then
      { st with
        cleaned := (st.cleaned.eraseP (fun r => rowKey idxs r == key)) ++
          [iRow.2],
        removed := removed, dupRows := dupRows }
    else
      -- keep == 'none' does `continue`; keep == 'first' (or anything
      -- else) falls through: either way the row is not appended.
      { st with removed := removed, dupRows := dupRows }
  else
    { st with seen := st.seen ++ [key], cleaned := st.cleaned ++ [iRow.2] }

/-- `DataCleaner.remove_duplicates(subset_columns, keep)`: the returned
`(cleaned_rows, duplicates_removed)` pair. -/
def remove_duplicates (rows : List (List String)) (headers : List String)
    (subset_columns : Option (List String) := none)
    (keep : String := "first") : List (List String) × Nat :=
  if rows = [] then (rows, 0)
  else
    let idxs := dedupIndices headers subset_columns
    let st := rows.enum.foldl (dedupStep idxs keep) ⟨[], [], 0, []⟩
    (st.cleaned, st.removed)

/-- Collapse every maximal run of whitespace to a single space
(`re.sub(r'\s+', ' ', ·)`); the flag records whether we are inside a
whitespace run already replaced. -/
def collapseWsAux : Bool → List Char → List Char
  | _, [] => []
  | inRun, c :: rest =>
    if pySpace c then
      if inRun then collapseWsAux true rest
      else ' ' :: collapseWsAux true rest
    else c :: collapseWsAux false rest

/-- Per-cell whitespace normalization:
`re.sub(r'\s+', ' ', original_value.strip())`. -/
def nwCell (s : String) : String :=
  ⟨collapseWsAux false (pyStripList s.data)⟩

/-- One column position of the per-row cell loop shared by
`normalize_whitespace` / `standardize_case` / `normalize_dates`: apply
`f` at position `j` when in range (and, for `requireNonempty`, when the
cell is truthy, matching `if j < len(row) and row[j]:`), counting the
cell if its value changed. -/
def rowApplyStep (f : String → String) (requireNonempty : Bool)
    (acc : List String × Nat) (j : Nat) : List String × Nat :=
  if j < acc.1.length ∧ (¬ requireNonempty ∨ acc.1.getD j "" ≠ "") then
    let ov := acc.1.getD j ""
    let nv := f ov
    if ov ≠ nv then (acc.1.set j nv, acc.2 + 1) else acc
  else acc

/-- Apply `f` to the cells of `row` at positions `idxs` (in order,
skipping out-of-range indices, and — when `requireNonempty` — skipping
falsy cells), counting the cells whose value changed. -/
def rowApply (idxs : List Nat) (f : String → String)
    (requireNonempty : Bool) (row : List String) : List String × Nat :=
  idxs.foldl (rowApplyStep f requireNonempty) (row, 0)

/-- Proof-side invariant: the cell loop's guard-plus-transform changes
nothing at position `j` of `row` (used to reason about re-runs). -/
def FixedAt (f : String → String) (requireNonempty : Bool)
    (row : List String) (j : Nat) : Prop :=
  j < row.length ∧ (¬ requireNonempty ∨ row.getD j "" ≠ "") →
    f (row.getD j "") = row.getD j ""

/-- Apply `f` cellwise over the whole table as `rowApply` does per row,
returning the new rows and the total modified-cell count. -/
def tableApply (rows : List (List String)) (idxs : List Nat)
    (f : String → String) (requireNonempty : Bool) :
    List (List String) × Nat :=
  (rows.map (fun row => (rowApply idxs f requireNonempty row).1),
   (rows.map (fun row => (rowApply idxs f requireNonempty row).2)).sum)

/-- `DataCleaner.normalize_whitespace(columns)`: the new rows and the
returned modified count. -/
def normalize_whitespace (rows : List (List String))
    (headers : List String) (columns : Option (List String) := none) :
    List (List String) × Nat :=
  if rows = [] then (rows, 0)
  else tableApply rows (get_column_indices headers columns) nwCell false

/-- Python's `str.title()` at its ASCII meaning: a letter directly after
a cased (here: alphabetic) character is lowercased, any other letter is
uppercased. -/
def pyTitleAux : Bool → List Char → List Char
  | _, [] => []
  | prevCased, c :: rest =>
    if c.isAlpha then
      (if prevCased then c.toLower else c.toUpper) :: pyTitleAux true rest
    else c :: pyTitleAux false rest

/-- `str.title()`. -/
def pyTitle (s : String) : String :=
  ⟨pyTitleAux false s.data⟩

/-- `str.capitalize()`: first character uppercased, the rest lowercased
(ASCII meaning). -/
def pyCapitalize (l : List Char) : List Char :=
  match l with
  | [] => []
  | c :: rest => c.toUpper :: rest.map Char.toLower

/-- `s.split('. ')`: split on the two-character separator, left to right,
non-overlapping. -/
def splitDotSpace : List Char → List (List Char)
  | [] => [[]]
  | [c] => [[c]]
  | c1 :: c2 :: rest =>
    if c1 = '.' ∧ c2 = ' ' then [] :: splitDotSpace rest
    else
      match splitDotSpace (c2 :: rest) with
      | s :: ss => (c1 :: s) :: ss
      | [] => [[c1]]

/-- `'. '.join(s.capitalize() for s in value.split('. '))`. -/
def sentenceCase (s : String) : String :=
  ⟨List.intercalate ['.', ' '] ((splitDotSpace s.data).map pyCapitalize)⟩

/-- The per-cell transform of `standardize_case` for a given `case_type`;
an unrecognized `case_type` hits the `continue` branch, leaving the cell
unchanged. -/
def caseCell (case_type : String) (s : String) : String :=
  if case_type = "upper" then pyUpper s
  else if case_type = "lower" then pyLower s
  else if case_type = "title" then pyTitle s
  else if case_type = "sentence" then sentenceCase s
  else s

/-- `DataCleaner.standardize_case(case_type, columns)`: the new rows and
the returned modified count (only truthy cells are transformed). -/
def standardize_case (rows : List (List String)) (headers : List String)
    (case_type : String := "title") (columns : Option (List String) := none) :
    List (List String) × Nat :=
  if rows = [] then (rows, 0)
  else tableApply rows (get_column_indices headers columns)
    (caseCell case_type) true

/-- The per-row empty-cell ratio of `remove_empty_rows`:
`empty_cells / total_cells if total_cells > 0 else 1.0`. -/
def rowEmptyRatio (row : List String) : ℚ :=
  if row.length = 0 then 1
  else ((row.countP (fun c => isBlank c)) : ℚ) / (row.length : ℚ)

/-- `DataCleaner.remove_empty_rows(threshold)`: rows whose empty ratio is
`≥ threshold` are dropped; returns the kept rows and the removed count. -/
def remove_empty_rows (rows : List (List String)) (threshold : ℚ := 1) :
    List (List String) × Nat :=
  if rows = [] then (rows, 0)
  else
    let kept := rows.filter (fun row => ¬ rowEmptyRatio row ≥ threshold)
    (kept, rows.length - kept.length)

/-- A printable decimal form standing for Python's `str(float)`: used for
`fill_missing_values` fill values.  Only the properties the claims rely
on matter (the result is a nonempty, non-whitespace literal); the digits
agree with Python for values with a finite decimal expansion of the kind
produced here. -/
def pyFloatStr (q : ℚ) : String :=
  if q.den = 1 then toString q.num ++ ".0" else toString q.num ++ "/" ++ toString q.den

/-- The nonblank values of column `j` (`if row[col_idx] and
row[col_idx].strip()`), which `fill_missing_values` draws the fill value
from. -/
def columnNonblank (j : Nat) (rows : List (List String)) : List String :=
  rows.filterMap
    (fun r =>
      if j < r.length ∧ r.getD j "" ≠ "" ∧ pyStrip (r.getD j "") ≠ "" then
        some (r.getD j "")
      else none)

/-- The fill value `fill_missing_values` computes for one column from
that column's nonblank values under the given strategy. -/
def fillValue (strategy value : String) (colVals : List String) : String :=
  if strategy = "mode" then ((mostCommon1 colVals).map Prod.fst).getD ""
  else if strategy = "mean" then
    let nums := colVals.filterMap pyFloat?
    if nums = [] then "" else pyFloatStr (nums.sum / (nums.length : ℚ))
  else if strategy = "median" then
    let nums := (colVals.filterMap pyFloat?).mergeSort
    if nums = [] then ""
    else
      let mid := nums.length / 2
      pyFloatStr
        (if nums.length % 2 = 1 then nums.getD mid 0
         else (nums.getD (mid - 1) 0 + nums.getD mid 0) / 2)
  else if strategy = "custom" then value
  else ""

/-- Fill value and write-back for one column index `j` of
`fill_missing_values`; returns the updated rows and the number of cell
writes (`filled_count` increments for every empty cell written, whether
or not the value changes). -/
def fillColumn (strategy value : String) (j : Nat)
    (rows : List (List String)) : List (List String) × Nat :=
  if columnNonblank j rows = [] then (rows, 0)
  else
    (rows.map
      (fun r =>
        if j < r.length ∧ isBlank (r.getD j "") then
          r.set j (fillValue strategy value (columnNonblank j rows))
        else r),
     rows.countP (fun r => j < r.length ∧ isBlank (r.getD j "")))

/-- One column position of `fill_missing_values`: indices at or past the
header length are skipped, others run `fillColumn` and accumulate the
filled count. -/
def fillStep (strategy value : String) (hl : Nat)
    (acc : List (List String) × Nat) (j : Nat) :
    List (List String) × Nat :=
  if j ≥ hl then acc
  else
    let r := fillColumn strategy value j acc.1
    (r.1, acc.2 + r.2)

/-- `DataCleaner.fill_missing_values(strategy, value, columns)`: the new
rows and the returned filled count; columns are processed sequentially. -/
def fill_missing_values (rows : List (List String)) (headers : List String)
    (strategy : String := "empty") (value : String := "")
    (columns : Option (List String) := none) : List (List String) × Nat :=
  if rows = [] then (rows, 0)
  else
    (get_column_indices headers columns).foldl
      (fillStep strategy value headers.length) (rows, 0)

/-! ### `normalize_dates`

`_normalize_date` runs `re.match` (an unanchored prefix match) for each of
four patterns in order and, on a match, a strict full-string
`datetime.strptime` with the associated format, reformatting on success
with `strftime`.  The matchers below implement exactly those four regex
patterns (with the backtracking of `\d{1,2}` before a literal separator),
and the parsers implement CPython's `_strptime` field regexes
(`%m` = `1[0-2]|0[1-9]|[1-9]`, `%d` = `3[01]|[12]\d|0[1-9]|[1-9]`,
`%Y` = `\d\d\d\d`, `%y` = `\d\d` with the 69-pivot century rule) plus the
`datetime()` calendar validation.  `strftime`'s `%Y` is modelled as the
documented zero-padded four-digit form. -/

/-- Regex `\d{1,2}` followed by the literal `sep`, as a prefix of `l`;
returns the remainder.  Greedy with backtracking: two digits are tried
first. -/
def matchD12Sep (sep : Char) : List Char → Option (List Char)
  | c1 :: c2 :: c3 :: rest =>
    if c1.isDigit then
      if c2.isDigit then
        if c3 = sep then some rest
        else if c2 = sep then some (c3 :: rest) else none
      else if c2 = sep then some (c3 :: rest)
      else none
    else none
  | [c1, c2] => if c1.isDigit && c2 = sep then some [] else none
  | _ => none

/-- Regex `\d{4}` followed by the literal `sep`, as a prefix. -/
def matchD4Sep (sep : Char) : List Char → Option (List Char)
  | c1 :: c2 :: c3 :: c4 :: c5 :: rest =>
    if c1.isDigit && c2.isDigit && c3.isDigit && c4.isDigit && c5 = sep then
      some rest
    else none
  | _ => none

/-- Regex `\d{4}` at the end of a pattern under prefix-match semantics:
four digits present (anything may follow). -/
def matchD4 : List Char → Bool
  | c1 :: c2 :: c3 :: c4 :: _ =>
    c1.isDigit && c2.isDigit && c3.isDigit && c4.isDigit
  | _ => false

/-- Regex `\d{2}` (or `\d{2,4}`) at the end of a pattern under
prefix-match semantics: two digits present. -/
def matchD2 : List Char → Bool
  | c1 :: c2 :: _ => c1.isDigit && c2.isDigit
  | _ => false

/-- Regex `\d{1,2}` at the end of a pattern under prefix-match
semantics: one digit present. -/
def matchD1 : List Char → Bool
  | c :: _ => c.isDigit
  | _ => false

/-- `re.match(r'(\d{1,2})/(\d{1,2})/(\d{4})', s)`. -/
def reMDY4slash (l : List Char) : Bool :=
  match matchD12Sep '/' l with
  | some r1 =>
    match matchD12Sep '/' r1 with
    | some r2 => matchD4 r2
    | none => false
  | none => false

/-- `re.match(r'(\d{1,2})-(\d{1,2})-(\d{4})', s)`. -/
def reMDY4dash (l : List Char) : Bool :=
  match matchD12Sep '-' l with
  | some r1 =>
    match matchD12Sep '-' r1 with
    | some r2 => matchD4 r2
    | none => false
  | none => false

/-- `re.match(r'(\d{4})-(\d{1,2})-(\d{1,2})', s)`. -/
def reYMD (l : List Char) : Bool :=
  match matchD4Sep '-' l with
  | some r1 =>
    match matchD12Sep '-' r1 with
    | some r2 => matchD1 r2
    | none => false
  | none => false

/-- `re.match(r'(\d{1,2})/(\d{1,2})/(\d{2})', s)` (prefix semantics: more
may follow the two digits). -/
def reMDy2 (l : List Char) : Bool :=
  match matchD12Sep '/' l with
  | some r1 =>
    match matchD12Sep '/' r1 with
    | some r2 => matchD2 r2
    | none => false
  | none => false

/-- Value of a two-digit field. -/
def val2 (c1 c2 : Char) : Nat :=
  (c1.toNat - 48) * 10 + (c2.toNat - 48)

/-- Candidate parses, in regex-alternation order, of a CPython
`_strptime` 1-or-2-digit field (`%m` with `hi = 12`, `%d` with
`hi = 31`): the valid two-digit form first, then a single digit `[1-9]`. -/
def fieldCandidates (hi : Nat) : List Char → List (Nat × List Char)
  | c1 :: c2 :: rest =>
    (if c1.isDigit ∧ c2.isDigit ∧ 1 ≤ val2 c1 c2 ∧ val2 c1 c2 ≤ hi then
       [(val2 c1 c2, rest)]
     else []) ++
    (if c1.isDigit ∧ 1 ≤ c1.toNat - 48 then [(c1.toNat - 48, c2 :: rest)]
     else [])
  | [c1] => if c1.isDigit ∧ 1 ≤ c1.toNat - 48 then [(c1.toNat - 48, [])] else []
  | [] => []

/-- Consume one expected literal character. -/
def expectChar (sep : Char) : List Char → Option (List Char)
  | c :: rest => if c = sep then some rest else none
  | [] => none

/-- `%Y`: exactly four digits, returning value and remainder. -/
def year4 : List Char → Option (Nat × List Char)
  | c1 :: c2 :: c3 :: c4 :: rest =>
    if c1.isDigit && c2.isDigit && c3.isDigit && c4.isDigit then
      some (digitsVal [c1, c2, c3, c4], rest)
    else none
  | _ => none

/-- Gregorian leap year, as `datetime` uses. -/
def isLeapYear (y : Nat) : Bool :=
  y % 4 = 0 && (y % 100 ≠ 0 || y % 400 = 0)

/-- Days in a month, as `datetime` validates. -/
def daysInMonth (y m : Nat) : Nat :=
  if m = 2 then (if isLeapYear y then 29 else 28)
  else if m = 4 ∨ m = 6 ∨ m = 9 ∨ m = 11 then 30 else 31

/-- The `datetime(year, month, day)` validation performed after the
`strptime` regex: year in `MINYEAR..MAXYEAR` and day within the month. -/
def mkValidDate (y m d : Nat) : Option (Nat × Nat × Nat) :=
  if 1 ≤ y ∧ y ≤ 9999 ∧ d ≤ daysInMonth y m then some (y, m, d) else none

/-- `datetime.strptime(s, '%m<sep>%d<sep>%Y')` on the full string. -/
def strptimeMDY (sep : Char) (l : List Char) : Option (Nat × Nat × Nat) :=
  (fieldCandidates 12 l).findSome? fun mc =>
    (expectChar sep mc.2).bind fun r2 =>
      (fieldCandidates 31 r2).findSome? fun dc =>
        (expectChar sep dc.2).bind fun r4 =>
          match year4 r4 with
          | some (y, []) => mkValidDate y mc.1 dc.1
          | _ => none

/-- `datetime.strptime(s, '%Y-%m-%d')` on the full string. -/
def strptimeYMD (l : List Char) : Option (Nat × Nat × Nat) :=
  (year4 l).bind fun yr =>
    (expectChar '-' yr.2).bind fun r2 =>
      (fieldCandidates 12 r2).findSome? fun mc =>
        (expectChar '-' mc.2).bind fun r4 =>
          (fieldCandidates 31 r4).findSome? fun dc =>
            if dc.2 = [] then mkValidDate yr.1 mc.1 dc.1 else none

/-- `datetime.strptime(s, '%m/%d/%y')` on the full string, with the
00–68 → 2000–2068 / 69–99 → 1969–1999 century pivot. -/
def strptimeMDy (l : List Char) : Option (Nat × Nat × Nat) :=
  (fieldCandidates 12 l).findSome? fun mc =>
    (expectChar '/' mc.2).bind fun r2 =>
      (fieldCandidates 31 r2).findSome? fun dc =>
        (expectChar '/' dc.2).bind fun r4 =>
          match r4 with
          | [c1, c2] =>
            if c1.isDigit ∧ c2.isDigit then
              let yy := val2 c1 c2
              mkValidDate (if yy ≤ 68 then 2000 + yy else 1900 + yy) mc.1 dc.1
            else none
          | _ => none

/-- Two-digit zero-padded field of `strftime` (`%m`, `%d`, `%y`). -/
def pad2 (n : Nat) : List Char :=
  [Nat.digitChar (n / 10 % 10), Nat.digitChar (n % 10)]

/-- Four-digit zero-padded year of `strftime`'s `%Y` (documented CPython
form; platform `strftime` may drop leading zeros for years < 1000). -/
def pad4 (n : Nat) : List Char :=
  [Nat.digitChar (n / 1000 % 10), Nat.digitChar (n / 100 % 10),
   Nat.digitChar (n / 10 % 10), Nat.digitChar (n % 10)]

/-- The `strftime` reformatting of `_normalize_date`: ISO for `'ISO'`,
`%m/%d/%Y` for `'US'`, `%d/%m/%Y` for `'EU'`, ISO for anything else
(including the default `'auto'`). -/
def formatDate (fmt : String) (y m d : Nat) : String :=
  if fmt = "ISO" then ⟨pad4 y ++ '-' :: pad2 m ++ '-' :: pad2 d⟩
  else if fmt = "US" then ⟨pad2 m ++ '/' :: pad2 d ++ '/' :: pad4 y⟩
  else if fmt = "EU" then ⟨pad2 d ++ '/' :: pad2 m ++ '/' :: pad4 y⟩
  else ⟨pad4 y ++ '-' :: pad2 m ++ '-' :: pad2 d⟩

/-- `DataCleaner._normalize_date(date_str, patterns, target_format)`:
four (pattern, format) pairs tried in order; a regex match whose strict
parse fails falls through to the next pattern (`continue`); the original
string is returned when every pattern fails. -/
def normalizeDateCell (fmt : String) (s : String) : String :=
  let l := s.data
  match (if reMDY4slash l then strptimeMDY '/' l else none) with
  | some (y, m, d) => formatDate fmt y m d
  | none =>
    match (if reMDY4dash l then strptimeMDY '-' l else none) with
    | some (y, m, d) => formatDate fmt y m d
    | none =>
      match (if reYMD l then strptimeYMD l else none) with
      | some (y, m, d) => formatDate fmt y m d
      | none =>
        match (if reMDy2 l then strptimeMDy l else none) with
        | some (y, m, d) => formatDate fmt y m d
        | none => s

/-- `DataCleaner.normalize_dates(date_columns, format)`: the new rows and
the returned modified count (only truthy cells are rewritten, and only
counted when the value changed). -/
def normalize_dates (rows : List (List String)) (headers : List String)
    (date_columns : List String) (fmt : String := "auto") :
    List (List String) × Nat :=
  if rows = [] then (rows, 0)
  else
    tableApply rows
      (date_columns.filterMap (fun c => headers.findIdx? (· = c)))
      (normalizeDateCell fmt) true

/-! ## `statistics.py` (`DataAnalyzer`) -/

/-- `re.match(r'\d{1,2}-\d{1,2}-\d{2,4}', s)` (prefix semantics). -/
def reMDdash2 (l : List Char) : Bool :=
  match matchD12Sep '-' l with
  | some r1 =>
    match matchD12Sep '-' r1 with
    | some r2 => matchD2 r2
    | none => false
  | none => false

/-- `DataAnalyzer._looks_like_date(value)`: prefix match of one of
`\d{1,2}/\d{1,2}/\d{2,4}`, `\d{4}-\d{1,2}-\d{1,2}`,
`\d{1,2}-\d{1,2}-\d{2,4}`. -/
def looksLikeDate (value : String) : Bool :=
  reMDy2 value.data || reYMD value.data || reMDdash2 value.data

/-- `DataAnalyzer._infer_data_type(values)`: `numeric` when more than 80%
of the non-empty values parse as float, else `date` when more than 50%
prefix-match a date pattern, else `categorical`; `unknown` when there are
no (non-empty) values. -/
def infer_data_type (values : List String) : String :=
  if values = [] then "unknown"
  else
    let nonEmpty := values.filter (fun v => ¬ isBlank v)
    if nonEmpty.length = 0 then "unknown"
    else if ((nonEmpty.countP (fun v => isNumericStr v)) : ℚ) /
        (nonEmpty.length : ℚ) > 8/10 then "numeric"
    else if ((nonEmpty.countP (fun v => looksLikeDate v)) : ℚ) /
        (nonEmpty.length : ℚ) > 5/10 then "date"
    else "categorical"

/-- `DataAnalyzer._calculate_missing_percentage(values)`. -/
def calculate_missing_percentage (values : List String) : ℚ :=
  if values = [] then 100
  else ((values.countP (fun v => isBlank v)) : ℚ) / (values.length : ℚ) * 100

/-- Sample variance `statistics.variance` (denominator `n − 1`). -/
def sampleVariance (l : List ℚ) : ℚ :=
  let m := l.sum / (l.length : ℚ)
  (l.map (fun x => (x - m) ^ 2)).sum / ((l.length : ℚ) - 1)

/-- `statistics.median`: middle element of the sorted list, or the mean
of the two middle elements. -/
def pyMedian (l : List ℚ) : ℚ :=
  let s := l.mergeSort
  let n := s.length
  if n % 2 = 1 then s.getD (n / 2) 0
  else (s.getD (n / 2 - 1) 0 + s.getD (n / 2) 0) / 2

/-- `DataAnalyzer._percentile(values, percentile)`: linear interpolation
at `index = p/100 · (n−1)` between the floor and ceiling ranks of the
sorted values (`float.is_integer` is exact here: the rationals involved
are dyadic, so `ℚ` matches the float computation). `int(index)`
truncation equals the floor since `index ≥ 0` for the percentiles used. -/
def percentileQ (values : List ℚ) (p : ℚ) : ℚ :=
  if values = [] then 0
  else
    let s := values.mergeSort
    let n := s.length
    let index : ℚ := p / 100 * ((n : ℚ) - 1)
    if index.den = 1 then s.getD index.num.toNat 0
    else
      let k := index.floor.toNat
      let lower := s.getD k 0
      let upper := s.getD (k + 1) 0
      lower + (upper - lower) * (index - (k : ℚ))

/-- The numeric branch record of `get_column_statistics`.  The
`std_dev` entry (`statistics.stdev`, the square root of `variance`) is
irrational in general and is not carried in this `ℚ` record; no claim
concerns it. -/
structure NumericStats where
  min : Option ℚ
  max : Option ℚ
  mean : Option ℚ
  median : Option ℚ
  variance : Option ℚ
  q1 : Option ℚ
  q3 : Option ℚ
  range : Option ℚ
  deriving Repr, DecidableEq

/-- `DataAnalyzer._get_numeric_statistics(values)`: all-`None` when no
value parses, otherwise statistics of the parseable floats (the list is
sorted in place first; `std_dev`/`variance` are `0` when `n = 1`). -/
def get_numeric_statistics (values : List String) : NumericStats :=
  let nums := values.filterMap
    (fun v => if ¬ isBlank v then pyFloat? v else none)
  if nums = [] then ⟨none, none, none, none, none, none, none, none⟩
  else
    let s := nums.mergeSort
    { min := s.min?
      max := s.max?
      mean := some (s.sum / (s.length : ℚ))
      median := some (pyMedian s)
      variance := some (if 1 < s.length then sampleVariance s else 0)
      q1 := some (percentileQ s 25)
      q3 := some (percentileQ s 75)
      range := some (s.max?.getD 0 - s.min?.getD 0) }

/-- The date branch record of `get_column_statistics`. -/
structure DateStats where
  date_format_detected : Bool
  unique_dates : Nat
  deriving Repr, DecidableEq

/-- `DataAnalyzer._get_date_statistics(values)`. -/
def get_date_statistics (values : List String) : DateStats :=
  ⟨true, ((values.filter (fun v => ¬ isBlank v)).dedup).length⟩

/-- The categorical branch record of `get_column_statistics`.  The
`entropy` entry (Shannon entropy, `−Σ p·log₂ p`) is kept as the separate
real-valued `shannonEntropy` below; no claim concerns it. -/
structure CatStats where
  most_common_value : Option (String × Nat)
  least_common_value : Option (String × Nat)
  deriving Repr, DecidableEq

/-- `min(value_counts.items(), key=lambda x: x[1])`: first key (in
insertion order) with minimal count. -/
def leastCommon1 {α : Type} [DecidableEq α] (l : List α) : Option (α × Nat) :=
  (counterList l).foldl
    (fun best p =>
      match best with
      | none => some p
      | some q => if p.2 < q.2 then some p else some q)
    none

/-- `DataAnalyzer._get_categorical_statistics(values)` (without the real
entropy entry, see `CatStats`). -/
def get_categorical_statistics (values : List String) : CatStats :=
  let nonEmpty := values.filter (fun v => ¬ isBlank v)
  ⟨mostCommon1 nonEmpty, leastCommon1 nonEmpty⟩

/-- `DataAnalyzer._calculate_entropy(value_counts)` over the non-empty
values of a column: the Shannon entropy in bits, modelled exactly over
`ℝ` (the code computes it in floating point). -/
noncomputable def shannonEntropy (values : List String) : ℝ :=
  let nonEmpty := values.filter (fun v => ¬ isBlank v)
  let total := nonEmpty.length
  if total = 0 then 0
  else
    -((counterList nonEmpty).map
        (fun p => ((p.2 : ℝ) / total) * Real.logb 2 ((p.2 : ℝ) / total))).sum

/-- The dictionary returned by `get_column_statistics` on the non-error
path: the universal entries plus at most one branch record, selected by
`data_type`. -/
structure ColumnStats where
  column_name : String
  data_type : String
  total_values : Nat
  non_empty_values : Nat
  empty_values : Nat
  unique_values : Nat
  missing_percentage : ℚ
  numeric : Option NumericStats
  date : Option DateStats
  categorical : Option CatStats
  deriving Repr, DecidableEq

/-- The column's raw cell values:
`[row[ci] if ci < len(row) else '' for row in rows]`. -/
def columnValues (rows : List (List String)) (ci : Nat) : List String :=
  rows.map (fun r => r.getD ci "")

/-- `DataAnalyzer.get_column_statistics(column_name)`; the error
dictionary for an unknown column is the `Except.error` case. -/
def get_column_statistics (rows : List (List String))
    (headers : List String) (column_name : String) :
    Except String ColumnStats :=
  if ¬ headers.contains column_name then
    .error ("Column \x22" ++ column_name ++ "\x22 not found")
  else
    let ci := headers.findIdx (· = column_name)
    let vals := columnValues rows ci
    let dt := infer_data_type vals
    .ok
      { column_name := column_name
        data_type := dt
        total_values := vals.length
        non_empty_values := (vals.filter (fun v => ¬ isBlank v)).length
        empty_values := (vals.filter (fun v => isBlank v)).length
        unique_values := ((vals.filter (fun v => ¬ isBlank v)).dedup).length
        missing_percentage := calculate_missing_percentage vals
        numeric := if dt = "numeric" then some (get_numeric_statistics vals)
          else none
        date := if dt = "date" then some (get_date_statistics vals) else none
        categorical := if dt = "categorical" then
          some (get_categorical_statistics vals) else none }

/-- The record returned by `get_data_quality_report`. -/
structure QualityReport where
  overall_quality_score : ℚ
  completeness_score : ℚ
  consistency_score : ℚ
  uniqueness_score : ℚ
  total_rows : Nat
  total_columns : Nat
  total_cells : Nat
  empty_cells : Nat
  duplicate_rows : Nat
  inconsistent_lengths : Nat
  missing_percentage : ℚ
  deriving Repr, DecidableEq

/-- The whole-row duplicate key of the quality report:
`tuple(cell.strip() if cell else '' for cell in row)` (equal to stripping
every cell, since `''.strip() == ''`). -/
def trimmedRow (row : List String) : List String :=
  row.map (fun c => pyStrip c)

/-- The duplicate-row count of `get_data_quality_report`: rows whose
trimmed tuple was already seen. -/
def duplicateRowCount (rows : List (List String)) : Nat :=
  (rows.foldl
    (fun acc r =>
      let k := trimmedRow r
      if k ∈ acc.1 then (acc.1, acc.2 + 1) else (k :: acc.1, acc.2))
    (([] : List (List String)), 0)).2

/-- `DataAnalyzer.get_data_quality_report()`. -/
def get_data_quality_report (rows : List (List String))
    (headers : List String) : QualityReport :=
  let total_rows := rows.length
  let total_cells := if total_rows > 0 then total_rows * headers.length else 0
  let empty_cells : Nat := (rows.map (fun r => r.countP (fun c => isBlank c))).sum
  let inconsistent := rows.countP (fun r => r.length ≠ headers.length)
  let dup := duplicateRowCount rows
  let completeness : ℚ := if total_cells > 0 then
    ((total_cells : ℚ) - (empty_cells : ℚ)) / (total_cells : ℚ) else 0
  let consistency : ℚ := if total_rows > 0 then
    ((total_rows : ℚ) - (inconsistent : ℚ)) / (total_rows : ℚ) else 0
  let uniqueness : ℚ := if total_rows > 0 then
    ((total_rows : ℚ) - (dup : ℚ)) / (total_rows : ℚ) else 0
  { overall_quality_score := (completeness + consistency + uniqueness) / 3
    completeness_score := completeness
    consistency_score := consistency
    uniqueness_score := uniqueness
    total_rows := total_rows
    total_columns := headers.length
    total_cells := total_cells
    empty_cells := empty_cells
    duplicate_rows := dup
    inconsistent_lengths := inconsistent
    missing_percentage := if total_cells > 0 then
      (empty_cells : ℚ) / (total_cells : ℚ) * 100 else 0 }

/-- `DataAnalyzer.get_outliers(column_name, method='iqr', threshold=1.5)`.
`_percentile` sorts its argument list in place, so after the two
percentile calls of the IQR branch the subsequent `enumerate` runs over
the sorted values while `row_indices` keeps the source order — the model
reproduces that by enumerating the sorted list.  The z-score test
`abs((v-mean)/std) > t` is expressed without the square root as
`t < 0 ∨ (v-mean)²/var > t²`, equivalent since `std = √var > 0` in that
branch. -/
def get_outliers (rows : List (List String)) (headers : List String)
    (column_name : String) (method : String := "iqr")
    (threshold : ℚ := 3/2) : List (Nat × ℚ) :=
  if ¬ headers.contains column_name then []
  else if (match get_column_statistics rows headers column_name with
    | .ok st => st.data_type
    | .error _ => "") ≠ "numeric" then []
  else
    let ci := headers.findIdx (· = column_name)
    let pairs : List (Nat × ℚ) := rows.enum.filterMap
      (fun ir =>
        if ci < ir.2.length ∧ ir.2.getD ci "" ≠ "" then
          (pyFloat? (ir.2.getD ci "")).map (fun v => (ir.1, v))
        else none)
    let numeric_values : List ℚ := pairs.map Prod.snd
    let row_indices : List Nat := pairs.map Prod.fst
    if numeric_values.length < 4 then []
    else if method = "iqr" then
      let q1 := percentileQ numeric_values 25
      let q3 := percentileQ numeric_values 75
      let lower := q1 - threshold * (q3 - q1)
      let upper := q3 + threshold * (q3 - q1)
      (numeric_values.mergeSort).enum.filterMap
        (fun iv =>
          if iv.2 < lower ∨ iv.2 > upper then
            some (row_indices.getD iv.1 0 + 1, iv.2)
          else none)
    else if method = "zscore" then
      let mean_val : ℚ := numeric_values.sum / (numeric_values.length : ℚ)
      let var : ℚ := if 1 < numeric_values.length then
        sampleVariance numeric_values else 0
      if 0 < var then
        numeric_values.enum.filterMap
          (fun (iv : Nat × ℚ) =>
            if threshold < 0 ∨ ((iv.2 - mean_val) ^ 2 / var : ℚ) > threshold ^ 2 then
              some (row_indices.getD iv.1 0 + 1, iv.2)
            else none)
      else []
    else []

/-- The per-column float extraction of `get_correlation_matrix`
(`headers.index(col)` raises for a column absent from the headers; the
claims only concern selections inside the headers, where `findIdx`
agrees). -/
def extractNumeric (rows : List (List String)) (headers : List String)
    (col : String) : List ℚ :=
  let ci := headers.findIdx (· = col)
  rows.filterMap
    (fun r =>
      if ci < r.length ∧ r.getD ci "" ≠ "" then pyFloat? (r.getD ci "")
      else none)

/-- `DataAnalyzer._calculate_correlation(x, y)`: Pearson coefficient,
`0.0` for length mismatch, fewer than two points, or a zero variance
term.  `math.sqrt` is modelled by `Real.sqrt` (the reason this definition
lives in `ℝ`). -/
noncomputable def calculate_correlation (x y : List ℚ) : ℝ :=
  if x.length ≠ y.length ∨ x.length < 2 then 0
  else
    let mean_x : ℚ := x.sum / (x.length : ℚ)
    let mean_y : ℚ := y.sum / (y.length : ℚ)
    let num : ℚ := ((x.zip y).map (fun p => (p.1 - mean_x) * (p.2 - mean_y))).sum
    let dx : ℚ := (x.map (fun xi => (xi - mean_x) ^ 2)).sum
    let dy : ℚ := (y.map (fun yi => (yi - mean_y) ^ 2)).sum
    if dx = 0 ∨ dy = 0 then 0
    else (num : ℝ) / Real.sqrt ((dx : ℝ) * (dy : ℝ))

/-- The column list the matrix is computed over: the argument when it is
a non-empty list (Python tests `if not numeric_columns:`), otherwise
every header whose inferred `data_type` is `numeric`. -/
def resolveNumericColumns (rows : List (List String))
    (headers : List String) (numeric_columns : Option (List String)) :
    List String :=
  match numeric_columns with
  | some (c :: cs) => c :: cs
  | _ =>
    headers.filter
      (fun h =>
        match get_column_statistics rows headers h with
        | .ok st => st.data_type = "numeric"
        | .error _ => false)

/-- `DataAnalyzer.get_correlation_matrix(numeric_columns)` as an ordered
association list (Python dict in insertion order; a duplicated column
name overwrites its entry with an identical recomputation, so first-match
lookup gives the dict's mapping). -/
noncomputable def get_correlation_matrix (rows : List (List String))
    (headers : List String)
    (numeric_columns : Option (List String) := none) :
    List (String × List (String × ℝ)) :=
  let cols := resolveNumericColumns rows headers numeric_columns
  if cols.length < 2 then []
  else
    cols.map
      (fun c1 =>
        (c1,
         cols.map
           (fun c2 =>
             (c2,
              if c1 = c2 then (1 : ℝ)
              else
                calculate_correlation (extractNumeric rows headers c1)
                  (extractNumeric rows headers c2)))))

/-- Dictionary lookup `matrix[a][b]` on the association-list form. -/
noncomputable def matrixLookup (m : List (String × List (String × ℝ)))
    (a b : String) : Option ℝ :=
  (m.find? (fun p => p.1 = a)).bind
    (fun p => (p.2.find? (fun q => q.1 = b)).map Prod.snd)

/-! ## `DataCleaner` reference model

Python's `DataCleaner.__init__` stores `self.rows = rows` (an alias of
the caller's list) and `self.original_rows = rows.copy()` (a copy of the
outer list only; the inner row lists are shared).  To make that aliasing
expressible, this model keeps the row objects in an explicit `store`
(indexed by row identifier); the caller's list, `self.rows` and
`self.original_rows` are lists of identifiers.  Cell mutation rewrites
the store; row-filtering operations rebind the identifier list only, as
the Python rebinding `self.rows = cleaned_rows` does.  The cleaning log
is modelled by its operation names (the detail strings, row numbers and
timestamps play no part in any claim). -/

structure CleanerRef where
  store : List (List String)
  rowIds : List Nat
  origIds : List Nat
  headers : List String
  log : List String
  deriving Repr, DecidableEq

/-- `DataCleaner.__init__(rows, headers)` given the caller's list of row
identifiers: `self.rows` aliases it, `self.original_rows = rows.copy()`
holds the same identifiers, the log starts empty. -/
def cleanerInit (store : List (List String)) (callerIds : List Nat)
    (headers : List String) : CleanerRef :=
  { store := store, rowIds := callerIds, origIds := callerIds,
    headers := headers, log := [] }

/-- The row data a holder of `ids` observes through the store. -/
def viewRows (store : List (List String)) (ids : List Nat) :
    List (List String) :=
  ids.map (fun i => store.getD i [])

/-- In-place `normalize_whitespace` on one referenced row object. -/
def storeNW (idxs : List Nat) (store : List (List String)) (id : Nat) :
    List (List String) :=
  store.set id (rowApply idxs nwCell false (store.getD id [])).1

/-- `normalize_whitespace` in the reference model: mutates the row
objects reachable from `self.rows` in place (the early return for an
empty row list happens before logging). -/
def normalize_whitespace_ref (c : CleanerRef)
    (columns : Option (List String) := none) : CleanerRef :=
  if c.rowIds = [] then c
  else
    { c with
      store := c.rowIds.foldl (storeNW (get_column_indices c.headers columns))
        c.store,
      log := c.log ++ ["Normalize Whitespace"] }

/-- `remove_duplicates` in the reference model: computes the kept
identifier list (same loop as `dedupStep`, reading cell data through the
store) and rebinds `self.rows` to it; the store is untouched. -/
def remove_duplicates_ref (c : CleanerRef)
    (subset_columns : Option (List String) := none)
    (keep : String := "first") : CleanerRef :=
  if c.rowIds = [] then c
  else
    let idxs := dedupIndices c.headers subset_columns
    let st := c.rowIds.foldl
      (fun (acc : List (List String) × List Nat) id =>
        let key := rowKey idxs (c.store.getD id [])
        if key ∈ acc.1 then
          if keep = "last" then
            (acc.1,
             (acc.2.eraseP
               (fun j => rowKey idxs (c.store.getD j []) == key)) ++ [id])
          else acc
        else (acc.1 ++ [key], acc.2 ++ [id]))
      ([], [])
    { c with rowIds := st.2, log := c.log ++ ["Remove Duplicates"] }

/-- `remove_empty_rows` in the reference model: rebinds `self.rows` to
the filtered identifier list; the store is untouched. -/
def remove_empty_rows_ref (c : CleanerRef) (threshold : ℚ := 1) :
    CleanerRef :=
  if c.rowIds = [] then c
  else
    { c with
      rowIds := c.rowIds.filter
        (fun id => ¬ rowEmptyRatio (c.store.getD id []) ≥ threshold),
      log := c.log ++ ["Remove Empty Rows"] }

/-- `reset_to_original`: `self.rows = self.original_rows.copy()` copies
the outer list (the same row identifiers — the row objects themselves are
not restored) and clears the log. -/
def reset_to_original_ref (c : CleanerRef) : CleanerRef :=
  { c with rowIds := c.origIds, log := [] }

/-! ## Auxiliary definitions used by the theorems -/

/-- The linear-interpolation formula of the specification, at a real
(rational) rank `x`: interpolate between the floor and ceiling ranks of
the sorted list `s`.  At an integer `x` the interpolation term vanishes
and the value is the element at rank `x`. -/
def interpolationAt (s : List ℚ) (x : ℚ) : ℚ :=
  let k := (⌊x⌋).toNat
  s.getD k 0 + (s.getD (k + 1) 0 - s.getD k 0) * (x - (k : ℚ))

/-- The duplicate keys of a row list under the subset indices. -/
def keysOf (idxs : List Nat) (rows : List (List String)) :
    List (List String) :=
  rows.map (rowKey idxs)

/-- Does the character list contain the two-character separator `. `
(the split point of the sentence-case transform)? -/
def hasDotSpace : List Char → Bool
  | '.' :: ' ' :: _ => true
  | _ :: rest => hasDotSpace rest
  | [] => false

/-! ## Claim C10 — delimiter resolution order -/

/-- C10: `detect_delimiter` returns the first match in the order:
explicit (truthy) override; first configured custom delimiter present as
a substring; two-or-more consecutive tabs (as the repeating-tab pattern
`\t+`, not a literal token); two-or-more consecutive spaces; a single
comma — and it fails with the unsupported-delimiter `ValueError` if and
only if none of these match, with a message naming the supported
fallback set and the `-dl` override flag; on the sample line
`"a\t\tb\t\tc"` it returns the repeating-tab pattern. -/
theorem detect_delimiter_resolution (s : String) (cfg : List String) :
    (∀ c : String, c ≠ "" → detect_delimiter s (some c) cfg = .ok c) ∧
    (detect_delimiter s (some "") cfg = detect_delimiter s none cfg) ∧
    (∀ d, cfg.find? (fun x => strSub x s) = some d →
      detect_delimiter s none cfg = .ok d) ∧
    (cfg.find? (fun x => strSub x s) = none →
      hasDoubleChar '\t' s.data = true →
      detect_delimiter s none cfg = .ok "\\t+") ∧
    (cfg.find? (fun x => strSub x s) = none →
      hasDoubleChar '\t' s.data = false →
      hasDoubleChar ' ' s.data = true →
      detect_delimiter s none cfg = .ok " +") ∧
    (cfg.find? (fun x => strSub x s) = none →
      hasDoubleChar '\t' s.data = false →
      hasDoubleChar ' ' s.data = false →
      strHasChar ',' s = true →
      detect_delimiter s none cfg = .ok ",") ∧
    ((∃ msg, detect_delimiter s none cfg = .error msg) ↔
      (cfg.find? (fun x => strSub x s) = none ∧
        hasDoubleChar '\t' s.data = false ∧
        hasDoubleChar ' ' s.data = false ∧ strHasChar ',' s = false)) ∧
    (∀ msg, detect_delimiter s none cfg = .error msg →
      strSub "multiple tabs, multiple spaces, or comma" msg = true ∧
      strSub "-dl flag" msg = true) ∧
    detect_delimiter "a\t\tb\t\tc" none [] = .ok "\\t+" := by
  refine ⟨?_, ?_, ?_, ?_, ?_, ?_, ?_, ?_, ?_⟩
  · intro c hc
    simp [detect_delimiter, hc]
  · simp [detect_delimiter]
  · intro d hd
    simp [detect_delimiter, hd]
  · intro h1 h2
    simp [detect_delimiter, h1, h2]
  · intro h1 h2 h3
    simp [detect_delimiter, h1, h2, h3]
  · intro h1 h2 h3 h4
    simp [detect_delimiter, h1, h2, h3, h4]
  · constructor
    · rintro ⟨msg, hmsg⟩
      cases hfind : cfg.find? (fun x => strSub x s) with
      | some d => simp [detect_delimiter, hfind] at hmsg
      | none =>
        simp only [detect_delimiter, hfind] at hmsg
        by_cases h2 : hasDoubleChar '\t' s.data
        · simp [h2] at hmsg
        · by_cases h3 : hasDoubleChar ' ' s.data
          · simp [h2, h3] at hmsg
          · by_cases h4 : strHasChar ',' s
            · simp [h2, h3, h4] at hmsg
            · exact ⟨by simp [hfind], by simpa using h2, by simpa using h3,
                by simpa using h4⟩
    · rintro ⟨h1, h2, h3, h4⟩
      refine ⟨"Supported delimiters are multiple tabs, multiple spaces, or comma. Use -dl flag for custom delimiter.", ?_⟩
      simp [detect_delimiter, h1, h2, h3, h4]
  · intro msg hmsg
    cases hfind : cfg.find? (fun x => strSub x s) with
    | some d => simp [detect_delimiter, hfind] at hmsg
    | none =>
      simp only [detect_delimiter, hfind] at hmsg
      by_cases h2 : hasDoubleChar '\t' s.data
      · simp [h2] at hmsg
      · by_cases h3 : hasDoubleChar ' ' s.data
        · simp [h2, h3] at hmsg
        · by_cases h4 : strHasChar ',' s
          · simp [h2, h3, h4] at hmsg
          · simp [h2, h3, h4] at hmsg
            rw [← hmsg]
            exact ⟨by decide, by decide⟩
  · rfl

/-- Witness for `detect_delimiter_resolution`: the override branch and
the repeating-tab branch at concrete inputs. -/
theorem detect_delimiter_resolution_witness :
    detect_delimiter "a,b" (some ";") [] = .ok ";" ∧
    detect_delimiter "a\t\tb\t\tc" none [] = .ok "\\t+" :=
  ⟨(detect_delimiter_resolution "a,b" []).1 ";" (by decide),
   (detect_delimiter_resolution "a\t\tb\t\tc" []).2.2.2.1 (by rfl) (by rfl)⟩

/-! ## Claim C1 — `remove_duplicates` with `keep='none'` -/

/-- C1 counterexample: on rows `[["x"], ["x"]]` (single column, both rows
sharing the key `("x",)`), `remove_duplicates` with `keep='none'` keeps
the first occurrence and reports one removal; the claim demands the empty
row set with two removals. -/
theorem remove_duplicates_keep_none_cex :
    remove_duplicates [["x"], ["x"]] ["a"] none "none" = ([["x"]], 1) ∧
    remove_duplicates [["x"], ["x"]] ["a"] none "none" ≠ ([], 2) := by
  exact ⟨by decide, by decide⟩

/-- Counting invariant of the `remove_duplicates` loop for every keep
mode other than `'last'`: each processed row either increments the
removed count or lands in `cleaned_rows`. -/
theorem dedup_fold_count (idxs : List Nat) (keep : String)
    (hk : keep ≠ "last") (l : List (Nat × List String)) (st : DedupState) :
    (l.foldl (dedupStep idxs keep) st).removed +
      (l.foldl (dedupStep idxs keep) st).cleaned.length =
    st.removed + st.cleaned.length + l.length := by
  induction l generalizing st with
  | nil => simp
  | cons p l ih =>
    rw [List.foldl_cons, ih]
    unfold dedupStep
    by_cases h : rowKey idxs p.2 ∈ st.seen
    · simp [h, hk]
      omega
    · simp [h]
      omega

/-- C1 (amended): `remove_duplicates` with `keep='none'` behaves exactly
like `keep='first'` — the first occurrence of each repeated key is kept
and only the later occurrences are removed — returning the new row set
together with the count of removed rows (the original row count minus
the kept row count). -/
theorem remove_duplicates_keep_none_eq_keep_first
    (rows : List (List String)) (headers : List String)
    (subset : Option (List String)) :
    remove_duplicates rows headers subset "none" =
      remove_duplicates rows headers subset "first" ∧
    (remove_duplicates rows headers subset "none").2 =
      rows.length - (remove_duplicates rows headers subset "none").1.length
    := by
  have hstep : ∀ idxs, dedupStep idxs "none" = dedupStep idxs "first" := by
    intro idxs
    funext st iRow
    simp only [dedupStep]
    by_cases h : rowKey idxs iRow.2 ∈ st.seen
    · simp [h]
    · simp [h]
  constructor
  · unfold remove_duplicates
    simp only [hstep]
  · by_cases h : rows = []
    · simp [remove_duplicates, h]
    · have hc := dedup_fold_count (dedupIndices headers subset) "none"
        (by decide) rows.enum ⟨[], [], 0, []⟩
      simp at hc
      simp only [remove_duplicates, if_neg h]
      omega

/-! ## Claim C4 — data-quality report -/

/-- The duplicate counter of the quality report increments at most once
per row. -/
theorem duplicateRowCount_le (rows : List (List String)) :
    duplicateRowCount rows ≤ rows.length := by
  suffices h : ∀ (l : List (List String))
      (acc : List (List String) × Nat),
      (l.foldl
        (fun acc r =>
          let k := trimmedRow r
          if k ∈ acc.1 then (acc.1, acc.2 + 1) else (k :: acc.1, acc.2))
        acc).2 ≤ acc.2 + l.length by
    simpa [duplicateRowCount] using h rows ([], 0)
  intro l
  induction l with
  | nil => intro acc; simp
  | cons r l ih =>
    intro acc
    rw [List.foldl_cons]
    refine le_trans (ih _) ?_
    by_cases h : trimmedRow r ∈ acc.1
    · simp [h]
      omega
    · simp [h]

/-- Rearrangement `(x − s)/x = 1 − s/x` used for the score formulas. -/
theorem sub_div_eq_one_sub {x s : ℚ} (hx : x ≠ 0) : (x - s) / x = 1 - s / x
    := by
  field_simp

/-- A quotient of counts is in the unit interval when the numerator
part removed is at most the denominator (`(n − a)/n` with `a ≤ n`,
including the degenerate `n = 0` case where division yields 0). -/
theorem sub_div_unit_interval {a n : ℕ} (h : a ≤ n) :
    0 ≤ ((n : ℚ) - (a : ℚ)) / (n : ℚ) ∧
    ((n : ℚ) - (a : ℚ)) / (n : ℚ) ≤ 1 := by
  by_cases hn : n = 0
  · subst hn
    have ha : a = 0 := Nat.le_zero.mp h
    subst ha
    norm_num
  · have hq : (0 : ℚ) < (n : ℚ) := by
      exact_mod_cast Nat.pos_of_ne_zero hn
    have ha : (a : ℚ) ≤ (n : ℚ) := by exact_mod_cast h
    have ha0 : (0 : ℚ) ≤ (a : ℚ) := by positivity
    constructor
    · apply div_nonneg (by linarith) (le_of_lt hq)
    · rw [div_le_one hq]
      linarith

/-- C4 counterexample: with header `["a"]` and the single over-long row
`[["", ""]]`, the report counts 2 empty cells against 1 total cell and
the completeness score is −1, outside `[0,1]`. -/
theorem quality_report_negative_completeness_cex :
    (get_data_quality_report [["", ""]] ["a"]).completeness_score = -1 ∧
    ¬ (0 ≤ (get_data_quality_report [["", ""]] ["a"]).completeness_score)
    := by
  have hE : (List.map (fun r => List.countP (fun c => isBlank c) r)
      [["", ""]]).sum = 2 := rfl
  have h : (get_data_quality_report [["", ""]] ["a"]).completeness_score
      = -1 := by
    simp only [get_data_quality_report, hE]
    norm_num
  exact ⟨h, by rw [h]; norm_num⟩

/-- C4 (amended): the report's scores satisfy the claimed formulas
(completeness against `total rows × header length` cells, consistency
and uniqueness against the row count, overall the arithmetic mean);
consistency and uniqueness always lie in `[0,1]`, and completeness and
the overall score lie in `[0,1]` provided no row is longer than the
header (empty cells are counted over the actual row cells, so an
over-long row can push completeness below 0). -/
theorem quality_report_formulas_and_bounds (rows : List (List String))
    (headers : List String) :
    ((get_data_quality_report rows headers).total_cells ≠ 0 →
      (get_data_quality_report rows headers).completeness_score =
        1 - ((get_data_quality_report rows headers).empty_cells : ℚ) /
          ((get_data_quality_report rows headers).total_cells : ℚ)) ∧
    (rows ≠ [] →
      (get_data_quality_report rows headers).consistency_score =
        1 - ((get_data_quality_report rows headers).inconsistent_lengths : ℚ)
          / (rows.length : ℚ) ∧
      (get_data_quality_report rows headers).uniqueness_score =
        1 - ((get_data_quality_report rows headers).duplicate_rows : ℚ) /
          (rows.length : ℚ)) ∧
    (get_data_quality_report rows headers).overall_quality_score =
      ((get_data_quality_report rows headers).completeness_score +
        (get_data_quality_report rows headers).consistency_score +
        (get_data_quality_report rows headers).uniqueness_score) / 3 ∧
    (0 ≤ (get_data_quality_report rows headers).consistency_score ∧
      (get_data_quality_report rows headers).consistency_score ≤ 1) ∧
    (0 ≤ (get_data_quality_report rows headers).uniqueness_score ∧
      (get_data_quality_report rows headers).uniqueness_score ≤ 1) ∧
    ((∀ row ∈ rows, row.length ≤ headers.length) →
      (0 ≤ (get_data_quality_report rows headers).completeness_score ∧
        (get_data_quality_report rows headers).completeness_score ≤ 1) ∧
      (0 ≤ (get_data_quality_report rows headers).overall_quality_score ∧
        (get_data_quality_report rows headers).overall_quality_score ≤ 1))
    := by
  have hIle : rows.countP (fun r => r.length ≠ headers.length)
      ≤ rows.length := List.countP_le_length _
  have hDle : duplicateRowCount rows ≤ rows.length := duplicateRowCount_le rows
  have hconsB := sub_div_unit_interval
    (a := rows.countP (fun r => r.length ≠ headers.length))
    (n := rows.length) hIle
  have huniqB := sub_div_unit_interval (a := duplicateRowCount rows)
    (n := rows.length) hDle
  have hcons : 0 ≤ (get_data_quality_report rows headers).consistency_score ∧
      (get_data_quality_report rows headers).consistency_score ≤ 1 := by
    simp only [get_data_quality_report]
    by_cases hpos : rows.length > 0
    · rw [if_pos hpos]
      exact hconsB
    · rw [if_neg hpos]
      norm_num
  have huniq : 0 ≤ (get_data_quality_report rows headers).uniqueness_score ∧
      (get_data_quality_report rows headers).uniqueness_score ≤ 1 := by
    simp only [get_data_quality_report]
    by_cases hpos : rows.length > 0
    · rw [if_pos hpos]
      exact huniqB
    · rw [if_neg hpos]
      norm_num
  refine ⟨?_, ?_, rfl, hcons, huniq, ?_⟩
  · intro htc
    simp only [get_data_quality_report] at htc ⊢
    by_cases hpos : rows.length > 0
    · rw [if_pos hpos] at htc ⊢
      rw [if_pos (Nat.pos_of_ne_zero htc)]
      exact sub_div_eq_one_sub (Nat.cast_ne_zero.mpr htc)
    · rw [if_neg hpos] at htc
      exact absurd rfl htc
  · intro hne
    have hpos : rows.length > 0 := List.length_pos.mpr hne
    have hq : ((rows.length : ℕ) : ℚ) ≠ 0 :=
      Nat.cast_ne_zero.mpr (by omega)
    constructor
    · simp only [get_data_quality_report]
      rw [if_pos hpos]
      exact sub_div_eq_one_sub hq
    · simp only [get_data_quality_report]
      rw [if_pos hpos]
      exact sub_div_eq_one_sub hq
  · intro hrow
    have hEle : (rows.map (fun r => r.countP (fun c => isBlank c))).sum
        ≤ rows.length * headers.length := by
      calc (rows.map (fun r => r.countP (fun c => isBlank c))).sum
          ≤ (rows.map (fun r => r.length)).sum := by
            apply List.sum_le_sum
            intro r _
            exact List.countP_le_length _
        _ ≤ (rows.map (fun _ => headers.length)).sum := by
            apply List.sum_le_sum
            intro r hr
            exact hrow r hr
        _ = rows.length * headers.length := by
            rw [List.map_const']
            rw [List.sum_replicate, smul_eq_mul]
    have hcomp : 0 ≤ (get_data_quality_report rows headers).completeness_score
        ∧ (get_data_quality_report rows headers).completeness_score ≤ 1 := by
      simp only [get_data_quality_report]
      by_cases hpos : rows.length > 0
      · rw [if_pos hpos]
        by_cases htc : rows.length * headers.length > 0
        · rw [if_pos htc]
          exact sub_div_unit_interval hEle
        · rw [if_neg htc]
          norm_num
      · rw [if_neg hpos]
        by_cases htc : (0 : ℕ) > 0
        · exact absurd htc (by omega)
        · rw [if_neg htc]
          norm_num
    refine ⟨hcomp, ?_⟩
    have hov : (get_data_quality_report rows headers).overall_quality_score =
        ((get_data_quality_report rows headers).completeness_score +
          (get_data_quality_report rows headers).consistency_score +
          (get_data_quality_report rows headers).uniqueness_score) / 3 := rfl
    rw [hov]
    constructor
    · linarith [hcomp.1, hcons.1, huniq.1]
    · linarith [hcomp.2, hcons.2, huniq.2]

/-- Witness for `quality_report_formulas_and_bounds` at the table
`[["x"]]` with header `["a"]`. -/
theorem quality_report_formulas_and_bounds_witness :
    (get_data_quality_report [["x"]] ["a"]).completeness_score =
      1 - ((get_data_quality_report [["x"]] ["a"]).empty_cells : ℚ) /
        ((get_data_quality_report [["x"]] ["a"]).total_cells : ℚ) ∧
    0 ≤ (get_data_quality_report [["x"]] ["a"]).overall_quality_score :=
  ⟨(quality_report_formulas_and_bounds [["x"]] ["a"]).1 (by decide),
   (((quality_report_formulas_and_bounds [["x"]] ["a"]).2.2.2.2.2)
     (by decide)).2.1⟩

/-! ## Claim C5 — behaviour on empty input -/

/-- C5 counterexample: `determine_majority_type` on an empty per-cell
type list raises `IndexError` (`Counter([]).most_common(1)[0]`), modelled
as the `none` result, instead of returning a zeroed/null value. -/
theorem determine_majority_type_empty_raises_cex :
    determine_majority_type [] = none := rfl

/-- C5 (amended): on empty input every listed operation except
`determine_majority_type` returns a zeroed/null/empty result rather than
raising: `get_column_statistics` yields the all-zero record (with
`data_type = "unknown"` and the 100% missing percentage),
`get_data_quality_report` yields the all-zero report,
`get_correlation_matrix` (default selection) yields the empty matrix,
`get_outliers` yields the empty list, and every cleaning operation
returns the empty row set with a zero count; `determine_majority_type`
alone raises (`none`). -/
theorem empty_input_behaviour (headers : List String) (name : String)
    (strat value case_type fmt : String) (threshold : ℚ)
    (subset cols : Option (List String)) (dateCols : List String)
    (method : String) (outlierThreshold : ℚ) :
    (headers.contains name = true →
      get_column_statistics [] headers name =
        .ok ⟨name, "unknown", 0, 0, 0, 0, 100, none, none, none⟩) ∧
    get_data_quality_report [] headers =
      ⟨0, 0, 0, 0, 0, headers.length, 0, 0, 0, 0, 0⟩ ∧
    get_correlation_matrix [] headers none = [] ∧
    get_outliers [] headers name method outlierThreshold = [] ∧
    remove_duplicates [] headers subset "first" = ([], 0) ∧
    remove_duplicates [] headers subset "last" = ([], 0) ∧
    remove_duplicates [] headers subset "none" = ([], 0) ∧
    normalize_whitespace [] headers cols = ([], 0) ∧
    standardize_case [] headers case_type cols = ([], 0) ∧
    remove_empty_rows [] threshold = ([], 0) ∧
    fill_missing_values [] headers strat value cols = ([], 0) ∧
    normalize_dates [] headers dateCols fmt = ([], 0) ∧
    determine_majority_type [] = none := by
  have hstats : ∀ nm, headers.contains nm = true →
      get_column_statistics [] headers nm =
        .ok ⟨nm, "unknown", 0, 0, 0, 0, 100, none, none, none⟩ := by
    intro nm h
    simp only [get_column_statistics, h]
    norm_num [columnValues, infer_data_type, calculate_missing_percentage]
    refine ⟨fun hx => absurd hx (by decide), fun hx => absurd hx (by decide),
      fun hx => absurd hx (by decide)⟩
  have hq : get_data_quality_report [] headers =
      ⟨0, 0, 0, 0, 0, headers.length, 0, 0, 0, 0, 0⟩ := by
    norm_num [get_data_quality_report, duplicateRowCount]
  refine ⟨hstats name, hq, ?_, ?_, rfl, rfl, rfl, rfl, rfl, rfl, rfl, rfl,
    rfl⟩
  · have hfil : headers.filter (fun h =>
        match get_column_statistics [] headers h with
        | .ok st => st.data_type = "numeric"
        | .error _ => false) = [] := by
      rw [List.filter_eq_nil_iff]
      intro h hh
      rw [hstats h (by simpa using hh)]
      simp
    simp [get_correlation_matrix, resolveNumericColumns, hfil]
  · by_cases hc : headers.contains name
    · simp [get_outliers, hc, hstats name hc]
    · simp [get_outliers, hc]

/-- Witness for `empty_input_behaviour` at header `["a"]`. -/
theorem empty_input_behaviour_witness :
    get_column_statistics [] ["a"] "a" =
      .ok ⟨"a", "unknown", 0, 0, 0, 0, 100, none, none, none⟩ ∧
    get_outliers [] ["a"] "a" "iqr" (3/2) = [] :=
  ⟨(empty_input_behaviour ["a"] "a" "empty" "" "upper" "auto" 1 none none []
      "iqr" (3/2)).1 (by decide),
   (empty_input_behaviour ["a"] "a" "empty" "" "upper" "auto" 1 none none []
      "iqr" (3/2)).2.2.2.1⟩

/-! ## Claims C2 and C3 — aliasing of the row objects -/

/-- A `rowApply` on the empty row touches nothing. -/
theorem rowApply_nil (idxs : List Nat) (f : String → String) (req : Bool) :
    rowApply idxs f req [] = ([], 0) := by
  induction idxs with
  | nil => rfl
  | cons i idxs ih =>
    simp only [rowApply, List.foldl_cons] at ih ⊢
    simpa using ih

/-- Effect of the in-place `normalize_whitespace` store fold on each row
object: with distinct row identifiers, exactly the referenced rows are
rewritten. -/
theorem storeNW_fold_getD (idxs : List Nat) (ids : List Nat)
    (hnd : ids.Nodup) (store : List (List String)) (j : Nat) :
    (ids.foldl (storeNW idxs) store).getD j [] =
      (if j ∈ ids then (rowApply idxs nwCell false (store.getD j [])).1
       else store.getD j []) := by
  induction ids generalizing store with
  | nil => simp
  | cons i ids ih =>
    rw [List.foldl_cons]
    rw [ih (List.Nodup.of_cons hnd)]
    by_cases hj : j ∈ ids
    · have hji : j ≠ i := by
        intro he
        subst he
        exact (List.nodup_cons.mp hnd).1 hj
      rw [if_pos hj, if_pos (List.mem_cons_of_mem i hj)]
      have : (storeNW idxs store i).getD j [] = store.getD j [] := by
        simp only [storeNW]
        rw [List.getD_eq_getElem?_getD, List.getElem?_set_ne
          (fun h => hji h.symm)]
        exact (List.getD_eq_getElem?_getD _ _ _).symm
      rw [this]
    · rw [if_neg hj]
      by_cases hji : j = i
      · subst hji
        rw [if_pos (List.mem_cons_self j ids)]
        simp only [storeNW]
        by_cases hlt : j < store.length
        · rw [List.getD_eq_getElem?_getD, List.getElem?_set_self]
          · simp
          · exact hlt
        · rw [List.getD_eq_getElem?_getD]
          rw [List.set_eq_of_length_le (by omega)]
          rw [← List.getD_eq_getElem?_getD]
          have h0 : store.getD j [] = [] := by
            rw [List.getD_eq_getElem?_getD, List.getElem?_eq_none (by omega)]
            rfl
          rw [h0, rowApply_nil]
      · rw [if_neg (by simp [hji, hj])]
        simp only [storeNW]
        rw [List.getD_eq_getElem?_getD, List.getElem?_set_ne
          (fun h => hji h.symm)]
        exact (List.getD_eq_getElem?_getD _ _ _).symm

/-- C2: the failing run.  `DataCleaner([[" a "]], ["h"])`, then
`normalize_whitespace()`, then `reset_to_original()`: the restored
working row set shows the normalized cell `"a"`, not the construction
snapshot `" a "` (because `original_rows = rows.copy()` is a shallow
copy sharing the row objects), while the cleaning log is cleared as
documented. -/
theorem reset_to_original_shallow_copy :
    viewRows (reset_to_original_ref (normalize_whitespace_ref
        (cleanerInit [[" a "]] [0] ["h"]) none)).store
      (reset_to_original_ref (normalize_whitespace_ref
        (cleanerInit [[" a "]] [0] ["h"]) none)).rowIds = [["a"]] ∧
    (reset_to_original_ref (normalize_whitespace_ref
        (cleanerInit [[" a "]] [0] ["h"]) none)).log = [] ∧
    viewRows (cleanerInit [[" a "]] [0] ["h"]).store
      (cleanerInit [[" a "]] [0] ["h"]).rowIds = [[" a "]] ∧
    ([["a"]] : List (List String)) ≠ [[" a "]] :=
  ⟨rfl, rfl, rfl, by decide⟩

/-- C3 counterexample: after `normalize_whitespace`, the caller's own
row list (the very list passed to the `DataCleaner` constructor) shows
the rewritten cell — the constructor aliases rather than copies. -/
theorem cleaner_mutates_caller_rows_cex :
    viewRows (normalize_whitespace_ref (cleanerInit [[" a "]] [0] ["h"])
        none).store [0] = [["a"]] ∧
    viewRows [[" a "]] [0] = [[" a "]] ∧
    ([["a"]] : List (List String)) ≠ [[" a "]] :=
  ⟨rfl, rfl, by decide⟩

/-- C3 (amended): the Cleaner's working list aliases the caller's row
list rather than copying it.  Row-dropping operations
(`remove_duplicates`, `remove_empty_rows`) rebind only the Cleaner's own
reference and leave every shared row object — hence all the caller's
cell data — unchanged; but a cell-mutating operation
(`normalize_whitespace`) rewrites the shared row objects in place, so
after it the caller's list shows exactly the per-row normalization of
its previous data. -/
theorem cleaner_aliasing (store : List (List String))
    (callerIds : List Nat) (headers : List String)
    (subset : Option (List String)) (keep : String) (threshold : ℚ)
    (cols : Option (List String)) :
    (remove_duplicates_ref (cleanerInit store callerIds headers) subset
      keep).store = store ∧
    (remove_empty_rows_ref (cleanerInit store callerIds headers)
      threshold).store = store ∧
    (normalize_whitespace_ref (cleanerInit store callerIds headers)
      cols).rowIds = callerIds ∧
    (callerIds.Nodup →
      viewRows (normalize_whitespace_ref (cleanerInit store callerIds
          headers) cols).store callerIds =
        (viewRows store callerIds).map
          (fun r => (rowApply (get_column_indices headers cols) nwCell
            false r).1)) := by
  refine ⟨?_, ?_, ?_, ?_⟩
  · by_cases h : callerIds = [] <;>
      simp [remove_duplicates_ref, cleanerInit, h]
  · by_cases h : callerIds = [] <;>
      simp [remove_empty_rows_ref, cleanerInit, h]
  · by_cases h : callerIds = [] <;>
      simp [normalize_whitespace_ref, cleanerInit, h]
  · intro hnd
    by_cases h : callerIds = []
    · simp [normalize_whitespace_ref, cleanerInit, h, viewRows]
    · simp only [normalize_whitespace_ref, cleanerInit, h, if_neg,
        if_false]
      simp only [viewRows, List.map_map]
      apply List.map_congr_left
      intro j hj
      simp only [Function.comp_apply]
      rw [storeNW_fold_getD _ _ hnd _ _, if_pos hj]

/-- Witness for `cleaner_aliasing` at a one-row store. -/
theorem cleaner_aliasing_witness :
    viewRows (normalize_whitespace_ref (cleanerInit [[" a "]] [0] ["h"])
        none).store [0] =
      (viewRows [[" a "]] [0]).map
        (fun r => (rowApply (get_column_indices ["h"] none) nwCell false
          r).1) :=
  (cleaner_aliasing [[" a "]] [0] ["h"] none "first" 1 none).2.2.2
    (by decide)

/-! ## Claim C9 — ordering of the numeric statistics -/

/-- `Rat.floor` agrees with the `FloorRing` floor. -/
theorem ratFloor_eq (q : ℚ) : q.floor = ⌊q⌋ :=
  (Rat.floor_def' q).trans Rat.floor_def.symm

/-- Indexing a sorted list is monotone. -/
theorem sorted_getD_mono {s : List ℚ} (hs : s.Sorted (· ≤ ·)) {i j : Nat}
    (hij : i ≤ j) (hj : j < s.length) : s.getD i 0 ≤ s.getD j 0 := by
  have hi : i < s.length := lt_of_le_of_lt hij hj
  rw [List.getD_eq_getElem _ _ hi, List.getD_eq_getElem _ _ hj]
  have := List.Sorted.rel_get_of_le hs (a := ⟨i, hi⟩) (b := ⟨j, hj⟩) hij
  simpa [List.get_eq_getElem] using this

/-- At an integer (natural) rank the interpolation formula is the
element at that rank. -/
theorem interpolationAt_natCast (s : List ℚ) (k : ℕ) :
    interpolationAt s (k : ℚ) = s.getD k 0 := by
  simp [interpolationAt, Int.floor_natCast]

/-- The linear interpolation over a sorted list is monotone in the rank
on the valid rank interval `[0, n−1]`. -/
theorem interpolationAt_mono {s : List ℚ} (hs : s.Sorted (· ≤ ·)) {x y : ℚ}
    (hx : 0 ≤ x) (hxy : x ≤ y) (hy : y ≤ (s.length : ℚ) - 1) :
    interpolationAt s x ≤ interpolationAt s y := by
  have hy0 : 0 ≤ y := le_trans hx hxy
  have hn1 : (1 : ℚ) ≤ (s.length : ℚ) := by linarith
  have hn : 1 ≤ s.length := by exact_mod_cast hn1
  have hfx0 : 0 ≤ ⌊x⌋ := Int.floor_nonneg.mpr hx
  have hfy0 : 0 ≤ ⌊y⌋ := Int.floor_nonneg.mpr hy0
  have hkxc : ((⌊x⌋.toNat : ℕ) : ℚ) = (⌊x⌋ : ℚ) := by
    exact_mod_cast congrArg (fun z : ℤ => (z : ℚ))
      (Int.toNat_of_nonneg hfx0)
  have hkyc : ((⌊y⌋.toNat : ℕ) : ℚ) = (⌊y⌋ : ℚ) := by
    exact_mod_cast congrArg (fun z : ℤ => (z : ℚ))
      (Int.toNat_of_nonneg hfy0)
  have hxlb : ((⌊x⌋.toNat : ℕ) : ℚ) ≤ x := by
    rw [hkxc]
    exact Int.floor_le x
  have hxub : x < ((⌊x⌋.toNat : ℕ) : ℚ) + 1 := by
    rw [hkxc]
    exact_mod_cast Int.lt_floor_add_one x
  have hylb : ((⌊y⌋.toNat : ℕ) : ℚ) ≤ y := by
    rw [hkyc]
    exact Int.floor_le y
  have hkxy : ⌊x⌋.toNat ≤ ⌊y⌋.toNat :=
    Int.toNat_le_toNat (Int.floor_mono hxy)
  have hkyn : ⌊y⌋.toNat ≤ s.length - 1 := by
    have h1 : (⌊y⌋ : ℚ) ≤ (s.length : ℚ) - 1 := le_trans (Int.floor_le y) hy
    have h2 : ⌊y⌋ ≤ (s.length : ℤ) - 1 := by exact_mod_cast h1
    omega
  simp only [interpolationAt]
  rcases eq_or_lt_of_le hkxy with heq | hlt
  · rw [← heq]
    by_cases hend : ⌊x⌋.toNat + 1 < s.length
    · have hd : s.getD ⌊x⌋.toNat 0 ≤ s.getD (⌊x⌋.toNat + 1) 0 :=
        sorted_getD_mono hs (Nat.le_succ _) hend
      have := mul_le_mul_of_nonneg_left (sub_le_sub_right hxy
        ((⌊x⌋.toNat : ℚ))) (sub_nonneg.mpr hd)
      linarith
    · have hkx : ⌊x⌋.toNat = s.length - 1 := by omega
      have hxy2 : x = y := by
        apply le_antisymm hxy
        have hc : ((⌊x⌋.toNat : ℕ) : ℚ) = (s.length : ℚ) - 1 := by
          rw [hkx]
          push_cast [Nat.cast_sub hn]
          ring
        linarith [hy, hxlb, hc]
      rw [hxy2]
  · have hky1n : ⌊y⌋.toNat < s.length := by omega
    have hstep1 : s.getD ⌊x⌋.toNat 0 +
        (s.getD (⌊x⌋.toNat + 1) 0 - s.getD ⌊x⌋.toNat 0) *
          (x - ((⌊x⌋.toNat : ℕ) : ℚ)) ≤ s.getD (⌊x⌋.toNat + 1) 0 := by
      have hd : s.getD ⌊x⌋.toNat 0 ≤ s.getD (⌊x⌋.toNat + 1) 0 :=
        sorted_getD_mono hs (Nat.le_succ _) (by omega)
      have h1 : x - ((⌊x⌋.toNat : ℕ) : ℚ) ≤ 1 := by linarith
      have := mul_le_mul_of_nonneg_left h1 (sub_nonneg.mpr hd)
      linarith
    have hstep2 : s.getD (⌊x⌋.toNat + 1) 0 ≤ s.getD ⌊y⌋.toNat 0 :=
      sorted_getD_mono hs (by omega) hky1n
    have hstep3 : s.getD ⌊y⌋.toNat 0 ≤ s.getD ⌊y⌋.toNat 0 +
        (s.getD (⌊y⌋.toNat + 1) 0 - s.getD ⌊y⌋.toNat 0) *
          (y - ((⌊y⌋.toNat : ℕ) : ℚ)) := by
      by_cases hend : ⌊y⌋.toNat + 1 < s.length
      · have hd : s.getD ⌊y⌋.toNat 0 ≤ s.getD (⌊y⌋.toNat + 1) 0 :=
          sorted_getD_mono hs (Nat.le_succ _) hend
        have := mul_nonneg (sub_nonneg.mpr hd) (sub_nonneg.mpr hylb)
        linarith
      · have hky : ⌊y⌋.toNat = s.length - 1 := by omega
        have hyy : y = ((⌊y⌋.toNat : ℕ) : ℚ) := by
          apply le_antisymm
          · rw [hky]
            push_cast [Nat.cast_sub hn]
            linarith
          · exact hylb
        rw [← hyy]
        simp
    linarith

/-- `_percentile` equals the specification's interpolation formula at
rank `p/100 · (n−1)` over the sorted values, for `p ≥ 0`. -/
theorem percentileQ_eq_interp (values : List ℚ) (p : ℚ)
    (hne : values ≠ []) (hp : 0 ≤ p) :
    percentileQ values p =
      interpolationAt values.mergeSort
        (p / 100 * ((values.length : ℚ) - 1)) := by
  have hlen : values.mergeSort.length = values.length :=
    List.length_mergeSort values
  have hpos : 0 < values.length := List.length_pos.mpr hne
  have hx0 : 0 ≤ p / 100 * ((values.length : ℚ) - 1) := by
    apply mul_nonneg (div_nonneg hp (by norm_num))
    have : (1 : ℚ) ≤ (values.length : ℚ) := by exact_mod_cast hpos
    linarith
  simp only [percentileQ, if_neg hne, hlen]
  by_cases hden : (p / 100 * ((values.length : ℚ) - 1)).den = 1
  · rw [if_pos hden]
    set x : ℚ := p / 100 * ((values.length : ℚ) - 1) with hxdef
    have hxi : ((x.num : ℤ) : ℚ) = x := (Rat.den_eq_one_iff x).mp hden
    have hnum0 : 0 ≤ x.num := Rat.num_nonneg.mpr hx0
    have hfl : ⌊x⌋ = x.num := by
      rw [← hxi]
      exact Int.floor_intCast x.num
    have hcast : ((x.num.toNat : ℕ) : ℚ) = x := by
      rw [← hxi]
      exact_mod_cast congrArg (fun z : ℤ => (z : ℚ))
        (Int.toNat_of_nonneg hnum0)
    simp only [interpolationAt, hfl, hcast]
    ring
  · rw [if_neg hden]
    simp only [interpolationAt, ratFloor_eq]

/-- `statistics.median` equals the interpolation formula at the median
rank `50/100 · (n−1)` over the sorted values. -/
theorem pyMedian_eq_interp (values : List ℚ) (hne : values ≠ []) :
    pyMedian values =
      interpolationAt values.mergeSort
        ((50 : ℚ) / 100 * ((values.length : ℚ) - 1)) := by
  have hlen : values.mergeSort.length = values.length :=
    List.length_mergeSort values
  have hpos : 0 < values.length := List.length_pos.mpr hne
  simp only [pyMedian, interpolationAt, hlen]
  by_cases hodd : values.length % 2 = 1
  · obtain ⟨k, hk⟩ : ∃ k, values.length = 2 * k + 1 :=
      ⟨values.length / 2, by omega⟩
    have hx : (50 : ℚ) / 100 * ((values.length : ℚ) - 1) = (k : ℚ) := by
      rw [hk]
      push_cast
      ring
    have hfl : ⌊(k : ℚ)⌋ = (k : ℤ) := Int.floor_natCast k
    rw [if_pos hodd, hx, hfl]
    have hidx : values.length / 2 = k := by omega
    rw [hidx]
    simp
  · obtain ⟨m, hm⟩ : ∃ m, values.length = 2 * m := ⟨values.length / 2, by omega⟩
    have hm1 : 1 ≤ m := by omega
    have hx : (50 : ℚ) / 100 * ((values.length : ℚ) - 1) =
        (m : ℚ) - 1/2 := by
      rw [hm]
      push_cast
      ring
    have hfl : ⌊(m : ℚ) - 1/2⌋ = (m : ℤ) - 1 := by
      rw [Int.floor_eq_iff]
      constructor
      · push_cast
        linarith
      · push_cast
        linarith
    rw [if_neg hodd, hx, hfl]
    have htn : ((m : ℤ) - 1).toNat = m - 1 := by omega
    rw [htn]
    have hidx : values.length / 2 = m := by omega
    rw [hidx]
    have hsucc : m - 1 + 1 = m := by omega
    rw [hsucc]
    have hcast : ((m - 1 : ℕ) : ℚ) = (m : ℚ) - 1 := by
      push_cast [Nat.cast_sub hm1]
      ring
    rw [hcast]
    ring

/-- The head of a sorted nonempty list is its minimum. -/
theorem sorted_min?_getD {s : List ℚ} (hs : s.Sorted (· ≤ ·))
    (hne : s ≠ []) : s.min? = some (s.getD 0 0) := by
  haveI : Std.Antisymm ((· : ℚ) ≤ ·) := ⟨fun h1 h2 => le_antisymm h1 h2⟩
  rw [List.min?_eq_some_iff le_refl min_choice (fun _ _ _ => le_min_iff)]
  have hpos : 0 < s.length := List.length_pos.mpr hne
  constructor
  · rw [List.getD_eq_getElem _ _ hpos]
    exact List.getElem_mem hpos
  · intro b hb
    obtain ⟨i, hi, hbi⟩ := List.getElem_of_mem hb
    rw [← hbi, ← List.getD_eq_getElem s 0 hi]
    exact sorted_getD_mono hs (Nat.zero_le i) hi

/-- The last element of a sorted nonempty list is its maximum. -/
theorem sorted_max?_getD {s : List ℚ} (hs : s.Sorted (· ≤ ·))
    (hne : s ≠ []) : s.max? = some (s.getD (s.length - 1) 0) := by
  haveI : Std.Antisymm ((· : ℚ) ≤ ·) := ⟨fun h1 h2 => le_antisymm h1 h2⟩
  rw [List.max?_eq_some_iff le_refl max_choice (fun _ _ _ => max_le_iff)]
  have hpos : 0 < s.length := List.length_pos.mpr hne
  have hlast : s.length - 1 < s.length := by omega
  constructor
  · rw [List.getD_eq_getElem _ _ hlast]
    exact List.getElem_mem hlast
  · intro b hb
    obtain ⟨i, hi, hbi⟩ := List.getElem_of_mem hb
    rw [← hbi, ← List.getD_eq_getElem s 0 hi]
    exact sorted_getD_mono hs (by omega) hlast

/-- C9: for a column with at least 4 parseable numeric values, the
numeric statistics of the profiler satisfy
`min ≤ Q1 ≤ median ≤ Q3 ≤ max`, where Q1/Q3/median are the
linear-interpolation percentiles at ranks `p/100 · (n−1)` of the sorted
values. -/
theorem numeric_stats_order (values : List String)
    (h4 : 4 ≤ (values.filterMap
      (fun v => if ¬ isBlank v then pyFloat? v else none)).length) :
    ∃ mn q1 med q3 mx,
      (get_numeric_statistics values).min = some mn ∧
      (get_numeric_statistics values).q1 = some q1 ∧
      (get_numeric_statistics values).median = some med ∧
      (get_numeric_statistics values).q3 = some q3 ∧
      (get_numeric_statistics values).max = some mx ∧
      q1 = interpolationAt ((values.filterMap
        (fun v => if ¬ isBlank v then pyFloat? v else none)).mergeSort)
        (25 / 100 * (((values.filterMap
          (fun v => if ¬ isBlank v then pyFloat? v else none)).length : ℚ)
          - 1)) ∧
      mn ≤ q1 ∧ q1 ≤ med ∧ med ≤ q3 ∧ q3 ≤ mx := by
  set nums := values.filterMap
    (fun v => if ¬ isBlank v then pyFloat? v else none) with hnums
  have hne : nums ≠ [] := by
    intro h
    rw [h] at h4
    simp at h4
  have hspos : 0 < nums.length := List.length_pos.mpr hne
  set s := nums.mergeSort with hsdef
  have hslen : s.length = nums.length := List.length_mergeSort nums
  have hsne : s ≠ [] := by
    intro h
    rw [h] at hslen
    simp at hslen
    omega
  have hsorted : s.Sorted (· ≤ ·) := List.sorted_mergeSort' nums
  have hss : s.mergeSort = s := List.mergeSort_eq_self hsorted
  have hn1 : (1 : ℚ) ≤ (s.length : ℚ) := by
    have : 1 ≤ s.length := by omega
    exact_mod_cast this
  have hmono : ∀ p q : ℚ, 0 ≤ p → p ≤ q → q ≤ 100 →
      interpolationAt s (p / 100 * ((s.length : ℚ) - 1)) ≤
        interpolationAt s (q / 100 * ((s.length : ℚ) - 1)) := by
    intro p q hp hpq hq100
    apply interpolationAt_mono hsorted
    · exact mul_nonneg (by linarith) (by linarith)
    · exact mul_le_mul_of_nonneg_right (by linarith) (by linarith)
    · have h1 : q / 100 * ((s.length : ℚ) - 1) ≤
          1 * ((s.length : ℚ) - 1) :=
        mul_le_mul_of_nonneg_right (by linarith) (by linarith)
      linarith
  have hcast0 : interpolationAt s ((0 : ℚ) / 100 * ((s.length : ℚ) - 1))
      = s.getD 0 0 := by
    have h0 : (0 : ℚ) / 100 * ((s.length : ℚ) - 1) = ((0 : ℕ) : ℚ) := by
      push_cast
      ring
    rw [h0, interpolationAt_natCast]
  have hcast100 :
      interpolationAt s ((100 : ℚ) / 100 * ((s.length : ℚ) - 1))
      = s.getD (s.length - 1) 0 := by
    have h100 : (100 : ℚ) / 100 * ((s.length : ℚ) - 1) =
        ((s.length - 1 : ℕ) : ℚ) := by
      have : 1 ≤ s.length := by omega
      push_cast [Nat.cast_sub this]
      ring
    rw [h100, interpolationAt_natCast]
  have hq1 : percentileQ s 25 =
      interpolationAt s ((25 : ℚ) / 100 * ((s.length : ℚ) - 1)) := by
    rw [percentileQ_eq_interp s 25 hsne (by norm_num), hss]
  have hq3 : percentileQ s 75 =
      interpolationAt s ((75 : ℚ) / 100 * ((s.length : ℚ) - 1)) := by
    rw [percentileQ_eq_interp s 75 hsne (by norm_num), hss]
  have hmed : pyMedian s =
      interpolationAt s ((50 : ℚ) / 100 * ((s.length : ℚ) - 1)) := by
    rw [pyMedian_eq_interp s hsne, hss]
  have hgns : get_numeric_statistics values =
      { min := s.min?, max := s.max?,
        mean := some (s.sum / (s.length : ℚ)),
        median := some (pyMedian s),
        variance := some (if 1 < s.length then sampleVariance s else 0),
        q1 := some (percentileQ s 25), q3 := some (percentileQ s 75),
        range := some (s.max?.getD 0 - s.min?.getD 0) } := by
    simp only [get_numeric_statistics, ← hnums, ← hsdef, if_neg hne]
  refine ⟨s.getD 0 0, percentileQ s 25, pyMedian s, percentileQ s 75,
    s.getD (s.length - 1) 0, ?_, ?_, ?_, ?_, ?_, ?_, ?_, ?_, ?_, ?_⟩
  · rw [hgns]
    simpa using sorted_min?_getD hsorted hsne
  · rw [hgns]
  · rw [hgns]
  · rw [hgns]
  · rw [hgns]
    simpa using sorted_max?_getD hsorted hsne
  · rw [hq1, hslen]
  · rw [← hcast0, hq1]
    exact hmono 0 25 (by norm_num) (by norm_num) (by norm_num)
  · rw [hq1, hmed]
    exact hmono 25 50 (by norm_num) (by norm_num) (by norm_num)
  · rw [hmed, hq3]
    exact hmono 50 75 (by norm_num) (by norm_num) (by norm_num)
  · rw [hq3, ← hcast100]
    exact hmono 75 100 (by norm_num) (by norm_num) (by norm_num)

/-- Witness for `numeric_stats_order` on the column
`["1","2","3","4","100"]`. -/
theorem numeric_stats_order_witness :
    ∃ mn q1 med q3 mx,
      (get_numeric_statistics ["1", "2", "3", "4", "100"]).min = some mn ∧
      (get_numeric_statistics ["1", "2", "3", "4", "100"]).q1 = some q1 ∧
      (get_numeric_statistics ["1", "2", "3", "4", "100"]).median =
        some med ∧
      (get_numeric_statistics ["1", "2", "3", "4", "100"]).q3 = some q3 ∧
      (get_numeric_statistics ["1", "2", "3", "4", "100"]).max = some mx ∧
      q1 = interpolationAt ((["1", "2", "3", "4", "100"].filterMap
        (fun v => if ¬ isBlank v then pyFloat? v else none)).mergeSort)
        (25 / 100 * (((["1", "2", "3", "4", "100"].filterMap
          (fun v => if ¬ isBlank v then pyFloat? v else none)).length : ℚ)
          - 1)) ∧
      mn ≤ q1 ∧ q1 ≤ med ∧ med ≤ q3 ∧ q3 ≤ mx :=
  numeric_stats_order ["1", "2", "3", "4", "100"] (by decide)

/-! ## Claim C6 — correlation matrix symmetry -/

/-- First-match lookup in an association list built by mapping over the
key list finds the entry of any listed key. -/
theorem find?_map_key {β : Type} (g : String → β) (cols : List String)
    (a : String) (ha : a ∈ cols) :
    (cols.map (fun c => (c, g c))).find? (fun p => p.1 = a) =
      some (a, g a) := by
  induction cols with
  | nil => simp at ha
  | cons c cs ih =>
    simp only [List.map_cons, List.find?_cons]
    by_cases hc : c = a
    · subst hc
      simp
    · simp only [hc, decide_False]
      exact ih (by
        rcases List.mem_cons.mp ha with h | h
        · exact absurd h.symm hc
        · exact h)

/-- `matrix[a][b]` of the square matrix built over `cols` is the entry
function at `(a, b)` for listed columns. -/
theorem matrixLookup_map (cols : List String) (v : String → String → ℝ)
    (a b : String) (ha : a ∈ cols) (hb : b ∈ cols) :
    matrixLookup
      (cols.map (fun c1 => (c1, cols.map (fun c2 => (c2, v c1 c2)))))
      a b = some (v a b) := by
  unfold matrixLookup
  rw [find?_map_key (fun c1 => cols.map (fun c2 => (c2, v c1 c2))) cols a
    ha]
  simp only [Option.bind_some, Option.some_bind]
  rw [find?_map_key (fun c2 => v a c2) cols b hb]
  rfl

/-- The summed cross-term of the Pearson numerator is symmetric under
swapping the two (equal-length or not) value lists. -/
theorem zip_cross_sum_comm (mx my : ℚ) :
    ∀ (x y : List ℚ),
      ((x.zip y).map (fun p => (p.1 - mx) * (p.2 - my))).sum =
      ((y.zip x).map (fun p => (p.1 - my) * (p.2 - mx))).sum := by
  intro x
  induction x with
  | nil => intro y; simp
  | cons a x ih =>
    intro y
    cases y with
    | nil => simp
    | cons b y =>
      simp only [List.zip_cons_cons, List.map_cons, List.sum_cons, ih y]
      ring

/-- `_calculate_correlation` is symmetric in its two arguments. -/
theorem calculate_correlation_comm (x y : List ℚ) :
    calculate_correlation x y = calculate_correlation y x := by
  rw [calculate_correlation, calculate_correlation]
  by_cases h : x.length = y.length
  · by_cases h2 : x.length < 2
    · rw [if_pos (Or.inr h2), if_pos (Or.inr (h ▸ h2))]
    · have c1 : ¬(x.length ≠ y.length ∨ x.length < 2) := by
        push_neg
        exact ⟨h, by omega⟩
      have c2 : ¬(y.length ≠ x.length ∨ y.length < 2) := by
        push_neg
        refine ⟨h.symm, by omega⟩
      rw [if_neg c1, if_neg c2]
      simp only
      rw [zip_cross_sum_comm]
      by_cases hz :
          ((x.map (fun xi => (xi - x.sum / (x.length : ℚ)) ^ 2)).sum = 0)
          ∨ ((y.map (fun yi => (yi - y.sum / (y.length : ℚ)) ^ 2)).sum = 0)
      · rw [if_pos hz, if_pos (by tauto)]
      · rw [if_neg hz, if_neg (by tauto)]
        congr 1
        rw [mul_comm]
  · rw [if_pos (Or.inl h), if_pos (Or.inl (fun he => h he.symm))]

/-- C6: the correlation matrix is empty whenever fewer than two columns
are resolved for it; over the resolved columns (inside the headers,
where `headers.index` is defined) it is symmetric,
`matrix[a][b] = matrix[b][a]`, with unit diagonal `matrix[a][a] = 1.0`.
-/
theorem correlation_matrix_symmetric (rows : List (List String))
    (headers : List String) (sel : Option (List String)) :
    ((resolveNumericColumns rows headers sel).length < 2 →
      get_correlation_matrix rows headers sel = []) ∧
    (∀ a ∈ resolveNumericColumns rows headers sel,
      ∀ b ∈ resolveNumericColumns rows headers sel,
      (∀ c ∈ resolveNumericColumns rows headers sel,
        headers.contains c = true) →
      matrixLookup (get_correlation_matrix rows headers sel) a b =
        matrixLookup (get_correlation_matrix rows headers sel) b a) ∧
    (∀ a ∈ resolveNumericColumns rows headers sel,
      2 ≤ (resolveNumericColumns rows headers sel).length →
      matrixLookup (get_correlation_matrix rows headers sel) a a =
        some 1) := by
  refine ⟨?_, ?_, ?_⟩
  · intro h
    rw [get_correlation_matrix, if_pos h]
  · intro a ha b hb _
    by_cases hlen : (resolveNumericColumns rows headers sel).length < 2
    · rw [get_correlation_matrix, if_pos hlen]
      rfl
    · rw [get_correlation_matrix, if_neg hlen]
      rw [matrixLookup_map _ _ a b ha hb, matrixLookup_map _ _ b a hb ha]
      by_cases hab : a = b
      · subst hab
        rfl
      · rw [if_neg hab, if_neg (fun h => hab h.symm)]
        rw [calculate_correlation_comm]
  · intro a ha hlen
    rw [get_correlation_matrix, if_neg (by omega)]
    rw [matrixLookup_map _ _ a a ha ha, if_pos rfl]

/-- Witness for `correlation_matrix_symmetric` on a 2-column table. -/
theorem correlation_matrix_symmetric_witness :
    matrixLookup (get_correlation_matrix [["1", "2"], ["2", "3"],
      ["3", "5"]] ["u", "v"] (some ["u", "v"])) "u" "v" =
      matrixLookup (get_correlation_matrix [["1", "2"], ["2", "3"],
        ["3", "5"]] ["u", "v"] (some ["u", "v"])) "v" "u" ∧
    matrixLookup (get_correlation_matrix [["1", "2"], ["2", "3"],
      ["3", "5"]] ["u", "v"] (some ["u", "v"])) "u" "u" = some 1 :=
  ⟨(correlation_matrix_symmetric [["1", "2"], ["2", "3"], ["3", "5"]]
      ["u", "v"] (some ["u", "v"])).2.1 "u" (by decide) "v" (by decide)
      (by decide),
   (correlation_matrix_symmetric [["1", "2"], ["2", "3"], ["3", "5"]]
      ["u", "v"] (some ["u", "v"])).2.2 "u" (by decide) (by decide)⟩

/-! ## Claim C7 — outlier detection -/

/-- The single numeric column of the C7 tables is classified numeric. -/
theorem outlier_table_data_type (c1 c2 c3 c4 c5 : String)
    (hall : (["n"].contains "n" = true) ∧
      columnValues [[c1], [c2], [c3], [c4], [c5]]
        (List.findIdx (fun x => x = "n") ["n"]) = [c1, c2, c3, c4, c5] ∧
      ([c1, c2, c3, c4, c5].filter (fun v => ¬ isBlank v)) =
        [c1, c2, c3, c4, c5] ∧
      ([c1, c2, c3, c4, c5].countP (fun v => isNumericStr v)) = 5) :
    (match get_column_statistics [[c1], [c2], [c3], [c4], [c5]] ["n"] "n"
      with
    | .ok st => st.data_type
    | .error _ => "") = "numeric" := by
  obtain ⟨hcont, hvals, hfil, hcnt⟩ := hall
  simp only [get_column_statistics, hcont]
  rw [if_neg (by simp)]
  simp only
  rw [hvals]
  rw [infer_data_type]
  rw [if_neg (by simp)]
  rw [hfil]
  rw [if_neg (by simp)]
  rw [if_pos (by norm_num [hcnt])]

unseal List.mergeSort List.merge in
/-- C7: the IQR outlier path evaluated on two five-row tables.  On the
already-sorted column `["1","2","3","4","100"]` the claim's scenario
holds: the single outlier is reported as `(5, 100.0)`.  But on the
permuted column `["100","1","2","3","4"]` — where the value `100` sits
in row 1 — the code still reports `(5, 100.0)`: `_percentile` sorts the
value list in place, so the final loop enumerates the sorted values
while `row_indices` keeps the source order, pairing values with the
wrong row numbers. -/
theorem get_outliers_row_value_misalignment :
    get_outliers [["1"], ["2"], ["3"], ["4"], ["100"]] ["n"] "n" "iqr"
      (3/2) = [(5, 100)] ∧
    get_outliers [["100"], ["1"], ["2"], ["3"], ["4"]] ["n"] "n" "iqr"
      (3/2) = [(5, 100)] := by
  constructor
  · rw [get_outliers]
    rw [if_neg (by decide)]
    rw [if_neg (by
      rw [outlier_table_data_type "1" "2" "3" "4" "100"
        ⟨by decide, rfl, rfl, rfl⟩]
      simp)]
    simp only
    have hpairs : (List.filterMap
        (fun ir => if (List.findIdx (fun x => x = "n") ["n"]) <
            ir.2.length ∧
            ir.2.getD (List.findIdx (fun x => x = "n") ["n"]) "" ≠ "" then
          (pyFloat? (ir.2.getD (List.findIdx (fun x => x = "n") ["n"])
            "")).map (fun v => (ir.1, v)) else none)
        ([["1"], ["2"], ["3"], ["4"], ["100"]].enum)) =
        [(0, (1:ℚ)), (1, 2), (2, 3), (3, 4), (4, 100)] := rfl
    rw [hpairs]
    simp only [List.map_cons, List.map_nil]
    rw [if_neg (by decide)]
    rw [if_pos trivial]
    have hms : ([(1:ℚ), 2, 3, 4, 100]).mergeSort = [1, 2, 3, 4, 100] :=
      rfl
    have hq1 : percentileQ [(1:ℚ), 2, 3, 4, 100] 25 = 2 := by
      rw [percentileQ]
      rw [if_neg (by simp)]
      simp only [hms]
      norm_num
      try rfl
    have hq3 : percentileQ [(1:ℚ), 2, 3, 4, 100] 75 = 4 := by
      rw [percentileQ]
      rw [if_neg (by simp)]
      simp only [hms]
      norm_num
      try rfl
    rw [hq1, hq3, hms]
    have henum : ([(1:ℚ), 2, 3, 4, 100]).enum =
        [(0, (1:ℚ)), (1, 2), (2, 3), (3, 4), (4, 100)] := rfl
    rw [henum]
    norm_num [List.filterMap_cons]
  · rw [get_outliers]
    rw [if_neg (by decide)]
    rw [if_neg (by
      rw [outlier_table_data_type "100" "1" "2" "3" "4"
        ⟨by decide, rfl, rfl, rfl⟩]
      simp)]
    simp only
    have hpairs : (List.filterMap
        (fun ir => if (List.findIdx (fun x => x = "n") ["n"]) <
            ir.2.length ∧
            ir.2.getD (List.findIdx (fun x => x = "n") ["n"]) "" ≠ "" then
          (pyFloat? (ir.2.getD (List.findIdx (fun x => x = "n") ["n"])
            "")).map (fun v => (ir.1, v)) else none)
        ([["100"], ["1"], ["2"], ["3"], ["4"]].enum)) =
        [(0, (100:ℚ)), (1, 1), (2, 2), (3, 3), (4, 4)] := rfl
    rw [hpairs]
    simp only [List.map_cons, List.map_nil]
    rw [if_neg (by decide)]
    rw [if_pos trivial]
    have hms : ([(100:ℚ), 1, 2, 3, 4]).mergeSort = [1, 2, 3, 4, 100] :=
      rfl
    have hq1 : percentileQ [(100:ℚ), 1, 2, 3, 4] 25 = 2 := by
      rw [percentileQ]
      rw [if_neg (by simp)]
      simp only [hms]
      norm_num
      try rfl
    have hq3 : percentileQ [(100:ℚ), 1, 2, 3, 4] 75 = 4 := by
      rw [percentileQ]
      rw [if_neg (by simp)]
      simp only [hms]
      norm_num
      try rfl
    rw [hq1, hq3, hms]
    have henum : ([(1:ℚ), 2, 3, 4, 100]).enum =
        [(0, (1:ℚ)), (1, 2), (2, 3), (3, 4), (4, 100)] := rfl
    rw [henum]
    norm_num [List.filterMap_cons]

/-! ## Claim C8 — idempotence of the cleaning operations -/

/-! ### `remove_duplicates` re-run -/

/-- `eraseP` by key commutes with taking keys. -/
theorem map_rowKey_eraseP (idxs : List Nat) (k : List String)
    (l : List (List String)) :
    (l.eraseP (fun r => rowKey idxs r == k)).map (rowKey idxs) =
      (l.map (rowKey idxs)).eraseP (fun x => x == k) := by
  induction l with
  | nil => rfl
  | cons a l ih =>
    by_cases h : rowKey idxs a == k
    · simp [List.eraseP_cons, h]
    · simp [List.eraseP_cons, h, ih]

/-- Erasing the first occurrence of a key from a duplicate-free list
removes that key entirely. -/
theorem not_mem_eraseP_self {l : List (List String)} {k : List String}
    (hnd : l.Nodup) : k ∉ l.eraseP (fun x => x == k) := by
  induction l with
  | nil => simp
  | cons a l ih =>
    by_cases h : a == k
    · have ha : a = k := by simpa using h
      subst ha
      simp only [List.eraseP_cons, h, if_pos]
      exact (List.nodup_cons.mp hnd).1
    · simp only [List.eraseP_cons, h, if_neg, Bool.false_eq_true,
        if_false]
      intro hmem
      rcases List.mem_cons.mp hmem with he | hm
      · exact absurd (by simp [he]) h
      · exact ih (List.nodup_cons.mp hnd).2 hm

/-- Membership of other keys survives erasing one key. -/
theorem mem_eraseP_of_ne {l : List (List String)} {k x : List String}
    (hx : x ≠ k) : x ∈ l.eraseP (fun y => y == k) ↔ x ∈ l := by
  induction l with
  | nil => simp
  | cons a l ih =>
    by_cases h : a == k
    · simp only [List.eraseP_cons, h, if_pos]
      constructor
      · exact fun hm => List.mem_cons_of_mem a hm
      · intro hm
        rcases List.mem_cons.mp hm with he | hm
        · exact absurd (he.trans (by simpa using h)) hx
        · exact hm
    · simp only [List.eraseP_cons, h, Bool.false_eq_true, if_false]
      constructor
      · intro hm
        rcases List.mem_cons.mp hm with he | hm
        · exact he ▸ List.mem_cons_self a l
        · exact List.mem_cons_of_mem a (ih.mp hm)
      · intro hm
        rcases List.mem_cons.mp hm with he | hm
        · exact he ▸ List.mem_cons_self a (l.eraseP fun y => y == k)
        · exact List.mem_cons_of_mem a (ih.mpr hm)

/-- `eraseP` preserves `Nodup`. -/
theorem nodup_eraseP {l : List (List String)} (hnd : l.Nodup)
    (p : List String → Bool) : (l.eraseP p).Nodup :=
  hnd.sublist (List.eraseP_sublist l)

/-- Invariant of the `remove_duplicates` loop, every keep mode: the
accumulated `cleaned_rows` have pairwise-distinct keys, and `seen` holds
exactly those keys. -/
theorem dedup_fold_invariant (idxs : List Nat) (keep : String)
    (l : List (Nat × List String)) (st : DedupState)
    (h1 : (st.cleaned.map (rowKey idxs)).Nodup)
    (h2 : ∀ k, k ∈ st.seen ↔ k ∈ st.cleaned.map (rowKey idxs)) :
    ((l.foldl (dedupStep idxs keep) st).cleaned.map (rowKey idxs)).Nodup ∧
    ∀ k, k ∈ (l.foldl (dedupStep idxs keep) st).seen ↔
      k ∈ (l.foldl (dedupStep idxs keep) st).cleaned.map (rowKey idxs)
    := by
  induction l generalizing st with
  | nil => exact ⟨h1, h2⟩
  | cons p l ih =>
    rw [List.foldl_cons]
    apply ih
    · unfold dedupStep
      by_cases hk : rowKey idxs p.2 ∈ st.seen
      · by_cases hl : keep = "last"
        · simp only [hk, if_pos, if_true, hl]
          simp only [List.map_append, List.map_cons, List.map_nil]
          rw [map_rowKey_eraseP]
          have hnd2 := nodup_eraseP h1 (fun x => x == rowKey idxs p.2)
          rw [List.nodup_append]
          refine ⟨hnd2, List.nodup_singleton _, ?_⟩
          intro x hx
          simp only [List.mem_singleton]
          intro he
          subst he
          exact not_mem_eraseP_self h1 hx
        · simp only [hk, if_pos, if_true, hl, Bool.false_eq_true,
            if_false]
          exact h1
      · simp only [hk, if_neg, if_false, not_false_iff]
        simp only [List.map_append, List.map_cons, List.map_nil]
        rw [List.nodup_append]
        refine ⟨h1, List.nodup_singleton _, ?_⟩
        intro x hx
        simp only [List.mem_singleton]
        intro he
        subst he
        exact hk ((h2 _).mpr hx)
    · unfold dedupStep
      by_cases hk : rowKey idxs p.2 ∈ st.seen
      · by_cases hl : keep = "last"
        · simp only [hk, if_pos, if_true, hl]
          intro k
          simp only [List.map_append, List.map_cons, List.map_nil,
            List.mem_append, List.mem_singleton]
          rw [map_rowKey_eraseP]
          by_cases hke : k = rowKey idxs p.2
          · subst hke
            simp only [or_true, iff_true]
            exact hk
          · rw [mem_eraseP_of_ne hke]
            simp only [hke, or_false]
            exact h2 k
        · simp only [hk, if_pos, if_true, hl, Bool.false_eq_true,
            if_false]
          exact h2
      · simp only [hk, if_neg, if_false, not_false_iff]
        intro k
        simp only [List.mem_append, List.mem_singleton, List.map_append,
          List.map_cons, List.map_nil]
        rw [← h2 k]

/-- A run of the `remove_duplicates` loop over rows with fresh,
pairwise-distinct keys keeps every row and removes nothing. -/
theorem dedup_fold_clean (idxs : List Nat) (keep : String)
    (l : List (Nat × List String)) (st : DedupState)
    (hni : ∀ p ∈ l, rowKey idxs p.2 ∉ st.seen)
    (hnd : (l.map (fun p => rowKey idxs p.2)).Nodup) :
    l.foldl (dedupStep idxs keep) st =
      { st with
          seen := st.seen ++ l.map (fun p => rowKey idxs p.2),
          cleaned := st.cleaned ++ l.map Prod.snd } := by
  induction l generalizing st with
  | nil => simp
  | cons p l ih =>
    rw [List.foldl_cons]
    have hk : rowKey idxs p.2 ∉ st.seen := hni p (List.mem_cons_self p l)
    rw [show dedupStep idxs keep st p =
        { st with
            seen := st.seen ++ [rowKey idxs p.2],
            cleaned := st.cleaned ++ [p.2] } by
      unfold dedupStep
      rw [if_neg hk]]
    rw [ih]
    · simp
    · intro q hq
      simp only [List.mem_append, List.mem_singleton]
      push_neg
      refine ⟨hni q (List.mem_cons_of_mem p hq), ?_⟩
      intro he
      rw [List.map_cons] at hnd
      exact (List.nodup_cons.mp hnd).1 (he ▸ List.mem_map_of_mem
        (fun p => rowKey idxs p.2) hq)
    · exact (List.nodup_cons.mp (List.map_cons _ p l ▸ hnd)).2

/-- On a row set whose keys are pairwise distinct, `remove_duplicates`
returns the rows unchanged with a zero removed count, for every keep
mode. -/
theorem remove_duplicates_of_nodup (rows : List (List String))
    (headers : List String) (subset : Option (List String))
    (keep : String)
    (hnd : (rows.map (rowKey (dedupIndices headers subset))).Nodup) :
    remove_duplicates rows headers subset keep = (rows, 0) := by
  by_cases h : rows = []
  · simp [remove_duplicates, h]
  · rw [remove_duplicates, if_neg h]
    dsimp only
    rw [dedup_fold_clean]
    · simp only [List.nil_append]
      rw [show rows.enum.map Prod.snd = rows from List.enum_map_snd rows]
    · intro p _
      simp
    · have hmm : rows.enum.map (fun p => rowKey (dedupIndices headers
          subset) p.2) = rows.map (rowKey (dedupIndices headers subset))
          := by
        rw [show (fun p : Nat × List String => rowKey (dedupIndices
          headers subset) p.2) = (rowKey (dedupIndices headers subset))
          ∘ Prod.snd from rfl]
        rw [← List.map_map, List.enum_map_snd]
      rw [hmm]
      exact hnd

/-- The keys of the rows returned by `remove_duplicates` are pairwise
distinct (every keep mode). -/
theorem remove_duplicates_keys_nodup (rows : List (List String))
    (headers : List String) (subset : Option (List String))
    (keep : String) :
    ((remove_duplicates rows headers subset keep).1.map
      (rowKey (dedupIndices headers subset))).Nodup := by
  by_cases h : rows = []
  · simp [remove_duplicates, h]
  · rw [remove_duplicates, if_neg h]
    exact (dedup_fold_invariant (dedupIndices headers subset) keep
      rows.enum ⟨[], [], 0, []⟩ (by simp) (by simp)).1

/-! ### Character-level facts about the ASCII case transforms -/

/-- Valid code points survive the `Char.ofNat`/`Char.toNat` round trip. -/
theorem char_toNat_ofNat (n : Nat) (h : n.isValidChar) :
    (Char.ofNat n).toNat = n := by
  rw [Char.ofNat, dif_pos h, Char.ofNatAux, Char.toNat]
  rfl

/-- Characters with equal code points are equal. -/
theorem char_eq_of_toNat_eq {a b : Char} (h : a.toNat = b.toNat) : a = b := by
  rw [← Char.ofNat_toNat a, ← Char.ofNat_toNat b, h]

/-- Code point of `Char.toUpper`. -/
theorem toUpper_toNat (c : Char) :
    c.toUpper.toNat =
      if 97 ≤ c.toNat ∧ c.toNat ≤ 122 then c.toNat - 32 else c.toNat := by
  rw [Char.toUpper]
  by_cases h : 97 ≤ c.toNat ∧ c.toNat ≤ 122
  · rw [if_pos h, if_pos h, char_toNat_ofNat]
    left
    omega
  · rw [if_neg h, if_neg h]

/-- Code point of `Char.toLower`. -/
theorem toLower_toNat (c : Char) :
    c.toLower.toNat =
      if 65 ≤ c.toNat ∧ c.toNat ≤ 90 then c.toNat + 32 else c.toNat := by
  rw [Char.toLower]
  by_cases h : 65 ≤ c.toNat ∧ c.toNat ≤ 90
  · rw [if_pos h, if_pos h, char_toNat_ofNat]
    left
    omega
  · rw [if_neg h, if_neg h]

/-- Uppercasing is idempotent. -/
theorem toUpper_toUpper (c : Char) : c.toUpper.toUpper = c.toUpper := by
  apply char_eq_of_toNat_eq
  rw [toUpper_toNat c.toUpper, toUpper_toNat c]
  split_ifs <;> omega

/-- Lowercasing is idempotent. -/
theorem toLower_toLower (c : Char) : c.toLower.toLower = c.toLower := by
  apply char_eq_of_toNat_eq
  rw [toLower_toNat c.toLower, toLower_toNat c]
  split_ifs <;> omega

/-- Order on `UInt32` through `toNat`. -/
theorem uint32_le_iff_toNat_le (a b : UInt32) :
    a ≤ b ↔ a.toNat ≤ b.toNat := by
  rw [UInt32.le_def, BitVec.le_def]
  rfl

/-- `Char.isAlpha` through the code point. -/
theorem isAlpha_iff_toNat (c : Char) :
    c.isAlpha = true ↔
      (65 ≤ c.toNat ∧ c.toNat ≤ 90) ∨ (97 ≤ c.toNat ∧ c.toNat ≤ 122) := by
  simp [Char.isAlpha, Char.isUpper, Char.isLower, Char.toNat,
    uint32_le_iff_toNat_le]
  norm_num

/-- Uppercasing preserves letterhood. -/
theorem isAlpha_toUpper (c : Char) : c.toUpper.isAlpha = c.isAlpha := by
  rw [Bool.eq_iff_iff, isAlpha_iff_toNat, isAlpha_iff_toNat, toUpper_toNat]
  split_ifs <;> omega

/-- Lowercasing preserves letterhood. -/
theorem isAlpha_toLower (c : Char) : c.toLower.isAlpha = c.isAlpha := by
  rw [Bool.eq_iff_iff, isAlpha_iff_toNat, isAlpha_iff_toNat, toLower_toNat]
  split_ifs <;> omega

/-- Uppercasing moves no character onto a non-letter target (code point
below 65), and fixes such characters. -/
theorem toUpper_eq_low_iff {v : Char} (hv : v.toNat < 65) (c : Char) :
    c.toUpper = v ↔ c = v := by
  constructor
  · intro h
    apply char_eq_of_toNat_eq
    have ht := congrArg Char.toNat h
    rw [toUpper_toNat] at ht
    split_ifs at ht <;> omega
  · intro h
    subst h
    apply char_eq_of_toNat_eq
    rw [toUpper_toNat, if_neg (by omega)]

/-- Lowercasing moves no character onto a non-letter target (code point
below 65), and fixes such characters. -/
theorem toLower_eq_low_iff {v : Char} (hv : v.toNat < 65) (c : Char) :
    c.toLower = v ↔ c = v := by
  constructor
  · intro h
    apply char_eq_of_toNat_eq
    have ht := congrArg Char.toNat h
    rw [toLower_toNat] at ht
    split_ifs at ht <;> omega
  · intro h
    subst h
    apply char_eq_of_toNat_eq
    rw [toLower_toNat, if_neg (by omega)]

/-! ### Idempotence of the per-cell case transforms -/

/-- `str.upper()` is idempotent. -/
theorem pyUpper_idem (s : String) : pyUpper (pyUpper s) = pyUpper s := by
  unfold pyUpper
  apply congrArg
  rw [show (String.mk (s.data.map Char.toUpper)).data =
      s.data.map Char.toUpper from rfl]
  rw [List.map_map]
  exact List.map_congr_left (fun c _ => toUpper_toUpper c)

/-- `str.lower()` is idempotent. -/
theorem pyLower_idem (s : String) : pyLower (pyLower s) = pyLower s := by
  unfold pyLower
  apply congrArg
  rw [show (String.mk (s.data.map Char.toLower)).data =
      s.data.map Char.toLower from rfl]
  rw [List.map_map]
  exact List.map_congr_left (fun c _ => toLower_toLower c)

/-- The `str.title()` character loop is idempotent at matching flags. -/
theorem pyTitleAux_idem (b : Bool) (l : List Char) :
    pyTitleAux b (pyTitleAux b l) = pyTitleAux b l := by
  induction l generalizing b with
  | nil => rfl
  | cons c rest ih =>
    by_cases ha : c.isAlpha
    · rw [pyTitleAux, if_pos ha]
      have hd : (if b = true then c.toLower else c.toUpper).isAlpha = true := by
        cases b
        · simpa [isAlpha_toUpper] using ha
        · simpa [isAlpha_toLower] using ha
      rw [pyTitleAux, if_pos hd, ih true]
      congr 1
      cases b
      · simp [toUpper_toUpper]
      · simp [toLower_toLower]
    · rw [pyTitleAux, if_neg ha, pyTitleAux, if_neg ha, ih false]

/-- `str.title()` is idempotent. -/
theorem pyTitle_idem (s : String) : pyTitle (pyTitle s) = pyTitle s := by
  unfold pyTitle
  exact congrArg String.mk (pyTitleAux_idem false s.data)

/-- `str.capitalize()` is idempotent. -/
theorem pyCapitalize_idem (l : List Char) :
    pyCapitalize (pyCapitalize l) = pyCapitalize l := by
  cases l with
  | nil => rfl
  | cons c rest =>
    rw [pyCapitalize, pyCapitalize]
    rw [toUpper_toUpper, List.map_map]
    congr 1
    exact List.map_congr_left (fun c _ => toLower_toLower c)

/-! ### `'. '.join(x.capitalize() for x in s.split('. '))` round trip -/

/-- `split('. ')` never returns an empty list of segments. -/
theorem splitDotSpace_ne_nil (l : List Char) : splitDotSpace l ≠ [] := by
  induction l using splitDotSpace.induct with
  | case1 => simp [splitDotSpace]
  | case2 c => simp [splitDotSpace]
  | case3 c1 c2 rest h ih => simp [splitDotSpace, h]
  | case4 c1 c2 rest h s ss heq ih => simp [splitDotSpace, h, heq]
  | case5 c1 c2 rest h heq ih => simp [splitDotSpace, h, heq]

/-- The first segment of `split('. ')`, when nonempty, starts with the
input's first character. -/
theorem splitDotSpace_head (l s : List Char) (ss : List (List Char))
    (heq : splitDotSpace l = s :: ss) (c : Char) (hc : s.head? = some c) :
    l.head? = some c := by
  induction l using splitDotSpace.induct with
  | case1 =>
    rw [show splitDotSpace [] = [[]] from rfl] at heq
    cases heq
    cases hc
  | case2 c1 =>
    rw [show splitDotSpace [c1] = [[c1]] from rfl] at heq
    cases heq
    cases hc
    rfl
  | case3 c1 c2 rest h ih =>
    rw [splitDotSpace, if_pos h] at heq
    cases heq
    cases hc
  | case4 c1 c2 rest h s' ss' heq' ih =>
    rw [splitDotSpace, if_neg h, heq'] at heq
    cases heq
    cases hc
    rfl
  | case5 c1 c2 rest h heq' ih =>
    exact absurd heq' (splitDotSpace_ne_nil _)

/-- No segment produced by `split('. ')` contains the separator pair. -/
theorem splitDotSpace_chain (l : List Char) :
    ∀ seg ∈ splitDotSpace l,
      seg.Chain' (fun a b => ¬(a = '.' ∧ b = ' ')) := by
  induction l using splitDotSpace.induct with
  | case1 => simp [splitDotSpace]
  | case2 c =>
    intro seg hseg
    rw [show splitDotSpace [c] = [[c]] from rfl] at hseg
    simp at hseg
    subst hseg
    exact List.chain'_singleton c
  | case3 c1 c2 rest h ih =>
    intro seg hseg
    rw [splitDotSpace, if_pos h] at hseg
    rcases List.mem_cons.mp hseg with he | hm
    · subst he
      exact List.chain'_nil
    · exact ih seg hm
  | case4 c1 c2 rest h s ss heq ih =>
    intro seg hseg
    rw [splitDotSpace, if_neg h, heq] at hseg
    rcases List.mem_cons.mp hseg with he | hm
    · subst he
      rw [List.chain'_cons']
      constructor
      · intro y hy
        have hy2 := splitDotSpace_head (c2 :: rest) s ss heq y hy
        rw [List.head?_cons] at hy2
        cases hy2
        exact h
      · exact ih s (by rw [heq]; exact List.mem_cons_self s ss)
    · exact ih seg (by rw [heq]; exact List.mem_cons_of_mem s hm)
  | case5 c1 c2 rest h heq ih =>
    exact absurd heq (splitDotSpace_ne_nil _)

/-- A separator-free list splits into the single segment itself. -/
theorem splitDotSpace_eq_single (l : List Char)
    (h : l.Chain' (fun a b => ¬(a = '.' ∧ b = ' '))) :
    splitDotSpace l = [l] := by
  induction l using splitDotSpace.induct with
  | case1 => rfl
  | case2 c => rfl
  | case3 c1 c2 rest hsep ih =>
    exact absurd hsep (List.chain'_cons.mp h).1
  | case4 c1 c2 rest hsep s ss heq ih =>
    rw [splitDotSpace, if_neg hsep, heq]
    have h2 := ih (List.chain'_cons.mp h).2
    rw [heq] at h2
    cases h2
    rfl
  | case5 c1 c2 rest hsep heq ih =>
    exact absurd heq (splitDotSpace_ne_nil _)

/-- Splitting a separator-free prefix off recovers it as one segment. -/
theorem splitDotSpace_append (s : List Char)
    (hs : s.Chain' (fun a b => ¬(a = '.' ∧ b = ' '))) (t : List Char) :
    splitDotSpace (s ++ '.' :: ' ' :: t) = s :: splitDotSpace t := by
  induction s with
  | nil =>
    rw [List.nil_append, splitDotSpace, if_pos ⟨rfl, rfl⟩]
  | cons c s' ih =>
    cases s' with
    | nil =>
      rw [show [c] ++ '.' :: ' ' :: t = c :: '.' :: ' ' :: t from rfl]
      rw [splitDotSpace, if_neg (by simp), splitDotSpace, if_pos ⟨rfl, rfl⟩]
    | cons c2 s'' =>
      have hsep : ¬(c = '.' ∧ c2 = ' ') := (List.chain'_cons.mp hs).1
      rw [show (c :: c2 :: s'') ++ '.' :: ' ' :: t =
          c :: c2 :: (s'' ++ '.' :: ' ' :: t) from rfl]
      rw [splitDotSpace, if_neg hsep]
      rw [show c2 :: (s'' ++ '.' :: ' ' :: t) =
          (c2 :: s'') ++ '.' :: ' ' :: t from rfl]
      rw [ih (List.chain'_cons.mp hs).2]

/-- Joining separator-free segments with `'. '` and re-splitting recovers
the segments. -/
theorem splitDotSpace_intercalate (segs : List (List Char))
    (hne : segs ≠ [])
    (hall : ∀ seg ∈ segs, seg.Chain' (fun a b => ¬(a = '.' ∧ b = ' '))) :
    splitDotSpace (List.intercalate ['.', ' '] segs) = segs := by
  induction segs with
  | nil => cases hne rfl
  | cons s segs ih =>
    cases segs with
    | nil =>
      rw [show List.intercalate ['.', ' '] [s] = s by simp [List.intercalate]]
      exact splitDotSpace_eq_single s (hall s (List.mem_cons_self s []))
    | cons s2 rest =>
      rw [show List.intercalate ['.', ' '] (s :: s2 :: rest) =
          s ++ '.' :: ' ' :: List.intercalate ['.', ' '] (s2 :: rest) by
        simp [List.intercalate, List.intersperse]]
      rw [splitDotSpace_append s (hall s (List.mem_cons_self s _)) _]
      rw [ih (by simp) (fun seg hseg => hall seg (List.mem_cons_of_mem s hseg))]

/-- `str.capitalize()` creates no separator pair. -/
theorem pyCapitalize_chain {l : List Char}
    (h : l.Chain' (fun a b => ¬(a = '.' ∧ b = ' '))) :
    (pyCapitalize l).Chain' (fun a b => ¬(a = '.' ∧ b = ' ')) := by
  cases l with
  | nil => exact List.chain'_nil
  | cons c rest =>
    rw [pyCapitalize, List.chain'_cons']
    constructor
    · intro y hy
      rw [List.head?_map] at hy
      cases hrest : rest.head? with
      | none => rw [hrest] at hy; cases hy
      | some b =>
        rw [hrest] at hy
        cases hy
        have hR : ¬(c = '.' ∧ b = ' ') := by
          have := (List.chain'_cons'.mp h).1 b hrest
          exact this
        intro hcontra
        exact hR ⟨(toUpper_eq_low_iff (by decide) c).mp hcontra.1,
          (toLower_eq_low_iff (by decide) b).mp hcontra.2⟩
    · rw [List.chain'_map]
      refine List.Chain'.imp ?_ (List.chain'_cons'.mp h).2
      intro a b hab hcontra
      exact hab ⟨(toLower_eq_low_iff (by decide) a).mp hcontra.1,
        (toLower_eq_low_iff (by decide) b).mp hcontra.2⟩

/-- The sentence-case transform is idempotent. -/
theorem sentenceCase_idem (s : String) :
    sentenceCase (sentenceCase s) = sentenceCase s := by
  unfold sentenceCase
  apply congrArg
  rw [show (String.mk (List.intercalate ['.', ' ']
      ((splitDotSpace s.data).map pyCapitalize))).data =
      List.intercalate ['.', ' ']
        ((splitDotSpace s.data).map pyCapitalize) from rfl]
  rw [splitDotSpace_intercalate ((splitDotSpace s.data).map pyCapitalize)
    (by simpa using splitDotSpace_ne_nil s.data)
    (by
      intro seg hseg
      rcases List.mem_map.mp hseg with ⟨seg0, hseg0, hmap⟩
      subst hmap
      exact pyCapitalize_chain (splitDotSpace_chain s.data seg0 hseg0))]
  rw [List.map_map]
  congr 1
  exact List.map_congr_left (fun seg _ => pyCapitalize_idem seg)

/-- The per-cell transform of `standardize_case` is idempotent for every
`case_type`. -/
theorem caseCell_idem (ct : String) (s : String) :
    caseCell ct (caseCell ct s) = caseCell ct s := by
  by_cases h1 : ct = "upper"
  · simp [caseCell, h1, pyUpper_idem]
  by_cases h2 : ct = "lower"
  · simp [caseCell, h1, h2, pyLower_idem]
  by_cases h3 : ct = "title"
  · simp [caseCell, h1, h2, h3, pyTitle_idem]
  by_cases h4 : ct = "sentence"
  · simp [caseCell, h1, h2, h3, h4, sentenceCase_idem]
  · simp [caseCell, h1, h2, h3, h4]

/-! ### Idempotence of per-cell whitespace normalization -/

/-- Unfolding equation at `[]` for either flag. -/
theorem collapse_nil (b : Bool) : collapseWsAux b [] = [] := by
  cases b <;> rfl

/-- Unfolding equation at a cons cell for either flag. -/
theorem collapse_cons (b : Bool) (c : Char) (rest : List Char) :
    collapseWsAux b (c :: rest) =
      if pySpace c then
        (if b then collapseWsAux true rest
         else ' ' :: collapseWsAux true rest)
      else c :: collapseWsAux false rest := by
  cases b <;> rfl

/-- Inside a run, the next emitted character is not whitespace. -/
theorem collapse_true_head (l : List Char) :
    ∀ c, (collapseWsAux true l).head? = some c → pySpace c = false := by
  induction l with
  | nil =>
    rw [collapse_nil]
    intro c hc
    cases hc
  | cons a rest ih =>
    intro c hc
    rw [collapse_cons] at hc
    by_cases ha : pySpace a
    · rw [if_pos ha, if_pos rfl] at hc
      exact ih c hc
    · rw [if_neg ha, List.head?_cons] at hc
      cases hc
      simpa using ha

/-- Every whitespace character the collapse emits is a plain space. -/
theorem collapse_mem_space (b : Bool) (l : List Char) :
    ∀ c ∈ collapseWsAux b l, pySpace c = true → c = ' ' := by
  induction l generalizing b with
  | nil =>
    rw [collapse_nil]
    intro c hc
    cases hc
  | cons a rest ih =>
    rw [collapse_cons]
    by_cases ha : pySpace a
    · rw [if_pos ha]
      cases b
      · rw [if_neg (by simp)]
        intro c hc hw
        rcases List.mem_cons.mp hc with he | hm
        · exact he
        · exact ih true c hm hw
      · rw [if_pos rfl]
        exact ih true
    · rw [if_neg ha]
      intro c hc hw
      rcases List.mem_cons.mp hc with he | hm
      · subst he
        exact absurd hw ha
      · exact ih false c hm hw

/-- The collapse emits no two adjacent whitespace characters. -/
theorem collapse_chain (b : Bool) (l : List Char) :
    (collapseWsAux b l).Chain'
      (fun x y => ¬(pySpace x = true ∧ pySpace y = true)) := by
  induction l generalizing b with
  | nil =>
    rw [collapse_nil]
    exact List.chain'_nil
  | cons a rest ih =>
    rw [collapse_cons]
    by_cases ha : pySpace a
    · rw [if_pos ha]
      cases b
      · rw [if_neg (by simp), List.chain'_cons']
        refine ⟨?_, ih true⟩
        intro y hy
        have := collapse_true_head rest y hy
        simp [this]
      · rw [if_pos rfl]
        exact ih true
    · rw [if_neg ha, List.chain'_cons']
      refine ⟨?_, ih false⟩
      intro y hy hcon
      exact ha hcon.1

/-- A list holding a non-whitespace character collapses to a nonempty
list. -/
theorem collapse_ne_nil (b : Bool) (l : List Char) (c : Char) (hc : c ∈ l)
    (hws : pySpace c = false) : collapseWsAux b l ≠ [] := by
  induction l generalizing b with
  | nil => cases hc
  | cons a rest ih =>
    rw [collapse_cons]
    by_cases ha : pySpace a
    · rw [if_pos ha]
      have hcr : c ∈ rest := by
        rcases List.mem_cons.mp hc with he | hm
        · subst he
          rw [ha] at hws
          cases hws
        · exact hm
      cases b
      · rw [if_neg (by simp)]
        simp
      · rw [if_pos rfl]
        exact ih true hcr
    · rw [if_neg ha]
      simp

/-- If the input does not end in whitespace, neither does the collapsed
output. -/
theorem collapse_getLast (b : Bool) (l : List Char)
    (hl : ∀ c, l.getLast? = some c → pySpace c = false) :
    ∀ c, (collapseWsAux b l).getLast? = some c → pySpace c = false := by
  induction l generalizing b with
  | nil =>
    rw [collapse_nil]
    intro c hc
    cases hc
  | cons a rest ih =>
    cases rest with
    | nil =>
      have hws : pySpace a = false := hl a (List.getLast?_singleton a)
      intro c hc
      rw [collapse_cons, if_neg (by simp [hws]), collapse_nil,
        List.getLast?_singleton] at hc
      cases hc
      exact hws
    | cons a2 rest2 =>
      have hl2 : ∀ c, (a2 :: rest2).getLast? = some c → pySpace c = false := by
        intro c hc
        apply hl c
        rw [List.getLast?_cons_cons]
        exact hc
      intro c hc
      rw [collapse_cons] at hc
      by_cases ha : pySpace a
      · rw [if_pos ha] at hc
        cases b
        · rw [if_neg (by simp)] at hc
          obtain ⟨c', hc'⟩ := Option.isSome_iff_exists.mp
            (List.getLast?_isSome.mpr (show a2 :: rest2 ≠ [] by simp))
          have hne : collapseWsAux true (a2 :: rest2) ≠ [] :=
            collapse_ne_nil true _ c' (List.mem_of_mem_getLast? hc')
              (hl2 c' hc')
          cases hcc : collapseWsAux true (a2 :: rest2) with
          | nil => exact absurd hcc hne
          | cons x xs =>
            rw [hcc, List.getLast?_cons_cons] at hc
            apply ih true hl2 c
            rw [hcc]
            exact hc
        · rw [if_pos rfl] at hc
          exact ih true hl2 c hc
      · rw [if_neg ha] at hc
        cases hcc : collapseWsAux false (a2 :: rest2) with
        | nil =>
          rw [hcc, List.getLast?_singleton] at hc
          cases hc
          simpa using ha
        | cons x xs =>
          rw [hcc, List.getLast?_cons_cons] at hc
          apply ih false hl2 c
          rw [hcc]
          exact hc

/-- A list whose whitespace is single plain spaces between non-whitespace
characters is a fixed point of the collapse. -/
theorem collapse_fix (l : List Char)
    (h1 : ∀ c ∈ l, pySpace c = true → c = ' ')
    (h2 : l.Chain' (fun x y => ¬(pySpace x = true ∧ pySpace y = true))) :
    collapseWsAux false l = l ∧
      ((∀ c, l.head? = some c → pySpace c = false) →
        collapseWsAux true l = l) := by
  induction l with
  | nil => exact ⟨collapse_nil false, fun _ => collapse_nil true⟩
  | cons a rest ih =>
    have ih' := ih (fun c hc hw => h1 c (List.mem_cons_of_mem a hc) hw)
      (List.chain'_cons'.mp h2).2
    by_cases ha : pySpace a
    · have ha' : a = ' ' := h1 a (List.mem_cons_self a rest) ha
      have hresthead : ∀ c, rest.head? = some c → pySpace c = false := by
        intro c hc
        have hR := (List.chain'_cons'.mp h2).1 c hc
        cases hcw : pySpace c
        · rfl
        · exact absurd ⟨ha, hcw⟩ hR
      constructor
      · rw [collapse_cons, if_pos ha, if_neg (by simp)]
        rw [ih'.2 hresthead, ha']
      · intro hhead
        have := hhead a rfl
        rw [ha] at this
        cases this
    · constructor
      · rw [collapse_cons, if_neg ha, ih'.1]
      · intro _
        rw [collapse_cons, if_neg ha, ih'.1]

/-- The head surviving `dropWhile` fails the dropped predicate. -/
theorem head_dropWhile_not (l : List Char) :
    ∀ c, (l.dropWhile pySpace).head? = some c → pySpace c = false := by
  induction l with
  | nil =>
    intro c hc
    cases hc
  | cons a rest ih =>
    intro c hc
    rw [List.dropWhile_cons] at hc
    by_cases ha : pySpace a
    · rw [if_pos ha] at hc
      exact ih c hc
    · rw [if_neg ha, List.head?_cons] at hc
      cases hc
      simpa using ha

/-- `dropWhile` is the identity when the head already fails the
predicate. -/
theorem dropWhile_eq_self_of_head (l : List Char)
    (h : ∀ c, l.head? = some c → pySpace c = false) :
    l.dropWhile pySpace = l := by
  cases l with
  | nil => rfl
  | cons a rest =>
    rw [List.dropWhile_cons, if_neg (by simp [h a rfl])]

/-- A stripped string does not start with whitespace. -/
theorem pyStripList_head (l : List Char) :
    ∀ c, (pyStripList l).head? = some c → pySpace c = false := by
  intro c hc
  rw [pyStripList, List.head?_reverse] at hc
  obtain ⟨t, ht⟩ : ((l.dropWhile pySpace).reverse.dropWhile pySpace) <:+
      (l.dropWhile pySpace).reverse := List.dropWhile_suffix pySpace
  have hY : (l.dropWhile pySpace).reverse.dropWhile pySpace ≠ [] := by
    intro h0
    rw [h0] at hc
    cases hc
  have h2 : (l.dropWhile pySpace).reverse.getLast? = some c := by
    rw [← ht, List.getLast?_append_of_ne_nil t hY]
    exact hc
  rw [List.getLast?_reverse] at h2
  exact head_dropWhile_not l c h2

/-- A stripped string does not end with whitespace. -/
theorem pyStripList_getLast (l : List Char) :
    ∀ c, (pyStripList l).getLast? = some c → pySpace c = false := by
  intro c hc
  rw [pyStripList, List.getLast?_reverse] at hc
  exact head_dropWhile_not _ c hc

/-- Stripping is the identity on strings with non-whitespace ends. -/
theorem pyStripList_eq_self (l : List Char)
    (hh : ∀ c, l.head? = some c → pySpace c = false)
    (hl : ∀ c, l.getLast? = some c → pySpace c = false) :
    pyStripList l = l := by
  rw [pyStripList, dropWhile_eq_self_of_head l hh]
  rw [dropWhile_eq_self_of_head l.reverse (by
    intro c hc
    rw [List.head?_reverse] at hc
    exact hl c hc)]
  exact List.reverse_reverse l

/-- Collapsing from outside a run preserves a non-whitespace head. -/
theorem collapse_false_head (l : List Char)
    (h : ∀ c, l.head? = some c → pySpace c = false) :
    ∀ c, (collapseWsAux false l).head? = some c → pySpace c = false := by
  cases l with
  | nil =>
    rw [collapse_nil]
    intro c hc
    cases hc
  | cons a rest =>
    have ha := h a rfl
    rw [collapse_cons, if_neg (by simp [ha])]
    intro c hc
    rw [List.head?_cons] at hc
    cases hc
    exact ha

/-- Per-cell whitespace normalization is idempotent. -/
theorem nwCell_idem (s : String) : nwCell (nwCell s) = nwCell s := by
  unfold nwCell
  apply congrArg
  rw [show (String.mk (collapseWsAux false (pyStripList s.data))).data =
      collapseWsAux false (pyStripList s.data) from rfl]
  rw [pyStripList_eq_self _
    (collapse_false_head (pyStripList s.data) (pyStripList_head s.data))
    (collapse_getLast false (pyStripList s.data)
      (pyStripList_getLast s.data))]
  exact (collapse_fix _ (collapse_mem_space false _)
    (collapse_chain false _)).1

/-! ### Re-running the shared cell loop -/

/-- One loop step leaves fixed positions fixed (for idempotent `f`). -/
theorem rowApplyStep_preserves_fixedAt (f : String → String) (req : Bool)
    (hf : ∀ s, f (f s) = f s) (acc : List String × Nat) (i j : Nat)
    (hj : FixedAt f req acc.1 j) :
    FixedAt f req (rowApplyStep f req acc i).1 j := by
  unfold rowApplyStep
  by_cases hc : i < acc.1.length ∧ (¬ req ∨ acc.1.getD i "" ≠ "")
  · rw [if_pos hc]
    dsimp only
    by_cases hne : acc.1.getD i "" ≠ f (acc.1.getD i "")
    · rw [if_pos hne]
      intro hcond
      by_cases hij : j = i
      · subst hij
        rw [List.getD_eq_getElem?_getD, List.getElem?_set_self hc.1,
          Option.getD_some]
        exact hf _
      · have hgd : (acc.1.set i (f (acc.1.getD i ""))).getD j "" =
            acc.1.getD j "" := by
          rw [List.getD_eq_getElem?_getD,
            List.getElem?_set_ne (fun he => hij he.symm),
            ← List.getD_eq_getElem?_getD]
        rw [hgd] at hcond ⊢
        rw [List.length_set] at hcond
        exact hj hcond
    · rw [if_neg hne]
      exact hj
  · rw [if_neg hc]
    exact hj

/-- Visiting a position makes it fixed (for idempotent `f`). -/
theorem rowApplyStep_fixedAt_self (f : String → String) (req : Bool)
    (hf : ∀ s, f (f s) = f s) (acc : List String × Nat) (j : Nat) :
    FixedAt f req (rowApplyStep f req acc j).1 j := by
  unfold rowApplyStep
  by_cases hc : j < acc.1.length ∧ (¬ req ∨ acc.1.getD j "" ≠ "")
  · rw [if_pos hc]
    dsimp only
    by_cases hne : acc.1.getD j "" ≠ f (acc.1.getD j "")
    · rw [if_pos hne]
      intro _
      rw [List.getD_eq_getElem?_getD, List.getElem?_set_self hc.1,
        Option.getD_some]
      exact hf _
    · rw [if_neg hne]
      intro _
      rw [not_not] at hne
      exact hne.symm
  · rw [if_neg hc]
    intro hcond
    exact absurd hcond hc

/-- The whole loop leaves fixed positions fixed. -/
theorem foldl_rowApplyStep_preserves_fixedAt (f : String → String)
    (req : Bool) (hf : ∀ s, f (f s) = f s) (idxs : List Nat)
    (acc : List String × Nat) (j : Nat) (hj : FixedAt f req acc.1 j) :
    FixedAt f req (idxs.foldl (rowApplyStep f req) acc).1 j := by
  induction idxs generalizing acc with
  | nil => exact hj
  | cons i idxs ih =>
    rw [List.foldl_cons]
    exact ih _ (rowApplyStep_preserves_fixedAt f req hf acc i j hj)

/-- After the loop, every visited position is fixed. -/
theorem foldl_rowApplyStep_fixedAt_mem (f : String → String) (req : Bool)
    (hf : ∀ s, f (f s) = f s) (idxs : List Nat) (acc : List String × Nat)
    (j : Nat) (hmem : j ∈ idxs) :
    FixedAt f req (idxs.foldl (rowApplyStep f req) acc).1 j := by
  induction idxs generalizing acc with
  | nil => cases hmem
  | cons i idxs ih =>
    rw [List.foldl_cons]
    rcases List.mem_cons.mp hmem with he | hm
    · subst he
      exact foldl_rowApplyStep_preserves_fixedAt f req hf idxs _ j
        (rowApplyStep_fixedAt_self f req hf acc j)
    · exact ih _ hm

/-- The loop is a no-op (rows and count) on a row fixed at every visited
position. -/
theorem foldl_rowApplyStep_stable (f : String → String) (req : Bool)
    (idxs : List Nat) (acc : List String × Nat)
    (h : ∀ j ∈ idxs, FixedAt f req acc.1 j) :
    idxs.foldl (rowApplyStep f req) acc = acc := by
  induction idxs with
  | nil => rfl
  | cons i idxs ih =>
    have hstep : rowApplyStep f req acc i = acc := by
      unfold rowApplyStep
      by_cases hc : i < acc.1.length ∧ (¬ req ∨ acc.1.getD i "" ≠ "")
      · rw [if_pos hc]
        dsimp only
        rw [if_neg (not_not.mpr (h i (List.mem_cons_self i idxs) hc).symm)]
      · rw [if_neg hc]
    rw [List.foldl_cons, hstep]
    exact ih (fun j hj => h j (List.mem_cons_of_mem i hj))

/-- Re-running the row loop on its own output changes nothing and counts
zero cells (for idempotent `f`). -/
theorem rowApply_idem (idxs : List Nat) (f : String → String) (req : Bool)
    (hf : ∀ s, f (f s) = f s) (row : List String) :
    rowApply idxs f req (rowApply idxs f req row).1 =
      ((rowApply idxs f req row).1, 0) := by
  unfold rowApply
  exact foldl_rowApplyStep_stable f req idxs _
    (fun j hj => foldl_rowApplyStep_fixedAt_mem f req hf idxs (row, 0) j hj)

/-- Re-running the table loop on its own output returns it unchanged with
a zero modified count (for idempotent `f`). -/
theorem tableApply_idem (rows : List (List String)) (idxs : List Nat)
    (f : String → String) (req : Bool) (hf : ∀ s, f (f s) = f s) :
    tableApply (tableApply rows idxs f req).1 idxs f req =
      ((tableApply rows idxs f req).1, 0) := by
  unfold tableApply
  dsimp only
  rw [List.map_map, List.map_map]
  have h1 : rows.map ((fun row => (rowApply idxs f req row).1) ∘
      (fun row => (rowApply idxs f req row).1)) =
      rows.map (fun row => (rowApply idxs f req row).1) :=
    List.map_congr_left (fun row _ => by
      show (rowApply idxs f req ((rowApply idxs f req row).1)).1 = _
      rw [rowApply_idem idxs f req hf row])
  have h2 : rows.map ((fun row => (rowApply idxs f req row).2) ∘
      (fun row => (rowApply idxs f req row).1)) =
      rows.map (fun _ => (0 : Nat)) :=
    List.map_congr_left (fun row _ => by
      show (rowApply idxs f req ((rowApply idxs f req row).1)).2 = _
      rw [rowApply_idem idxs f req hf row])
  rw [h1, h2]
  simp

/-- Re-running `normalize_whitespace` on its own output changes nothing
and reports zero modified cells. -/
theorem normalize_whitespace_idem (rows : List (List String))
    (headers : List String) (columns : Option (List String)) :
    normalize_whitespace (normalize_whitespace rows headers columns).1
      headers columns =
      ((normalize_whitespace rows headers columns).1, 0) := by
  by_cases h : rows = []
  · subst h
    rfl
  · have hR : (normalize_whitespace rows headers columns).1 =
        (tableApply rows (get_column_indices headers columns)
          nwCell false).1 := by
      rw [normalize_whitespace, if_neg h]
    rw [hR, normalize_whitespace, if_neg (by simp [tableApply, h])]
    exact tableApply_idem rows _ nwCell false nwCell_idem

/-- Re-running `standardize_case` on its own output changes nothing and
reports zero modified cells, for every case mode. -/
theorem standardize_case_idem (rows : List (List String))
    (headers : List String) (case_type : String)
    (columns : Option (List String)) :
    standardize_case (standardize_case rows headers case_type columns).1
      headers case_type columns =
      ((standardize_case rows headers case_type columns).1, 0) := by
  by_cases h : rows = []
  · subst h
    rfl
  · have hR : (standardize_case rows headers case_type columns).1 =
        (tableApply rows (get_column_indices headers columns)
          (caseCell case_type) true).1 := by
      rw [standardize_case, if_neg h]
    rw [hR, standardize_case, if_neg (by simp [tableApply, h])]
    exact tableApply_idem rows _ (caseCell case_type) true
      (caseCell_idem case_type)

/-! ### Re-running `remove_empty_rows` -/

/-- Re-running `remove_empty_rows` at the same threshold removes zero
further rows. -/
theorem remove_empty_rows_idem (rows : List (List String))
    (threshold : ℚ) :
    remove_empty_rows (remove_empty_rows rows threshold).1 threshold =
      ((remove_empty_rows rows threshold).1, 0) := by
  by_cases h : rows = []
  · subst h
    rfl
  · have hR : (remove_empty_rows rows threshold).1 =
        rows.filter (fun row => ¬ rowEmptyRatio row ≥ threshold) := by
      rw [remove_empty_rows, if_neg h]
    rw [hR, remove_empty_rows]
    by_cases h2 : rows.filter (fun row => ¬ rowEmptyRatio row ≥ threshold)
        = []
    · rw [if_pos h2]
    · rw [if_neg h2]
      have hself : (rows.filter
          (fun row => ¬ rowEmptyRatio row ≥ threshold)).filter
          (fun row => ¬ rowEmptyRatio row ≥ threshold) =
          rows.filter (fun row => ¬ rowEmptyRatio row ≥ threshold) := by
        rw [List.filter_eq_self]
        intro a ha
        exact (List.mem_filter.mp ha).2
      rw [hself]
      simp

/-- At threshold `1.0` the per-row empty ratio reaches the threshold
exactly on the rows all of whose cells are empty or whitespace. -/
theorem rowEmptyRatio_ge_one_iff (row : List String) :
    rowEmptyRatio row ≥ 1 ↔ row.all (fun c => isBlank c) = true := by
  unfold rowEmptyRatio
  by_cases h : row.length = 0
  · rw [if_pos h]
    rw [List.length_eq_zero] at h
    subst h
    simp
  · rw [if_neg h]
    have hpos : (0 : ℚ) < (row.length : ℚ) := by
      exact_mod_cast Nat.pos_of_ne_zero h
    rw [ge_iff_le, le_div_iff₀ hpos, one_mul, Nat.cast_le]
    constructor
    · intro hle
      have hco : row.countP (fun c => isBlank c) = row.length :=
        le_antisymm (List.countP_le_length _) hle
      rw [List.all_eq_true]
      intro x hx
      exact List.countP_eq_length.mp hco x hx
    · intro hall
      rw [List.all_eq_true] at hall
      exact le_of_eq (List.countP_eq_length.mpr hall).symm

/-! ### Re-running `fill_missing_values` -/

/-- A list equal to its own image under `f` is fixed by `f` pointwise. -/
theorem map_eq_self_forall {α : Type} (f : α → α) (l : List α)
    (h : l.map f = l) : ∀ a ∈ l, f a = a := by
  induction l with
  | nil =>
    intro a ha
    cases ha
  | cons x xs ih =>
    rw [List.map_cons] at h
    injection h with h1 h2
    intro a ha
    rcases List.mem_cons.mp ha with he | hm
    · subst he
      exact h1
    · exact ih h2 a hm

/-- Writing a cell's current value back is a no-op. -/
theorem set_getD_self (r : List String) (j : Nat) (d : String)
    (h : j < r.length) : r.set j (r.getD j d) = r := by
  induction r generalizing j with
  | nil => simp at h
  | cons a rest ih =>
    cases j with
    | zero => rfl
    | succ n =>
      rw [List.getD_cons_succ, List.set_cons_succ, ih n (by simpa using h)]

/-- Blankness split into its two Python conditions. -/
theorem isBlank_false_iff (s : String) :
    isBlank s = false ↔ (s ≠ "" ∧ pyStrip s ≠ "") := by
  unfold isBlank
  simp

/-- `fillColumn` preserves the number of rows. -/
theorem fillColumn_length (strategy value : String) (j : Nat)
    (rows : List (List String)) :
    (fillColumn strategy value j rows).1.length = rows.length := by
  unfold fillColumn
  split
  · rfl
  · simp

/-- The nonblank column values depend only on column `j`. -/
theorem columnNonblank_map (j : Nat) (rows : List (List String))
    (h : List String → List String)
    (hlen : ∀ r, (h r).length = r.length)
    (hget : ∀ r, (h r).getD j "" = r.getD j "") :
    columnNonblank j (rows.map h) = columnNonblank j rows := by
  unfold columnNonblank
  rw [List.filterMap_map]
  apply List.filterMap_congr
  intro r _
  show (if j < (h r).length ∧ (h r).getD j "" ≠ "" ∧
      pyStrip ((h r).getD j "") ≠ "" then some ((h r).getD j "")
    else none) = _
  rw [hlen r, hget r]

/-- Filling blank cells with a blank value leaves the nonblank column
values unchanged. -/
theorem columnNonblank_map_blank (j : Nat) (fv : String)
    (hfv : isBlank fv = true) (rows : List (List String)) :
    columnNonblank j (rows.map (fun r =>
      if j < r.length ∧ isBlank (r.getD j "") then r.set j fv else r)) =
      columnNonblank j rows := by
  unfold columnNonblank
  rw [List.filterMap_map]
  apply List.filterMap_congr
  intro r _
  dsimp only [Function.comp]
  by_cases hc : j < r.length ∧ isBlank (r.getD j "") = true
  · rw [if_pos hc, List.length_set, List.getD_eq_getElem?_getD,
      List.getElem?_set_self hc.1, Option.getD_some]
    rw [if_neg, if_neg]
    · intro hcon
      have hb := hc.2
      rw [show isBlank (r.getD j "") = true ↔
          ¬ isBlank (r.getD j "") = false by simp] at hb
      rw [isBlank_false_iff] at hb
      exact hb ⟨hcon.2.1, hcon.2.2⟩
    · intro hcon
      have hb : isBlank fv = false := (isBlank_false_iff fv).mpr
        ⟨hcon.2.1, hcon.2.2⟩
      rw [hfv] at hb
      cases hb
  · rw [if_neg hc]

/-- After filling with a nonblank value, column `j` holds no blank
in-range cell. -/
theorem fillMap_no_blank (j : Nat) (fv : String)
    (hfv : isBlank fv = false) (rows : List (List String))
    (r' : List String)
    (hr' : r' ∈ rows.map (fun r =>
      if j < r.length ∧ isBlank (r.getD j "") then r.set j fv else r)) :
    ¬(j < r'.length ∧ isBlank (r'.getD j "") = true) := by
  obtain ⟨r, hr, hmap⟩ := List.mem_map.mp hr'
  subst hmap
  by_cases hc : j < r.length ∧ isBlank (r.getD j "") = true
  · rw [if_pos hc]
    intro hcon
    have := hcon.2
    rw [List.getD_eq_getElem?_getD, List.getElem?_set_self hc.1,
      Option.getD_some, hfv] at this
    cases this
  · rw [if_neg hc]
    exact hc

/-- Re-filling with the same blank value changes no cell. -/
theorem fillMap_idem_blank (j : Nat) (fv : String)
    (hfv : isBlank fv = true) (rows : List (List String)) :
    (rows.map (fun r =>
      if j < r.length ∧ isBlank (r.getD j "") then r.set j fv else r)).map
      (fun r =>
        if j < r.length ∧ isBlank (r.getD j "") then r.set j fv else r) =
    rows.map (fun r =>
      if j < r.length ∧ isBlank (r.getD j "") then r.set j fv else r) := by
  rw [List.map_map]
  apply List.map_congr_left
  intro r _
  show (fun r => if j < r.length ∧ isBlank (r.getD j "") = true then
    r.set j fv else r)
    (if j < r.length ∧ isBlank (r.getD j "") = true then r.set j fv else r)
    = _
  by_cases hc : j < r.length ∧ isBlank (r.getD j "") = true
  · rw [if_pos hc]
    dsimp only
    have hc2 : j < (r.set j fv).length ∧
        isBlank ((r.set j fv).getD j "") = true := by
      rw [List.length_set, List.getD_eq_getElem?_getD,
        List.getElem?_set_self hc.1, Option.getD_some, hfv]
      exact ⟨hc.1, rfl⟩
    rw [if_pos hc2, List.set_set]
  · rw [if_neg hc]
    dsimp only
    rw [if_neg hc]

/-- A fixed point of `fillColumn` at column `j` stays fixed under any
table rewrite preserving row lengths and column `j`. -/
theorem fillColumn_map_fix (strategy value : String) (j : Nat)
    (rows : List (List String)) (h : List String → List String)
    (hlen : ∀ r, (h r).length = r.length)
    (hget : ∀ r, (h r).getD j "" = r.getD j "")
    (hfix : (fillColumn strategy value j rows).1 = rows) :
    (fillColumn strategy value j (rows.map h)).1 = rows.map h := by
  rw [fillColumn, columnNonblank_map j rows h hlen hget]
  by_cases hcv : columnNonblank j rows = []
  · rw [if_pos hcv]
  · rw [if_neg hcv]
    rw [fillColumn, if_neg hcv] at hfix
    dsimp only at hfix ⊢
    rw [List.map_map]
    apply List.map_congr_left
    intro r hr
    have hga : (if j < r.length ∧ isBlank (r.getD j "") = true then
        r.set j (fillValue strategy value (columnNonblank j rows))
      else r) = r := map_eq_self_forall _ rows hfix r hr
    show (if j < (h r).length ∧ isBlank ((h r).getD j "") = true then
        (h r).set j (fillValue strategy value (columnNonblank j rows))
      else h r) = h r
    by_cases hc : j < r.length ∧ isBlank (r.getD j "") = true
    · have hcond : j < (h r).length ∧ isBlank ((h r).getD j "") = true := by
        rw [hlen r, hget r]
        exact hc
      rw [if_pos hcond]
      rw [if_pos hc] at hga
      have hfv : r.getD j "" = fillValue strategy value
          (columnNonblank j rows) := by
        have h2 := congrArg (fun l => List.getD l j "") hga
        dsimp only at h2
        rw [List.getD_eq_getElem?_getD, List.getElem?_set_self hc.1,
          Option.getD_some] at h2
        exact h2.symm
      rw [show fillValue strategy value (columnNonblank j rows) =
          (h r).getD j "" by rw [hget r, hfv]]
      exact set_getD_self (h r) j "" (by rw [hlen r]; exact hc.1)
    · have hcond : ¬(j < (h r).length ∧ isBlank ((h r).getD j "") = true)
          := by
        rw [hlen r, hget r]
        exact hc
      rw [if_neg hcond]

/-- Re-running `fillColumn` on its own output leaves the rows
unchanged. -/
theorem fillColumn_idem (strategy value : String) (j : Nat)
    (rows : List (List String)) :
    (fillColumn strategy value j
      ((fillColumn strategy value j rows).1)).1 =
      (fillColumn strategy value j rows).1 := by
  by_cases hcv : columnNonblank j rows = []
  · have hin : (fillColumn strategy value j rows).1 = rows := by
      rw [fillColumn, if_pos hcv]
    rw [hin]
    exact hin
  · have hR : (fillColumn strategy value j rows).1 =
        rows.map (fun r =>
          if j < r.length ∧ isBlank (r.getD j "") then
            r.set j (fillValue strategy value (columnNonblank j rows))
          else r) := by
      rw [fillColumn, if_neg hcv]
    rw [hR]
    cases hfv : isBlank (fillValue strategy value (columnNonblank j rows))
    · rw [fillColumn]
      by_cases hcv2 : columnNonblank j (rows.map (fun r =>
          if j < r.length ∧ isBlank (r.getD j "") then
            r.set j (fillValue strategy value (columnNonblank j rows))
          else r)) = []
      · rw [if_pos hcv2]
      · rw [if_neg hcv2]
        dsimp only
        have hall : ∀ r' ∈ rows.map (fun r =>
            if j < r.length ∧ isBlank (r.getD j "") then
              r.set j (fillValue strategy value (columnNonblank j rows))
            else r),
            (if j < r'.length ∧ isBlank (r'.getD j "") = true then
              r'.set j (fillValue strategy value (columnNonblank j
                (rows.map (fun r =>
                  if j < r.length ∧ isBlank (r.getD j "") then
                    r.set j (fillValue strategy value
                      (columnNonblank j rows))
                  else r))))
            else r') = r' := by
          intro r' hr'
          rw [if_neg (fillMap_no_blank j _ hfv rows r' hr')]
        calc (rows.map (fun r =>
            if j < r.length ∧ isBlank (r.getD j "") then
              r.set j (fillValue strategy value (columnNonblank j rows))
            else r)).map _ =
            (rows.map (fun r =>
              if j < r.length ∧ isBlank (r.getD j "") then
                r.set j (fillValue strategy value (columnNonblank j rows))
              else r)).map id := List.map_congr_left hall
          _ = _ := List.map_id _
    · have hcvEq := columnNonblank_map_blank j
        (fillValue strategy value (columnNonblank j rows)) hfv rows
      rw [fillColumn, hcvEq, if_neg hcv]
      dsimp only
      exact fillMap_idem_blank j _ hfv rows

/-- One `fill_missing_values` column step keeps every already-stable
column stable. -/
theorem fillStep_preserves_colFixed (strategy value : String) (hl : Nat)
    (acc : List (List String) × Nat) (k j : Nat)
    (hfix : (fillColumn strategy value j acc.1).1 = acc.1) :
    (fillColumn strategy value j
      (fillStep strategy value hl acc k).1).1 =
      (fillStep strategy value hl acc k).1 := by
  unfold fillStep
  by_cases hk : k ≥ hl
  · rw [if_pos hk]
    exact hfix
  · rw [if_neg hk]
    dsimp only
    by_cases hkj : k = j
    · subst hkj
      exact fillColumn_idem strategy value k acc.1
    · by_cases hcvk : columnNonblank k acc.1 = []
      · have hid : (fillColumn strategy value k acc.1).1 = acc.1 := by
          rw [fillColumn, if_pos hcvk]
        rw [hid]
        exact hfix
      · have hRk : (fillColumn strategy value k acc.1).1 =
            acc.1.map (fun r =>
              if k < r.length ∧ isBlank (r.getD k "") then
                r.set k (fillValue strategy value
                  (columnNonblank k acc.1))
              else r) := by
          rw [fillColumn, if_neg hcvk]
        rw [hRk]
        refine fillColumn_map_fix strategy value j acc.1 _ ?_ ?_ hfix
        · intro r
          by_cases hc : k < r.length ∧ isBlank (r.getD k "") = true
          · rw [if_pos hc, List.length_set]
          · rw [if_neg hc]
        · intro r
          by_cases hc : k < r.length ∧ isBlank (r.getD k "") = true
          · rw [if_pos hc, List.getD_eq_getElem?_getD,
              List.getElem?_set_ne hkj, ← List.getD_eq_getElem?_getD]
          · rw [if_neg hc]

/-- The whole `fill_missing_values` fold keeps a stable column stable. -/
theorem fillFold_preserves_colFixed (strategy value : String) (hl : Nat)
    (idxs : List Nat) (acc : List (List String) × Nat) (j : Nat)
    (hfix : (fillColumn strategy value j acc.1).1 = acc.1) :
    (fillColumn strategy value j
      (idxs.foldl (fillStep strategy value hl) acc).1).1 =
      (idxs.foldl (fillStep strategy value hl) acc).1 := by
  induction idxs generalizing acc with
  | nil => exact hfix
  | cons k idxs ih =>
    rw [List.foldl_cons]
    exact ih _ (fillStep_preserves_colFixed strategy value hl acc k j hfix)

/-- After the `fill_missing_values` fold, every processed column is
stable. -/
theorem fillFold_colFixed_mem (strategy value : String) (hl : Nat)
    (idxs : List Nat) (acc : List (List String) × Nat) (j : Nat)
    (hmem : j ∈ idxs) (hj : j < hl) :
    (fillColumn strategy value j
      (idxs.foldl (fillStep strategy value hl) acc).1).1 =
      (idxs.foldl (fillStep strategy value hl) acc).1 := by
  induction idxs generalizing acc with
  | nil => cases hmem
  | cons k idxs ih =>
    rw [List.foldl_cons]
    rcases List.mem_cons.mp hmem with he | hm
    · subst he
      apply fillFold_preserves_colFixed
      unfold fillStep
      rw [if_neg (by omega)]
      dsimp only
      exact fillColumn_idem strategy value j acc.1
    · exact ih _ hm

/-- The fold leaves the rows unchanged when every processed column is
already stable. -/
theorem fillFold_stable (strategy value : String) (hl : Nat)
    (idxs : List Nat) (R : List (List String)) (c : Nat)
    (h : ∀ j ∈ idxs, j < hl → (fillColumn strategy value j R).1 = R) :
    (idxs.foldl (fillStep strategy value hl) (R, c)).1 = R := by
  induction idxs generalizing c with
  | nil => rfl
  | cons k idxs ih =>
    rw [List.foldl_cons]
    unfold fillStep
    by_cases hk : k ≥ hl
    · rw [if_pos hk]
      exact ih c (fun j hj hjl => h j (List.mem_cons_of_mem k hj) hjl)
    · rw [if_neg hk]
      dsimp only
      rw [h k (List.mem_cons_self k idxs) (by omega)]
      exact ih _ (fun j hj hjl => h j (List.mem_cons_of_mem k hj) hjl)

/-- The fold preserves the number of rows. -/
theorem fillFold_length (strategy value : String) (hl : Nat)
    (idxs : List Nat) (acc : List (List String) × Nat) :
    (idxs.foldl (fillStep strategy value hl) acc).1.length =
      acc.1.length := by
  induction idxs generalizing acc with
  | nil => rfl
  | cons k idxs ih =>
    rw [List.foldl_cons, ih]
    unfold fillStep
    by_cases hk : k ≥ hl
    · rw [if_pos hk]
    · rw [if_neg hk]
      dsimp only
      exact fillColumn_length strategy value k acc.1

/-- Re-running `fill_missing_values` with the same arguments leaves the
row set unchanged (the reported filled count may repeat). -/
theorem fill_missing_rows_idem (rows : List (List String))
    (headers : List String) (strategy value : String)
    (columns : Option (List String)) :
    (fill_missing_values (fill_missing_values rows headers strategy value
      columns).1 headers strategy value columns).1 =
      (fill_missing_values rows headers strategy value columns).1 := by
  by_cases h : rows = []
  · subst h
    rfl
  · have hR : (fill_missing_values rows headers strategy value columns).1
        = ((get_column_indices headers columns).foldl
          (fillStep strategy value headers.length) (rows, 0)).1 := by
      rw [fill_missing_values, if_neg h]
    rw [hR, fill_missing_values, if_neg (by
      intro h0
      apply h
      have hlen := fillFold_length strategy value headers.length
        (get_column_indices headers columns) (rows, 0)
      rw [h0] at hlen
      exact List.length_eq_zero.mp (by simpa using hlen.symm))]
    exact fillFold_stable strategy value headers.length _ _ 0
      (fun j hj hjl => fillFold_colFixed_mem strategy value
        headers.length _ (rows, 0) j hj hjl)

/-- Re-running `remove_duplicates` on its own output removes zero rows,
whatever keep mode each run uses. -/
theorem remove_duplicates_idem (rows : List (List String))
    (headers : List String) (subset : Option (List String))
    (keep keep2 : String) :
    remove_duplicates (remove_duplicates rows headers subset keep).1
      headers subset keep2 =
      ((remove_duplicates rows headers subset keep).1, 0) :=
  remove_duplicates_of_nodup _ headers subset keep2
    (remove_duplicates_keys_nodup rows headers subset keep)

/-- Complementary filters partition a list's length. -/
theorem length_filter_not_add {α : Type} (p : α → Bool) (l : List α) :
    (l.filter (fun a => ¬ p a)).length + (l.filter p).length =
      l.length := by
  induction l with
  | nil => rfl
  | cons a rest ih =>
    rw [List.filter_cons, List.filter_cons]
    by_cases h : p a = true
    · rw [if_pos h, if_neg (by simp [h])]
      simp only [List.length_cons]
      omega
    · rw [if_neg h, if_pos (by simp [h])]
      simp only [List.length_cons]
      omega

/-- At threshold `1.0`, `remove_empty_rows` keeps exactly the rows with a
non-blank cell and counts exactly the all-blank rows it removed. -/
theorem remove_empty_rows_one (rows : List (List String)) :
    remove_empty_rows rows 1 =
      (rows.filter (fun row => ¬ row.all (fun c => isBlank c)),
       (rows.filter (fun row => row.all (fun c => isBlank c))).length) := by
  by_cases h : rows = []
  · subst h
    rfl
  · rw [remove_empty_rows, if_neg h]
    dsimp only
    have hfilter : rows.filter (fun row => ¬ rowEmptyRatio row ≥ 1) =
        rows.filter (fun row => ¬ row.all (fun c => isBlank c)) := by
      apply List.filter_congr
      intro r _
      exact decide_eq_decide.mpr (not_congr (rowEmptyRatio_ge_one_iff r))
    rw [hfilter]
    have hlen := length_filter_not_add
      (fun row => row.all (fun c => isBlank c)) rows
    have hsame : rows.filter (fun row =>
        ¬ (fun row => row.all (fun c => isBlank c)) row) =
        rows.filter (fun row => ¬ row.all (fun c => isBlank c)) := rfl
    rw [hsame] at hlen
    congr 1
    omega

/-! ### Re-running `normalize_dates`: digits and matchers -/

/-- `Char.isDigit` through the code point. -/
theorem isDigit_iff_toNat (c : Char) :
    c.isDigit = true ↔ (48 ≤ c.toNat ∧ c.toNat ≤ 57) := by
  simp [Char.isDigit, Char.toNat, uint32_le_iff_toNat_le]
  norm_num

/-- Basic facts about decimal digit characters. -/
theorem digitChar_lt10 (k : Nat) (h : k < 10) :
    (Nat.digitChar k).isDigit = true ∧ (Nat.digitChar k).toNat = 48 + k ∧
      Nat.digitChar k ≠ '-' ∧ Nat.digitChar k ≠ '/' := by
  interval_cases k <;> exact ⟨by decide, by decide, by decide, by decide⟩

/-- Value of a two-digit field built from digit characters. -/
theorem val2_digitChar (a b : Nat) (ha : a < 10) (hb : b < 10) :
    val2 (Nat.digitChar a) (Nat.digitChar b) = a * 10 + b := by
  unfold val2
  rw [(digitChar_lt10 a ha).2.1, (digitChar_lt10 b hb).2.1]
  omega

/-- A four-digit zero-padded year reads back to itself. -/
theorem digitsVal_pad4 (y : Nat) (hy : y ≤ 9999) :
    digitsVal (pad4 y) = y := by
  unfold digitsVal pad4
  simp only [List.foldl_cons, List.foldl_nil]
  rw [(digitChar_lt10 (y / 1000 % 10) (Nat.mod_lt _ (by norm_num))).2.1,
    (digitChar_lt10 (y / 100 % 10) (Nat.mod_lt _ (by norm_num))).2.1,
    (digitChar_lt10 (y / 10 % 10) (Nat.mod_lt _ (by norm_num))).2.1,
    (digitChar_lt10 (y % 10) (Nat.mod_lt _ (by norm_num))).2.1]
  omega

/-- `\d{1,2}sep` fails when neither a two- nor one-digit split puts the
separator next. -/
theorem matchD12Sep_none (sep d1 d2 d3 : Char) (rest : List Char)
    (h1 : d1.isDigit = true) (h2 : d2.isDigit = true)
    (h3 : d3 ≠ sep) (h4 : d2 ≠ sep) :
    matchD12Sep sep (d1 :: d2 :: d3 :: rest) = none := by
  show (if d1.isDigit = true then
      if d2.isDigit = true then
        if d3 = sep then some rest
        else if d2 = sep then some (d3 :: rest) else none
      else if d2 = sep then some (d3 :: rest) else none
    else none) = none
  rw [if_pos h1, if_pos h2, if_neg h3, if_neg h4]

/-- `\d{1,2}sep` consumes a two-digit field followed by the separator. -/
theorem matchD12Sep_two (sep d1 d2 : Char) (rest : List Char)
    (h1 : d1.isDigit = true) (h2 : d2.isDigit = true) :
    matchD12Sep sep (d1 :: d2 :: sep :: rest) = some rest := by
  show (if d1.isDigit = true then
      if d2.isDigit = true then
        if sep = sep then some rest
        else if d2 = sep then some (sep :: rest) else none
      else if d2 = sep then some (sep :: rest) else none
    else none) = some rest
  rw [if_pos h1, if_pos h2, if_pos rfl]

/-- `\d{4}sep` consumes four digits and the separator. -/
theorem matchD4Sep_some (sep d1 d2 d3 d4 : Char) (rest : List Char)
    (h1 : d1.isDigit = true) (h2 : d2.isDigit = true)
    (h3 : d3.isDigit = true) (h4 : d4.isDigit = true) :
    matchD4Sep sep (d1 :: d2 :: d3 :: d4 :: sep :: rest) = some rest := by
  show (if (d1.isDigit && d2.isDigit && d3.isDigit && d4.isDigit &&
      decide (sep = sep)) = true then some rest else none) = some rest
  rw [if_pos (by simp [h1, h2, h3, h4])]

/-- A 1-or-2-digit `_strptime` field on a zero-padded two-digit value
offers that value first. -/
theorem fieldCandidates_pad2 (hi m : Nat) (rest : List Char)
    (h1 : 1 ≤ m) (h2 : m ≤ hi) (hm : m < 100) :
    ∃ tail, fieldCandidates hi (pad2 m ++ rest) = (m, rest) :: tail := by
  show ∃ tail,
    fieldCandidates hi (Nat.digitChar (m / 10 % 10) ::
      Nat.digitChar (m % 10) :: rest) = (m, rest) :: tail
  rw [show fieldCandidates hi (Nat.digitChar (m / 10 % 10) ::
      Nat.digitChar (m % 10) :: rest) =
      (if (Nat.digitChar (m / 10 % 10)).isDigit ∧
          (Nat.digitChar (m % 10)).isDigit ∧
          1 ≤ val2 (Nat.digitChar (m / 10 % 10)) (Nat.digitChar (m % 10)) ∧
          val2 (Nat.digitChar (m / 10 % 10)) (Nat.digitChar (m % 10)) ≤ hi
        then [(val2 (Nat.digitChar (m / 10 % 10)) (Nat.digitChar (m % 10)),
          rest)] else []) ++
      (if (Nat.digitChar (m / 10 % 10)).isDigit ∧
          1 ≤ (Nat.digitChar (m / 10 % 10)).toNat - 48
        then [((Nat.digitChar (m / 10 % 10)).toNat - 48,
          Nat.digitChar (m % 10) :: rest)] else []) from rfl]
  rw [val2_digitChar (m / 10 % 10) (m % 10) (Nat.mod_lt _ (by norm_num))
    (Nat.mod_lt _ (by norm_num))]
  rw [if_pos ⟨(digitChar_lt10 _ (Nat.mod_lt _ (by norm_num))).1,
    (digitChar_lt10 _ (Nat.mod_lt _ (by norm_num))).1,
    by omega, by omega⟩]
  exact ⟨_, by rw [show m / 10 % 10 * 10 + m % 10 = m by omega]; rfl⟩

/-- `%Y` on a zero-padded four-digit year. -/
theorem year4_pad4 (y : Nat) (hy : y ≤ 9999) (rest : List Char) :
    year4 (pad4 y ++ rest) = some (y, rest) := by
  show (if ((Nat.digitChar (y / 1000 % 10)).isDigit &&
      (Nat.digitChar (y / 100 % 10)).isDigit &&
      (Nat.digitChar (y / 10 % 10)).isDigit &&
      (Nat.digitChar (y % 10)).isDigit) = true then
      some (digitsVal [Nat.digitChar (y / 1000 % 10),
        Nat.digitChar (y / 100 % 10), Nat.digitChar (y / 10 % 10),
        Nat.digitChar (y % 10)], rest)
    else none) = some (y, rest)
  rw [if_pos (by simp [(digitChar_lt10 _ (Nat.mod_lt _ (by norm_num))).1])]
  rw [show digitsVal [Nat.digitChar (y / 1000 % 10),
      Nat.digitChar (y / 100 % 10), Nat.digitChar (y / 10 % 10),
      Nat.digitChar (y % 10)] = digitsVal (pad4 y) from rfl]
  rw [digitsVal_pad4 y hy]

/-- One expected literal character. -/
theorem expectChar_self (sep : Char) (rest : List Char) :
    expectChar sep (sep :: rest) = some rest := by
  show (if sep = sep then some rest else none) = some rest
  rw [if_pos rfl]

/-- `%Y-%m-%d` parses its own `strftime` output back to the same date. -/
theorem strptimeYMD_pads (y m d : Nat) (hy1 : 1 ≤ y) (hy2 : y ≤ 9999)
    (hm1 : 1 ≤ m) (hm2 : m ≤ 12) (hd1 : 1 ≤ d) (hd2 : d ≤ 31)
    (hdm : d ≤ daysInMonth y m) :
    strptimeYMD (pad4 y ++ '-' :: pad2 m ++ '-' :: pad2 d) =
      some (y, m, d) := by
  show strptimeYMD (pad4 y ++ ('-' :: (pad2 m ++ ('-' :: pad2 d)))) =
    some (y, m, d)
  unfold strptimeYMD
  rw [year4_pad4 y hy2 ('-' :: (pad2 m ++ ('-' :: pad2 d))), Option.some_bind]
  dsimp only
  rw [expectChar_self '-' (pad2 m ++ ('-' :: pad2 d)), Option.some_bind]
  obtain ⟨tailm, htailm⟩ :=
    fieldCandidates_pad2 12 m ('-' :: pad2 d) hm1 hm2 (by omega)

  rw [htailm, List.findSome?_cons]
  dsimp only
  rw [expectChar_self '-' (pad2 d), Option.some_bind]
  obtain ⟨taild, htaild⟩ := fieldCandidates_pad2 31 d [] hd1 hd2 (by omega)
  rw [List.append_nil] at htaild
  rw [htaild, List.findSome?_cons]
  dsimp only
  rw [if_pos rfl]
  unfold mkValidDate
  rw [if_pos ⟨hy1, hy2, hdm⟩]

/-- `%m/%d/%Y` parses its own `strftime` output back to the same date. -/
theorem strptimeMDY_pads (y m d : Nat) (hy1 : 1 ≤ y) (hy2 : y ≤ 9999)
    (hm1 : 1 ≤ m) (hm2 : m ≤ 12) (hd1 : 1 ≤ d) (hd2 : d ≤ 31)
    (hdm : d ≤ daysInMonth y m) :
    strptimeMDY '/' (pad2 m ++ '/' :: pad2 d ++ '/' :: pad4 y) =
      some (y, m, d) := by
  show strptimeMDY '/' (pad2 m ++ ('/' :: (pad2 d ++ ('/' :: pad4 y)))) =
    some (y, m, d)
  unfold strptimeMDY
  obtain ⟨tailm, htailm⟩ :=
    fieldCandidates_pad2 12 m ('/' :: (pad2 d ++ ('/' :: pad4 y))) hm1 hm2
      (by omega)
  rw [htailm, List.findSome?_cons]
  dsimp only
  rw [expectChar_self '/' (pad2 d ++ ('/' :: pad4 y)), Option.some_bind]
  obtain ⟨taild, htaild⟩ :=
    fieldCandidates_pad2 31 d ('/' :: pad4 y) hd1 hd2 (by omega)
  rw [htaild, List.findSome?_cons]
  dsimp only
  rw [expectChar_self '/' (pad4 y), Option.some_bind]
  rw [show pad4 y = pad4 y ++ [] by rw [List.append_nil]]
  rw [year4_pad4 y hy2 []]
  unfold mkValidDate
  dsimp only
  rw [if_pos ⟨hy1, hy2, hdm⟩]

/-- The ISO output contains no slash, so pattern 1 fails on it. -/
theorem reMDY4slash_iso (y m d : Nat) :
    reMDY4slash (pad4 y ++ '-' :: pad2 m ++ '-' :: pad2 d) = false := by
  unfold reMDY4slash
  rw [show pad4 y ++ '-' :: pad2 m ++ '-' :: pad2 d =
      Nat.digitChar (y / 1000 % 10) :: Nat.digitChar (y / 100 % 10) ::
      Nat.digitChar (y / 10 % 10) :: (Nat.digitChar (y % 10) :: '-' ::
      (pad2 m ++ ('-' :: pad2 d))) from rfl]
  rw [matchD12Sep_none '/' _ _ _ _
    (digitChar_lt10 _ (Nat.mod_lt _ (by norm_num))).1
    (digitChar_lt10 _ (Nat.mod_lt _ (by norm_num))).1
    (digitChar_lt10 _ (Nat.mod_lt _ (by norm_num))).2.2.2
    (digitChar_lt10 _ (Nat.mod_lt _ (by norm_num))).2.2.2]

/-- The ISO output starts with four digits, so pattern 2 fails on it. -/
theorem reMDY4dash_iso (y m d : Nat) :
    reMDY4dash (pad4 y ++ '-' :: pad2 m ++ '-' :: pad2 d) = false := by
  unfold reMDY4dash
  rw [show pad4 y ++ '-' :: pad2 m ++ '-' :: pad2 d =
      Nat.digitChar (y / 1000 % 10) :: Nat.digitChar (y / 100 % 10) ::
      Nat.digitChar (y / 10 % 10) :: (Nat.digitChar (y % 10) :: '-' ::
      (pad2 m ++ ('-' :: pad2 d))) from rfl]
  rw [matchD12Sep_none '-' _ _ _ _
    (digitChar_lt10 _ (Nat.mod_lt _ (by norm_num))).1
    (digitChar_lt10 _ (Nat.mod_lt _ (by norm_num))).1
    (digitChar_lt10 _ (Nat.mod_lt _ (by norm_num))).2.2.1
    (digitChar_lt10 _ (Nat.mod_lt _ (by norm_num))).2.2.1]

/-- Pattern 3 recognizes the ISO output. -/
theorem reYMD_iso (y m d : Nat) :
    reYMD (pad4 y ++ '-' :: pad2 m ++ '-' :: pad2 d) = true := by
  unfold reYMD
  rw [show pad4 y ++ '-' :: pad2 m ++ '-' :: pad2 d =
      Nat.digitChar (y / 1000 % 10) :: Nat.digitChar (y / 100 % 10) ::
      Nat.digitChar (y / 10 % 10) :: Nat.digitChar (y % 10) :: '-' ::
      (pad2 m ++ ('-' :: pad2 d)) from rfl]
  rw [matchD4Sep_some '-' _ _ _ _ _
    (digitChar_lt10 _ (Nat.mod_lt _ (by norm_num))).1
    (digitChar_lt10 _ (Nat.mod_lt _ (by norm_num))).1
    (digitChar_lt10 _ (Nat.mod_lt _ (by norm_num))).1
    (digitChar_lt10 _ (Nat.mod_lt _ (by norm_num))).1]
  dsimp only
  rw [show pad2 m ++ ('-' :: pad2 d) = Nat.digitChar (m / 10 % 10) ::
      Nat.digitChar (m % 10) :: '-' :: pad2 d from rfl]
  rw [matchD12Sep_two '-' _ _ (pad2 d)
    (digitChar_lt10 _ (Nat.mod_lt _ (by norm_num))).1
    (digitChar_lt10 _ (Nat.mod_lt _ (by norm_num))).1]
  dsimp only
  rw [show matchD1 (pad2 d) = (Nat.digitChar (d / 10 % 10)).isDigit
      from rfl]
  exact (digitChar_lt10 _ (Nat.mod_lt _ (by norm_num))).1

/-- Pattern 1 recognizes the US output. -/
theorem reMDY4slash_us (y m d : Nat) :
    reMDY4slash (pad2 m ++ '/' :: pad2 d ++ '/' :: pad4 y) = true := by
  unfold reMDY4slash
  rw [show pad2 m ++ '/' :: pad2 d ++ '/' :: pad4 y =
      Nat.digitChar (m / 10 % 10) :: Nat.digitChar (m % 10) :: '/' ::
      (pad2 d ++ ('/' :: pad4 y)) from rfl]
  rw [matchD12Sep_two '/' _ _ _
    (digitChar_lt10 _ (Nat.mod_lt _ (by norm_num))).1
    (digitChar_lt10 _ (Nat.mod_lt _ (by norm_num))).1]
  dsimp only
  rw [show pad2 d ++ ('/' :: pad4 y) = Nat.digitChar (d / 10 % 10) ::
      Nat.digitChar (d % 10) :: '/' :: pad4 y from rfl]
  rw [matchD12Sep_two '/' _ _ (pad4 y)
    (digitChar_lt10 _ (Nat.mod_lt _ (by norm_num))).1
    (digitChar_lt10 _ (Nat.mod_lt _ (by norm_num))).1]
  dsimp only
  rw [show matchD4 (pad4 y) = ((Nat.digitChar (y / 1000 % 10)).isDigit &&
      (Nat.digitChar (y / 100 % 10)).isDigit &&
      (Nat.digitChar (y / 10 % 10)).isDigit &&
      (Nat.digitChar (y % 10)).isDigit) from rfl]
  simp [(digitChar_lt10 _ (Nat.mod_lt _ (by norm_num))).1]

/-- A successful `datetime()` validation pins the result and its
bounds. -/
theorem mkValidDate_eq_some {y m d : Nat} {t : Nat × Nat × Nat}
    (h : mkValidDate y m d = some t) :
    t = (y, m, d) ∧ 1 ≤ y ∧ y ≤ 9999 ∧ d ≤ daysInMonth y m := by
  unfold mkValidDate at h
  split_ifs at h with hc
  · cases h
    exact ⟨rfl, hc.1, hc.2.1, hc.2.2⟩

/-- Values delivered by a 1-or-2-digit `_strptime` field lie in
`[1, hi]`. -/
theorem fieldCandidates_bounds (hi : Nat) (hhi : 9 ≤ hi) (l : List Char)
    (p : Nat × List Char) (hp : p ∈ fieldCandidates hi l) :
    1 ≤ p.1 ∧ p.1 ≤ hi := by
  cases l with
  | nil => cases hp
  | cons c1 r =>
    cases r with
    | nil =>
      by_cases hc : c1.isDigit = true ∧ 1 ≤ c1.toNat - 48
      · rw [show fieldCandidates hi [c1] =
            (if c1.isDigit ∧ 1 ≤ c1.toNat - 48 then [(c1.toNat - 48, [])]
             else []) from rfl, if_pos hc] at hp
        rw [List.mem_singleton] at hp
        subst hp
        have hdig := (isDigit_iff_toNat c1).mp hc.1
        exact ⟨hc.2, by omega⟩
      · rw [show fieldCandidates hi [c1] =
            (if c1.isDigit ∧ 1 ≤ c1.toNat - 48 then [(c1.toNat - 48, [])]
             else []) from rfl, if_neg hc] at hp
        cases hp
    | cons c2 rest =>
      rw [show fieldCandidates hi (c1 :: c2 :: rest) =
          (if c1.isDigit ∧ c2.isDigit ∧ 1 ≤ val2 c1 c2 ∧ val2 c1 c2 ≤ hi
           then [(val2 c1 c2, rest)] else []) ++
          (if c1.isDigit ∧ 1 ≤ c1.toNat - 48 then
            [(c1.toNat - 48, c2 :: rest)] else []) from rfl] at hp
      rcases List.mem_append.mp hp with h1 | h2
      · split_ifs at h1 with hc
        · rw [List.mem_singleton] at h1
          subst h1
          exact ⟨hc.2.2.1, hc.2.2.2⟩
        · cases h1
      · split_ifs at h2 with hc
        · rw [List.mem_singleton] at h2
          subst h2
          have hdig := (isDigit_iff_toNat c1).mp hc.1
          exact ⟨hc.2, by omega⟩
        · cases h2

/-- Bounds carried by a successful `%Y-%m-%d` parse. -/
theorem strptimeYMD_bounds (l : List Char) (y m d : Nat)
    (h : strptimeYMD l = some (y, m, d)) :
    1 ≤ y ∧ y ≤ 9999 ∧ 1 ≤ m ∧ m ≤ 12 ∧ 1 ≤ d ∧ d ≤ 31 ∧
      d ≤ daysInMonth y m := by
  unfold strptimeYMD at h
  rw [Option.bind_eq_some] at h
  obtain ⟨yr, hyr, h⟩ := h
  rw [Option.bind_eq_some] at h
  obtain ⟨r2, hr2, h⟩ := h
  obtain ⟨mc, hmc, h⟩ := List.exists_of_findSome?_eq_some h
  rw [Option.bind_eq_some] at h
  obtain ⟨r4, hr4, h⟩ := h
  obtain ⟨dc, hdc, h⟩ := List.exists_of_findSome?_eq_some h
  have hmB := fieldCandidates_bounds 12 (by norm_num) r2 mc hmc
  have hdB := fieldCandidates_bounds 31 (by norm_num) r4 dc hdc
  split_ifs at h
  obtain ⟨ht, hy1, hy2, hdm⟩ := mkValidDate_eq_some h
  have h1 : y = yr.1 := congrArg Prod.fst ht
  have h23 := congrArg Prod.snd ht
  have h2 : m = mc.1 := congrArg Prod.fst h23
  have h3 : d = dc.1 := congrArg Prod.snd h23
  subst h1
  subst h2
  subst h3
  exact ⟨hy1, hy2, hmB.1, hmB.2, hdB.1, hdB.2, hdm⟩

/-- Bounds carried by a successful `%m sep %d sep %Y` parse. -/
theorem strptimeMDY_bounds (sep : Char) (l : List Char) (y m d : Nat)
    (h : strptimeMDY sep l = some (y, m, d)) :
    1 ≤ y ∧ y ≤ 9999 ∧ 1 ≤ m ∧ m ≤ 12 ∧ 1 ≤ d ∧ d ≤ 31 ∧
      d ≤ daysInMonth y m := by
  unfold strptimeMDY at h
  obtain ⟨mc, hmc, h⟩ := List.exists_of_findSome?_eq_some h
  rw [Option.bind_eq_some] at h
  obtain ⟨r2, hr2, h⟩ := h
  obtain ⟨dc, hdc, h⟩ := List.exists_of_findSome?_eq_some h
  rw [Option.bind_eq_some] at h
  obtain ⟨r4, hr4, h⟩ := h
  have hmB := fieldCandidates_bounds 12 (by norm_num) l mc hmc
  have hdB := fieldCandidates_bounds 31 (by norm_num) r2 dc hdc
  split at h
  · obtain ⟨ht, hy1, hy2, hdm⟩ := mkValidDate_eq_some h
    have h1 : y = _ := congrArg Prod.fst ht
    have h23 := congrArg Prod.snd ht
    have h2 : m = mc.1 := congrArg Prod.fst h23
    have h3 : d = dc.1 := congrArg Prod.snd h23
    subst h1
    subst h2
    subst h3
    exact ⟨hy1, hy2, hmB.1, hmB.2, hdB.1, hdB.2, hdm⟩
  · exact Option.noConfusion h

/-- Bounds carried by a successful `%m/%d/%y` parse. -/
theorem strptimeMDy_bounds (l : List Char) (y m d : Nat)
    (h : strptimeMDy l = some (y, m, d)) :
    1 ≤ y ∧ y ≤ 9999 ∧ 1 ≤ m ∧ m ≤ 12 ∧ 1 ≤ d ∧ d ≤ 31 ∧
      d ≤ daysInMonth y m := by
  unfold strptimeMDy at h
  obtain ⟨mc, hmc, h⟩ := List.exists_of_findSome?_eq_some h
  rw [Option.bind_eq_some] at h
  obtain ⟨r2, hr2, h⟩ := h
  obtain ⟨dc, hdc, h⟩ := List.exists_of_findSome?_eq_some h
  rw [Option.bind_eq_some] at h
  obtain ⟨r4, hr4, h⟩ := h
  have hmB := fieldCandidates_bounds 12 (by norm_num) l mc hmc
  have hdB := fieldCandidates_bounds 31 (by norm_num) r2 dc hdc
  split at h
  · split_ifs at h
    dsimp only at h
    obtain ⟨ht, hy1, hy2, hdm⟩ := mkValidDate_eq_some h
    have h1 : y = _ := congrArg Prod.fst ht
    have h23 := congrArg Prod.snd ht
    have h2 : m = mc.1 := congrArg Prod.fst h23
    have h3 : d = dc.1 := congrArg Prod.snd h23
    subst h1
    subst h2
    subst h3
    exact ⟨hy1, hy2, hmB.1, hmB.2, hdB.1, hdB.2, hdm⟩
  · exact Option.noConfusion h

/-- `_normalize_date` fixes its own ISO output (any non-`US`, non-`EU`
target format). -/
theorem normalizeDateCell_iso (fmt : String) (hUS : fmt ≠ "US")
    (hEU : fmt ≠ "EU") (y m d : Nat) (hy1 : 1 ≤ y) (hy2 : y ≤ 9999)
    (hm1 : 1 ≤ m) (hm2 : m ≤ 12) (hd1 : 1 ≤ d) (hd2 : d ≤ 31)
    (hdm : d ≤ daysInMonth y m) :
    normalizeDateCell fmt
      (String.mk (pad4 y ++ '-' :: pad2 m ++ '-' :: pad2 d)) =
      String.mk (pad4 y ++ '-' :: pad2 m ++ '-' :: pad2 d) := by
  unfold normalizeDateCell
  dsimp only
  rw [reMDY4slash_iso y m d, if_neg (by simp)]
  dsimp only
  rw [reMDY4dash_iso y m d, if_neg (by simp)]
  dsimp only
  rw [reYMD_iso y m d, if_pos rfl]
  rw [strptimeYMD_pads y m d hy1 hy2 hm1 hm2 hd1 hd2 hdm]
  dsimp only
  unfold formatDate
  by_cases hISO : fmt = "ISO"
  · rw [if_pos hISO]
  · rw [if_neg hISO, if_neg hUS, if_neg hEU]

/-- `_normalize_date` fixes its own US output. -/
theorem normalizeDateCell_us (y m d : Nat) (hy1 : 1 ≤ y) (hy2 : y ≤ 9999)
    (hm1 : 1 ≤ m) (hm2 : m ≤ 12) (hd1 : 1 ≤ d) (hd2 : d ≤ 31)
    (hdm : d ≤ daysInMonth y m) :
    normalizeDateCell "US"
      (String.mk (pad2 m ++ '/' :: pad2 d ++ '/' :: pad4 y)) =
      String.mk (pad2 m ++ '/' :: pad2 d ++ '/' :: pad4 y) := by
  unfold normalizeDateCell
  dsimp only
  rw [reMDY4slash_us y m d, if_pos rfl]
  rw [strptimeMDY_pads y m d hy1 hy2 hm1 hm2 hd1 hd2 hdm]
  dsimp only
  unfold formatDate
  rw [if_neg (by decide), if_pos rfl]

/-- Every `_normalize_date` run either returns the cell unchanged or a
`strftime` rendering of a calendar-validated date. -/
theorem normalizeDateCell_cases (fmt : String) (s : String) :
    normalizeDateCell fmt s = s ∨
      ∃ y m d, (1 ≤ y ∧ y ≤ 9999 ∧ 1 ≤ m ∧ m ≤ 12 ∧ 1 ≤ d ∧ d ≤ 31 ∧
        d ≤ daysInMonth y m) ∧
        normalizeDateCell fmt s = formatDate fmt y m d := by
  unfold normalizeDateCell
  dsimp only
  cases h1 : (if reMDY4slash s.data = true then strptimeMDY '/' s.data
      else none) with
  | some t =>
    obtain ⟨y, m, d⟩ := t
    right
    refine ⟨y, m, d, ?_, rfl⟩
    by_cases hre : reMDY4slash s.data = true
    · rw [if_pos hre] at h1
      exact strptimeMDY_bounds '/' s.data y m d h1
    · rw [if_neg hre] at h1
      exact Option.noConfusion h1
  | none =>
    dsimp only
    cases h2 : (if reMDY4dash s.data = true then strptimeMDY '-' s.data
        else none) with
    | some t =>
      obtain ⟨y, m, d⟩ := t
      right
      refine ⟨y, m, d, ?_, rfl⟩
      by_cases hre : reMDY4dash s.data = true
      · rw [if_pos hre] at h2
        exact strptimeMDY_bounds '-' s.data y m d h2
      · rw [if_neg hre] at h2
        exact Option.noConfusion h2
    | none =>
      dsimp only
      cases h3 : (if reYMD s.data = true then strptimeYMD s.data
          else none) with
      | some t =>
        obtain ⟨y, m, d⟩ := t
        right
        refine ⟨y, m, d, ?_, rfl⟩
        by_cases hre : reYMD s.data = true
        · rw [if_pos hre] at h3
          exact strptimeYMD_bounds s.data y m d h3
        · rw [if_neg hre] at h3
          exact Option.noConfusion h3
      | none =>
        dsimp only
        cases h4 : (if reMDy2 s.data = true then strptimeMDy s.data
            else none) with
        | some t =>
          obtain ⟨y, m, d⟩ := t
          right
          refine ⟨y, m, d, ?_, rfl⟩
          by_cases hre : reMDy2 s.data = true
          · rw [if_pos hre] at h4
            exact strptimeMDy_bounds s.data y m d h4
          · rw [if_neg hre] at h4
            exact Option.noConfusion h4
        | none =>
          left
          rfl

/-- For every target format except `'EU'`, `_normalize_date` is
idempotent per cell. -/
theorem normalizeDateCell_idem (fmt : String) (hEU : fmt ≠ "EU")
    (s : String) :
    normalizeDateCell fmt (normalizeDateCell fmt s) =
      normalizeDateCell fmt s := by
  rcases normalizeDateCell_cases fmt s with h | ⟨y, m, d, hb, h⟩
  · rw [h]
    exact h
  · rw [h]
    obtain ⟨hy1, hy2, hm1, hm2, hd1, hd2, hdm⟩ := hb
    by_cases hUS : fmt = "US"
    · subst hUS
      have hfd : formatDate "US" y m d =
          String.mk (pad2 m ++ '/' :: pad2 d ++ '/' :: pad4 y) := by
        unfold formatDate
        rw [if_neg (by decide), if_pos rfl]
      rw [hfd]
      exact normalizeDateCell_us y m d hy1 hy2 hm1 hm2 hd1 hd2 hdm
    · have hfd : formatDate fmt y m d =
          String.mk (pad4 y ++ '-' :: pad2 m ++ '-' :: pad2 d) := by
        unfold formatDate
        by_cases hISO : fmt = "ISO"
        · rw [if_pos hISO]
        · rw [if_neg hISO, if_neg hUS, if_neg hEU]
      rw [hfd]
      exact normalizeDateCell_iso fmt hUS hEU y m d hy1 hy2 hm1 hm2 hd1
        hd2 hdm

/-- Re-running `normalize_dates` with the same non-`EU` target format
changes nothing and reports zero modified cells. -/
theorem normalize_dates_idem (rows : List (List String))
    (headers : List String) (date_columns : List String) (fmt : String)
    (hEU : fmt ≠ "EU") :
    normalize_dates (normalize_dates rows headers date_columns fmt).1
      headers date_columns fmt =
      ((normalize_dates rows headers date_columns fmt).1, 0) := by
  by_cases h : rows = []
  · subst h
    rfl
  · have hR : (normalize_dates rows headers date_columns fmt).1 =
        (tableApply rows
          (date_columns.filterMap (fun c => headers.findIdx? (· = c)))
          (normalizeDateCell fmt) true).1 := by
      rw [normalize_dates, if_neg h]
    rw [hR, normalize_dates, if_neg (by simp [tableApply, h])]
    exact tableApply_idem rows _ (normalizeDateCell fmt) true
      (normalizeDateCell_idem fmt hEU)

/-- C8: amended idempotence of the cleaning operations: re-running
`remove_duplicates` (any pair of keep modes), `normalize_whitespace`,
`standardize_case` (any mode), `remove_empty_rows` (same threshold) or
`normalize_dates` (same non-`'EU'` target format) on its own output
removes zero rows and modifies zero cells; re-running
`fill_missing_values` leaves the row set unchanged (its reported filled
count may repeat when the fill value is itself blank); and
`remove_empty_rows(threshold=1.0)` removes exactly the rows all of whose
cells are empty or whitespace.  `normalize_dates` with `'EU'` is
excluded: it swaps day and month on every run. -/
theorem cleaning_ops_idempotent_amended :
    (∀ rows headers subset keep keep2,
      remove_duplicates (remove_duplicates rows headers subset keep).1
        headers subset keep2 =
        ((remove_duplicates rows headers subset keep).1, 0)) ∧
    (∀ rows headers columns,
      normalize_whitespace (normalize_whitespace rows headers columns).1
        headers columns =
        ((normalize_whitespace rows headers columns).1, 0)) ∧
    (∀ rows headers case_type columns,
      standardize_case
        (standardize_case rows headers case_type columns).1 headers
        case_type columns =
        ((standardize_case rows headers case_type columns).1, 0)) ∧
    (∀ rows threshold,
      remove_empty_rows (remove_empty_rows rows threshold).1 threshold =
        ((remove_empty_rows rows threshold).1, 0)) ∧
    (∀ rows, remove_empty_rows rows 1 =
      (rows.filter (fun row => ¬ row.all (fun c => isBlank c)),
       (rows.filter (fun row => row.all (fun c => isBlank c))).length)) ∧
    (∀ rows headers strategy value columns,
      (fill_missing_values (fill_missing_values rows headers strategy
        value columns).1 headers strategy value columns).1 =
        (fill_missing_values rows headers strategy value columns).1) ∧
    (∀ fmt, fmt ≠ "EU" → ∀ rows headers date_columns,
      normalize_dates (normalize_dates rows headers date_columns fmt).1
        headers date_columns fmt =
        ((normalize_dates rows headers date_columns fmt).1, 0)) :=
  ⟨remove_duplicates_idem,
   normalize_whitespace_idem,
   standardize_case_idem,
   remove_empty_rows_idem,
   remove_empty_rows_one,
   fill_missing_rows_idem,
   fun fmt hfmt rows headers date_columns =>
     normalize_dates_idem rows headers date_columns fmt hfmt⟩

/-- Witness: the amended idempotence theorem at concrete inputs, with
the non-`'EU'` hypothesis discharged at `'ISO'`. -/
theorem cleaning_ops_idempotent_amended_witness :
    normalize_dates (normalize_dates [["01/02/2020"]] ["d"] ["d"]
      "ISO").1 ["d"] ["d"] "ISO" =
      ((normalize_dates [["01/02/2020"]] ["d"] ["d"] "ISO").1, 0) ∧
    remove_duplicates (remove_duplicates [["a"], ["a"]] ["h"] none
      "first").1 ["h"] none "last" =
      ((remove_duplicates [["a"], ["a"]] ["h"] none "first").1, 0) :=
  ⟨cleaning_ops_idempotent_amended.2.2.2.2.2.2 "ISO" (by decide)
    [["01/02/2020"]] ["d"] ["d"],
   cleaning_ops_idempotent_amended.1 [["a"], ["a"]] ["h"] none "first"
     "last"⟩

/-- C8 counterexample: `normalize_dates` with target `'EU'` swaps day
and month on every run (two runs restore the input, each reporting one
modified cell), and a second `fill_missing_values` run can report a
nonzero filled count even though it changes no cell. -/
theorem normalize_dates_eu_not_idempotent_cex :
    normalize_dates [["01/02/2020"]] ["d"] ["d"] "EU" =
      ([["02/01/2020"]], 1) ∧
    normalize_dates [["02/01/2020"]] ["d"] ["d"] "EU" =
      ([["01/02/2020"]], 1) ∧
    fill_missing_values [[" "], ["x"]] ["h"] "empty" "" none =
      ([[""], ["x"]], 1) ∧
    fill_missing_values [[""], ["x"]] ["h"] "empty" "" none =
      ([[""], ["x"]], 1) :=
  ⟨by rfl, by rfl, by rfl, by rfl⟩

end Csvise
